import Mathlib

/-!
# Verification of the gorelly storage engine core

This file gives a shallow embedding, in Lean 4, of the core data structures and
algorithms of the gorelly storage engine (a pedagogical RDBMS written in Go):
the slotted page, the clock buffer pool, the B+ tree, the lock manager, the
write-ahead log and the recovery manager, together with theorems checking the
engine's specification against this embedding.

Conventions used throughout:
* Go byte slices are `List Nat` (entries are byte values).
* Go machine integers are `Nat` / `Int`; where an overflowing Go operation
  matters (`uint16` header arithmetic in the slotted page) the embedding takes
  the result modulo `2 ^ 16` exactly as the hardware would.
* Fallible Go functions return `Option` / a dedicated result inductive; a Go
  `panic` is an explicit `crash`-style constructor.
* Go structures that are mutated in place become explicit state passed in and
  out of each operation.
-/

namespace Gorelly

/-- A byte string (Go `[]byte`).  Entries are byte values `0..255`; none of the
algorithms below depend on the upper bound, so it is not enforced by the type. -/
abbrev Bytes := List Nat

/-! ## `compareBytes` (btree/leaf/leaf.go, btree/internal/branch.go)

The Go function walks the common prefix of the two slices and returns
`-1` / `1` at the first mismatching byte, falling back to a comparison of the
lengths; the recursion below performs the identical comparison. -/

/-- Three-way lexicographic comparison of byte strings, from `compareBytes`. -/
def compareBytes : Bytes → Bytes → Int
  | [], [] => 0
  | [], _ :: _ => -1
  | _ :: _, [] => 1
  | a :: as, b :: bs =>
    if a < b then -1
    else if b < a then 1
    else compareBytes as bs

theorem compareBytes_eq_zero_iff : ∀ a b : Bytes, compareBytes a b = 0 ↔ a = b := by
  intro a
  induction a with
  | nil => intro b; cases b <;> simp [compareBytes]
  | cons x as ih =>
    intro b
    cases b with
    | nil => simp [compareBytes]
    | cons y bs =>
      by_cases hxy : x < y
      · simp [compareBytes, hxy]
        omega
      · by_cases hyx : y < x
        · simp [compareBytes, hxy, hyx]
          omega
        · have hxyeq : x = y := by omega
          simp [compareBytes, hxy, hyx, hxyeq, ih]

theorem compareBytes_self (a : Bytes) : compareBytes a a = 0 :=
  (compareBytes_eq_zero_iff a a).mpr rfl

/-- `compareBytes` only returns `-1`, `0` or `1`. -/
theorem compareBytes_cases : ∀ a b : Bytes,
    compareBytes a b = -1 ∨ compareBytes a b = 0 ∨ compareBytes a b = 1 := by
  intro a
  induction a with
  | nil => intro b; cases b <;> simp [compareBytes]
  | cons x as ih =>
    intro b
    cases b with
    | nil => simp [compareBytes]
    | cons y bs =>
      by_cases hxy : x < y
      · simp [compareBytes, hxy]
      · by_cases hyx : y < x
        · simp [compareBytes, hxy, hyx]
        · simpa [compareBytes, hxy, hyx] using ih bs

theorem compareBytes_antisymm : ∀ a b : Bytes,
    compareBytes b a = -compareBytes a b := by
  intro a
  induction a with
  | nil => intro b; cases b <;> simp [compareBytes]
  | cons x as ih =>
    intro b
    cases b with
    | nil => simp [compareBytes]
    | cons y bs =>
      by_cases hxy : x < y
      · have : ¬ y < x := by omega
        simp [compareBytes, hxy, this]
      · by_cases hyx : y < x
        · simp [compareBytes, hxy, hyx]
        · simp [compareBytes, hxy, hyx, ih bs]

/-- Strict order on byte strings induced by `compareBytes`. -/
def bytesLT (a b : Bytes) : Prop := compareBytes a b = -1

instance : DecidablePred fun p : Bytes × Bytes => compareBytes p.1 p.2 = -1 := by
  intro p; exact inferInstance

theorem bytesLT_trans : ∀ a b c : Bytes, bytesLT a b → bytesLT b c → bytesLT a c := by
  intro a
  induction a with
  | nil =>
    intro b c hab hbc
    cases c with
    | nil =>
      cases b with
      | nil => exact hbc
      | cons y bs => simp [bytesLT, compareBytes] at hbc
    | cons z cs => simp [bytesLT, compareBytes]
  | cons x as ih =>
    intro b c hab hbc
    cases b with
    | nil => simp [bytesLT, compareBytes] at hab
    | cons y bs =>
      cases c with
      | nil => simp [bytesLT, compareBytes] at hbc
      | cons z cs =>
        simp only [bytesLT, compareBytes] at hab hbc ⊢
        by_cases hxy : x < y <;> by_cases hyz : y < z
        · have hxz : x < z := by omega
          simp [hxz]
        · by_cases hzy : z < y
          · simp [hyz, hzy] at hbc
          · have hyzeq : y = z := by omega
            subst hyzeq
            simp [hxy]
        · by_cases hyx : y < x
          · simp [hxy, hyx] at hab
          · have hxyeq : x = y := by omega
            subst hxyeq
            simp [hyz]
        · by_cases hyx : y < x
          · simp [hxy, hyx] at hab
          · have hxyeq : x = y := by omega
            subst hxyeq
            by_cases hzy : z < x
            · simp [hyz, hzy] at hbc
            · have hyzeq : x = z := by omega
              subst hyzeq
              simp only [lt_irrefl, if_false] at hab hbc ⊢
              exact ih bs cs hab hbc

theorem bytesLT_irrefl (a : Bytes) : ¬ bytesLT a a := by
  simp [bytesLT, compareBytes_self]

theorem bytesLT_of_compare_pos {a b : Bytes} (h : compareBytes a b = 1) : bytesLT b a := by
  have := compareBytes_antisymm a b
  simp [bytesLT, this, h]

theorem compare_pos_of_bytesLT {a b : Bytes} (h : bytesLT b a) : compareBytes a b = 1 := by
  have h2 := compareBytes_antisymm b a
  rw [h2, h]
  norm_num

theorem bytesLT_trichotomy (a b : Bytes) :
    bytesLT a b ∨ a = b ∨ bytesLT b a := by
  rcases compareBytes_cases a b with h | h | h
  · exact Or.inl h
  · exact Or.inr (Or.inl ((compareBytes_eq_zero_iff a b).mp h))
  · exact Or.inr (Or.inr (bytesLT_of_compare_pos h))

theorem bytesLT_asymm {a b : Bytes} (h : bytesLT a b) : ¬ bytesLT b a := by
  intro h2
  exact bytesLT_irrefl a (bytesLT_trans a b a h h2)

theorem bytesLT_ne {a b : Bytes} (h : bytesLT a b) : a ≠ b := by
  intro he; subst he; exact bytesLT_irrefl a h

/-! ## Binary search (bsearch/bsearch.go)

`BinarySearchBy(size, f)` keeps `left < right` bounds; the Go loop carries a
`currentSize` variable that, at the head of every iteration, equals
`right - left` (it starts as `size = right - left` and is reassigned to
`right - left` at the end of each iteration), so `mid = left + currentSize/2`
is `left + (right - left)/2` below.  The `Bool` result is `true` when the
element was found (Go `err == nil`) and `false` for the
insertion point (Go `ErrNotFound`). -/

def binarySearchLoop (f : Nat → Int) : Nat → Nat → Nat → Nat × Bool
  | 0, left, _ => (left, false)
  | fuel + 1, left, right =>
    if left < right then
      if f (left + (right - left) / 2) < 0 then
        binarySearchLoop f fuel (left + (right - left) / 2 + 1) right
      else if 0 < f (left + (right - left) / 2) then
        binarySearchLoop f fuel left (left + (right - left) / 2)
      else
        (left + (right - left) / 2, true)
    else
      (left, false)

/-- The loop halves the window each pass, so `right - left` passes always
suffice; the fuel argument of `binarySearchLoop` is irrelevant beyond it. -/
theorem binarySearchLoop_fuel (f : Nat → Int) : ∀ fuel fuel2 left right,
    right - left ≤ fuel → right - left ≤ fuel2 →
    binarySearchLoop f fuel left right = binarySearchLoop f fuel2 left right := by
  intro fuel
  induction fuel with
  | zero =>
    intro fuel2 left right h1 h2
    have hlr : ¬ left < right := by omega
    cases fuel2 with
    | zero => rfl
    | succ m => rw [binarySearchLoop, binarySearchLoop, if_neg hlr]
  | succ n ih =>
    intro fuel2 left right h1 h2
    cases fuel2 with
    | zero =>
      have hlr : ¬ left < right := by omega
      rw [binarySearchLoop, binarySearchLoop, if_neg hlr]
    | succ m =>
      rw [binarySearchLoop, binarySearchLoop]
      by_cases hlr : left < right
      · rw [if_pos hlr, if_pos hlr]
        by_cases h3 : f (left + (right - left) / 2) < 0
        · rw [if_pos h3, if_pos h3]
          exact ih m _ _ (by omega) (by omega)
        · rw [if_neg h3, if_neg h3]
          by_cases h4 : 0 < f (left + (right - left) / 2)
          · rw [if_pos h4, if_pos h4]
            exact ih m _ _ (by omega) (by omega)
          · rw [if_neg h4, if_neg h4]
      · rw [if_neg hlr, if_neg hlr]

def binarySearchGo (f : Nat → Int) (left right : Nat) : Nat × Bool :=
  binarySearchLoop f (right - left) left right

/-- The recurrence the Go loop satisfies, in terms of `binarySearchGo`. -/
theorem binarySearchGo_eq (f : Nat → Int) (left right : Nat) :
    binarySearchGo f left right =
      if left < right then
        if f (left + (right - left) / 2) < 0 then
          binarySearchGo f (left + (right - left) / 2 + 1) right
        else if 0 < f (left + (right - left) / 2) then
          binarySearchGo f left (left + (right - left) / 2)
        else
          (left + (right - left) / 2, true)
      else
        (left, false) := by
  by_cases h : left < right
  · rw [if_pos h]
    have hf : binarySearchGo f left right =
        binarySearchLoop f (right - left - 1 + 1) left right := by
      unfold binarySearchGo
      exact binarySearchLoop_fuel f _ _ _ _ (le_refl _) (by omega)
    rw [hf, binarySearchLoop, if_pos h]
    by_cases h1 : f (left + (right - left) / 2) < 0
    · rw [if_pos h1, if_pos h1]
      unfold binarySearchGo
      exact binarySearchLoop_fuel f _ _ _ _ (by omega) (le_refl _)
    · rw [if_neg h1, if_neg h1]
      by_cases h2 : 0 < f (left + (right - left) / 2)
      · rw [if_pos h2, if_pos h2]
        unfold binarySearchGo
        exact binarySearchLoop_fuel f _ _ _ _ (by omega) (le_refl _)
      · rw [if_neg h2, if_neg h2]
  · rw [if_neg h]
    unfold binarySearchGo
    have h0 : right - left = 0 := by omega
    rw [h0, binarySearchLoop]

/-- `BinarySearchBy` from bsearch.go. -/
def binarySearchBy (size : Nat) (f : Nat → Int) : Nat × Bool :=
  binarySearchGo f 0 size

/-- Helper for induction on the width of the search window. -/
theorem binarySearchGo_bounds_aux (f : Nat → Int) : ∀ n left right,
    right - left ≤ n → left ≤ right →
    left ≤ (binarySearchGo f left right).1 ∧ (binarySearchGo f left right).1 ≤ right ∧
      ((binarySearchGo f left right).2 = true → (binarySearchGo f left right).1 < right) := by
  intro n
  induction n with
  | zero =>
    intro left right hn h
    rw [binarySearchGo_eq]
    have hlr : ¬ left < right := by omega
    rw [if_neg hlr]
    exact ⟨le_refl _, h, by simp⟩
  | succ n ih =>
    intro left right hn h
    rw [binarySearchGo_eq]
    by_cases hlr : left < right
    · rw [if_pos hlr]
      set mid := left + (right - left) / 2 with hmid
      have hmlt : mid < right := by omega
      have hmge : left ≤ mid := by omega
      by_cases hneg : f mid < 0
      · rw [if_pos hneg]
        have := ih (mid + 1) right (by omega) (by omega)
        exact ⟨by omega, this.2.1, this.2.2⟩
      · rw [if_neg hneg]
        by_cases hpos : 0 < f mid
        · rw [if_pos hpos]
          have := ih left mid (by omega) (by omega)
          exact ⟨this.1, by omega, fun hb => by have := this.2.2 hb; omega⟩
        · rw [if_neg hpos]
          exact ⟨hmge, by omega, fun _ => hmlt⟩
    · rw [if_neg hlr]
      exact ⟨le_refl _, h, by simp⟩

/-- The index returned by the search always lies between the bounds. -/
theorem binarySearchGo_bounds (f : Nat → Int) (left right : Nat) (h : left ≤ right) :
    left ≤ (binarySearchGo f left right).1 ∧ (binarySearchGo f left right).1 ≤ right ∧
      ((binarySearchGo f left right).2 = true → (binarySearchGo f left right).1 < right) :=
  binarySearchGo_bounds_aux f (right - left) left right (le_refl _) h

/-- Main characterisation of the Go binary search for a "sign-monotone"
comparison function: on success the returned slot compares equal, on failure
the returned slot is the insertion point (`f` is negative strictly below it and
positive from it on). -/
theorem binarySearchGo_spec_aux (f : Nat → Int) (size : Nat)
    (hmono : ∀ i j, i < j → j < size → (0 < f i → 0 < f j) ∧ (f j < 0 → f i < 0)) :
    ∀ n left right, right - left ≤ n → left ≤ right → right ≤ size →
    (∀ j, j < left → f j < 0) → (∀ j, right ≤ j → j < size → 0 < f j) →
    (((binarySearchGo f left right).2 = true → f (binarySearchGo f left right).1 = 0) ∧
     ((binarySearchGo f left right).2 = false →
        (∀ j, j < (binarySearchGo f left right).1 → f j < 0) ∧
        (∀ j, (binarySearchGo f left right).1 ≤ j → j < size → 0 < f j))) := by
  intro n
  induction n with
  | zero =>
    intro left right hn h hrs hlo hhi
    rw [binarySearchGo_eq]
    have hlr : ¬ left < right := by omega
    rw [if_neg hlr]
    constructor
    · simp
    · intro _
      exact ⟨hlo, fun j hj hjs => hhi j (by omega) hjs⟩
  | succ n ih =>
    intro left right hn h hrs hlo hhi
    rw [binarySearchGo_eq]
    by_cases hlr : left < right
    · rw [if_pos hlr]
      set mid := left + (right - left) / 2 with hmid
      have hmlt : mid < right := by omega
      have hmge : left ≤ mid := by omega
      by_cases hneg : f mid < 0
      · rw [if_pos hneg]
        refine ih (mid + 1) right (by omega) (by omega) hrs ?_ hhi
        intro j hj
        rcases Nat.lt_or_ge j mid with hj' | hj'
        · exact (hmono j mid hj' (by omega)).2 hneg
        · have : j = mid := by omega
          subst this; exact hneg
      · rw [if_neg hneg]
        by_cases hpos : 0 < f mid
        · rw [if_pos hpos]
          refine ih left mid (by omega) (by omega) (by omega) hlo ?_
          intro j hjm hjs
          rcases Nat.lt_or_ge mid j with hj' | hj'
          · exact (hmono mid j hj' hjs).1 hpos
          · have : j = mid := by omega
            subst this; exact hpos
        · rw [if_neg hpos]
          refine ⟨fun _ => ?_, by simp⟩
          show f mid = 0
          omega
    · rw [if_neg hlr]
      constructor
      · simp
      · intro _
        exact ⟨hlo, fun j hj hjs => hhi j (by omega) hjs⟩

/-- Main characterisation of the Go binary search for a sign-monotone
comparison function, at the top-level call `BinarySearchBy(size, f)`. -/
theorem binarySearchBy_spec (f : Nat → Int) (size : Nat)
    (hmono : ∀ i j, i < j → j < size → (0 < f i → 0 < f j) ∧ (f j < 0 → f i < 0)) :
    ((binarySearchBy size f).2 = true → f (binarySearchBy size f).1 = 0) ∧
    ((binarySearchBy size f).2 = false →
       (∀ j, j < (binarySearchBy size f).1 → f j < 0) ∧
       (∀ j, (binarySearchBy size f).1 ≤ j → j < size → 0 < f j)) :=
  binarySearchGo_spec_aux f size hmono size 0 size (by omega) (by omega) (le_refl _)
    (by omega) (fun j hj hjs => absurd hjs (by omega))

/-- Bounds at the top-level call: the result index is at most `size`, and
strictly below `size` when the key was found. -/
theorem binarySearchBy_bounds (f : Nat → Int) (size : Nat) :
    (binarySearchBy size f).1 ≤ size ∧
      ((binarySearchBy size f).2 = true → (binarySearchBy size f).1 < size) := by
  have := binarySearchGo_bounds f 0 size (by omega)
  exact ⟨this.2.1, this.2.2⟩

/-! ## Slotted page (slotted/slotted.go)

The slotted page lives inside a node body.  Its header stores `NumSlots` and
`FreeSpaceOffset` as `uint16`; the pointer array mirrors the Go `pointers`
slice.  `bodyLen` is `len(s.body)` (`Capacity()`).  The record bytes
themselves are written by the caller after `Insert` returns, so the model
tracks the header and the pointer array, which is all `Insert` manipulates. -/

/-- A slot pointer (`{offset uint16, len uint16}`). -/
structure SlotPointer where
  offset : Nat
  len : Nat
  deriving DecidableEq, Repr

/-- The state of a slotted page: header fields plus the pointer array. -/
structure Slotted where
  numSlots : Nat
  freeSpaceOffset : Nat
  bodyLen : Nat
  pointers : List SlotPointer
  deriving DecidableEq, Repr

namespace Slotted

/-- `PointerSize * NumSlots`. -/
def pointersSize (s : Slotted) : Int := 4 * (s.numSlots : Int)

/-- `FreeSpace() = int(FreeSpaceOffset) - PointersSize()` (Go `int` arithmetic,
which cannot underflow, hence `Int`). -/
def freeSpace (s : Slotted) : Int := (s.freeSpaceOffset : Int) - s.pointersSize

/-- `Capacity() = len(body)`. -/
def capacity (s : Slotted) : Int := (s.bodyLen : Int)

/-- `Initialize()` (`NumSlots = 0`, `FreeSpaceOffset = uint16(len(body))`,
empty pointer array). -/
def init (s : Slotted) : Slotted :=
  { s with numSlots := 0, freeSpaceOffset := s.bodyLen % 65536, pointers := [] }

/-- `Insert(index, dataLen)` from slotted.go.  Returns `none` when the Go
function returns `false`.  The header updates are `uint16` operations, hence
the `% 65536`; the pointer-slice manipulation (grow by one, shift the suffix
up by `copy(s.pointers[index+1:], s.pointers[index:])`, overwrite slot
`index`) is exactly an insertion at position `index` for any
`index ≤ numSlots`. -/
def insert (s : Slotted) (index : Nat) (dataLen : Nat) : Option Slotted :=
  if s.freeSpace < 4 + (dataLen : Int) then
    none
  else
    let newOffset := (s.freeSpaceOffset + (65536 - dataLen % 65536)) % 65536
    some { s with
      numSlots := (s.numSlots + 1) % 65536
      freeSpaceOffset := newOffset
      pointers := s.pointers.insertIdx index ⟨newOffset, dataLen⟩ }

end Slotted

/-- A slotted page is well formed when its `uint16` header fields are in range
and the pointer slice has `NumSlots` entries (as maintained by every slotted
page operation). -/
def SlottedWF (s : Slotted) : Prop :=
  s.numSlots < 65536 ∧ s.freeSpaceOffset < 65536 ∧ s.pointers.length = s.numSlots

instance : DecidablePred SlottedWF := fun s => by
  unfold SlottedWF; infer_instance

/-- C8.  Slotted page insert contract: `insert(index, data_len)` fails exactly
when `free_space() < 4 + data_len`, and otherwise decrements
`free_space_offset` by `data_len`, increments `num_slots`, shifts the pointers
at positions `≥ index` up by one and places the new pointer
`{offset: free_space_offset, len: data_len}` at position `index`
(`List.insertIdx` performs exactly that shift-and-place). -/
theorem slotted_insert_contract (s : Slotted) (index dataLen : Nat)
    (hwf : SlottedWF s) (_hidx : index ≤ s.numSlots) :
    (s.insert index dataLen = none ↔ s.freeSpace < 4 + (dataLen : Int)) ∧
    (∀ t, s.insert index dataLen = some t →
      t.freeSpaceOffset = s.freeSpaceOffset - dataLen ∧
      t.numSlots = s.numSlots + 1 ∧
      t.pointers =
        s.pointers.insertIdx index ⟨s.freeSpaceOffset - dataLen, dataLen⟩ ∧
      t.bodyLen = s.bodyLen) := by
  obtain ⟨hns, hfso, _hlen⟩ := hwf
  unfold Slotted.insert
  by_cases hfull : s.freeSpace < 4 + (dataLen : Int)
  · rw [if_pos hfull]
    exact ⟨by simp [hfull], by simp⟩
  · rw [if_neg hfull]
    refine ⟨by simp [hfull], ?_⟩
    intro t ht
    -- the guard gives 4·numSlots + 4 + dataLen ≤ freeSpaceOffset (over ℤ),
    -- so none of the uint16 operations wraps
    have hroom : 4 * s.numSlots + 4 + dataLen ≤ s.freeSpaceOffset := by
      unfold Slotted.freeSpace Slotted.pointersSize at hfull
      omega
    have hdl : dataLen % 65536 = dataLen := Nat.mod_eq_of_lt (by omega)
    have hoff : (s.freeSpaceOffset + (65536 - dataLen % 65536)) % 65536 =
        s.freeSpaceOffset - dataLen := by
      rw [hdl]
      omega
    have hnum : (s.numSlots + 1) % 65536 = s.numSlots + 1 :=
      Nat.mod_eq_of_lt (by omega)
    rw [Option.some_inj] at ht
    subst ht
    refine ⟨hoff, hnum, ?_, rfl⟩
    rw [hoff]

/-- Witness for C8 at a concrete slotted page: one existing 28-byte record in a
128-byte body, inserting a 20-byte record at slot 0. -/
theorem slotted_insert_contract_witness :
    SlottedWF ⟨1, 100, 128, [⟨100, 28⟩]⟩ ∧ (0 : Nat) ≤ 1 ∧
    ((Slotted.insert ⟨1, 100, 128, [⟨100, 28⟩]⟩ 0 20 = none ↔
        Slotted.freeSpace ⟨1, 100, 128, [⟨100, 28⟩]⟩ < 4 + (20 : Int)) ∧
     (∀ t, Slotted.insert ⟨1, 100, 128, [⟨100, 28⟩]⟩ 0 20 = some t →
       t.freeSpaceOffset = 100 - 20 ∧
       t.numSlots = 1 + 1 ∧
       t.pointers = ([⟨100, 28⟩] : List SlotPointer).insertIdx 0 ⟨100 - 20, 20⟩ ∧
       t.bodyLen = 128)) :=
  ⟨by decide, by decide,
    slotted_insert_contract ⟨1, 100, 128, [⟨100, 28⟩]⟩ 0 20 (by decide) (by decide)⟩

/-! ## Buffer pool (buffer/buffer.go)

A `Frame` owns one buffer: the cached page's id, the 4096-byte payload, the
dirty flag and the clock `usageCount`.  `InvalidPageID = 2^64 - 1` is the id a
fresh frame carries. -/

/-- `disk.InvalidPageID`. -/
def invalidPageID : Nat := 2 ^ 64 - 1

/-- A 4096-byte page of zeroes (a fresh page after an EOF read). -/
def zeroPage : Bytes := List.replicate 4096 0

/-- One buffer-pool frame (Go `Frame` + its `Buffer`, flattened). -/
structure Frame where
  usageCount : Nat
  pageID : Nat
  isDirty : Bool
  page : Bytes
  deriving DecidableEq, Repr

instance : Inhabited Frame := ⟨⟨0, invalidPageID, false, []⟩⟩

/-- The clock buffer pool: the frame array and the clock hand. -/
structure BufferPool where
  frames : List Frame
  nextVictimID : Nat
  deriving DecidableEq, Repr

namespace BufferPool

/-- Sum of all `usageCount`s; every non-returning clock iteration decreases it
by one, so it bounds the number of loop iterations of `Evict`. -/
def totalUsage (p : BufferPool) : Nat :=
  (p.frames.map Frame.usageCount).sum

/-- The frame the clock hand points at. -/
def handFrame (p : BufferPool) : Frame :=
  p.frames.getD (p.nextVictimID % p.frames.length) default

/-- The pool after decrementing the hand frame's usage count and advancing the
hand. -/
def decrementHand (p : BufferPool) : BufferPool :=
  { frames := p.frames.set (p.nextVictimID % p.frames.length)
      { p.handFrame with usageCount := p.handFrame.usageCount - 1 },
    nextVictimID := (p.nextVictimID % p.frames.length + 1) % p.frames.length }

/-- The body of the `for {}` loop of `Evict` from buffer.go, with explicit
fuel (`none` = fuel exhausted, which the lemmas below show cannot happen with
`totalUsage + 1` fuel on a nonempty pool; on an empty pool the Go code panics
on the out-of-range index, also modelled as `none`).
`some (some i, p')` models `return i, true`; `some (none, p')` models the
`return 0, false` ("no free buffer") exit.  The Go code indexes
`bp.buffers[bp.nextVictimID]` directly; the stored hand is always below the
pool size (it is only ever assigned `(i+1) % poolSize`), which the `% length`
here makes explicit. -/
def evictLoop : Nat → BufferPool → Nat → Option (Option Nat × BufferPool)
  | 0, _, _ => none
  | fuel + 1, p, consecutivePinned =>
    if p.frames.length = 0 then none
    else
      if p.handFrame.usageCount = 0 then
        some (some (p.nextVictimID % p.frames.length), p)
      else if 0 < p.handFrame.usageCount then
        -- decrement and reset consecutivePinned, advance the hand
        evictLoop fuel p.decrementHand 0
      else
        -- Go's give-up branch: requires usageCount ≠ 0 and ¬(usageCount > 0)
        -- at once; kept verbatim, and provably unreachable
        if p.frames.length ≤ consecutivePinned + 1 then
          some (none, p)
        else
          evictLoop fuel
            { p with nextVictimID := (p.nextVictimID % p.frames.length + 1) % p.frames.length }
            (consecutivePinned + 1)

/-- `Evict()`: the loop with enough fuel for the worst case. -/
def evict (p : BufferPool) : Option (Option Nat × BufferPool) :=
  evictLoop (p.totalUsage + 1) p 0

/-- The "no free buffer" exit of the clock loop is unreachable: whatever the
fuel, the loop never answers `some (none, _)`. -/
theorem evictLoop_ne_giveup : ∀ fuel p cp p',
    evictLoop fuel p cp ≠ some (none, p') := by
  intro fuel
  induction fuel with
  | zero => intro p cp p' h; simp [evictLoop] at h
  | succ fuel ih =>
    intro p cp p' h
    rw [evictLoop] at h
    by_cases hsz : p.frames.length = 0
    · rw [if_pos hsz] at h; exact Option.noConfusion h
    · rw [if_neg hsz] at h
      by_cases hz : p.handFrame.usageCount = 0
      · rw [if_pos hz] at h
        simp at h
      · rw [if_neg hz, if_pos (Nat.pos_of_ne_zero hz)] at h
        exact ih _ _ _ h

/-- Replacing a frame by one with a smaller usage count strictly decreases the
summed usage counts. -/
theorem sum_usage_set_lt (l : List Frame) : ∀ (i : Nat), i < l.length →
    ∀ f' : Frame, f'.usageCount < (l.getD i default).usageCount →
    ((l.set i f').map Frame.usageCount).sum < (l.map Frame.usageCount).sum := by
  induction l with
  | nil => intro i hi; simp at hi
  | cons x xs ih =>
    intro i hi f' hlt
    cases i with
    | zero =>
      simp only [List.set, List.map_cons, List.sum_cons]
      simp only [List.getD_cons_zero] at hlt
      omega
    | succ n =>
      simp only [List.set, List.map_cons, List.sum_cons]
      have := ih n (by simpa using hi) f' (by simpa [List.getD_cons_succ] using hlt)
      omega

/-- Decrementing a positive hand frame strictly decreases `totalUsage`. -/
theorem totalUsage_decrementHand (p : BufferPool) (hsz : p.frames.length ≠ 0)
    (hz : p.handFrame.usageCount ≠ 0) :
    p.decrementHand.totalUsage < p.totalUsage := by
  have hidx : p.nextVictimID % p.frames.length < p.frames.length :=
    Nat.mod_lt _ (Nat.pos_of_ne_zero hsz)
  unfold totalUsage decrementHand
  refine sum_usage_set_lt p.frames _ hidx _ ?_
  show p.handFrame.usageCount - 1 <
    (p.frames.getD (p.nextVictimID % p.frames.length) default).usageCount
  unfold handFrame at hz ⊢
  omega

/-- With `totalUsage` dominated by the fuel, the clock loop finds a victim and
the victim frame has a zero usage count; the pool keeps its size. -/
theorem evictLoop_finds_victim : ∀ fuel p cp,
    p.frames.length ≠ 0 → p.totalUsage < fuel →
    ∃ i p', evictLoop fuel p cp = some (some i, p') ∧
      i < p'.frames.length ∧ p'.frames.length = p.frames.length ∧
      (p'.frames.getD i default).usageCount = 0 := by
  intro fuel
  induction fuel with
  | zero => intro p cp hsz hfu; omega
  | succ fuel ih =>
    intro p cp hsz hfu
    rw [evictLoop, if_neg hsz]
    by_cases hz : p.handFrame.usageCount = 0
    · rw [if_pos hz]
      exact ⟨_, p, rfl, Nat.mod_lt _ (Nat.pos_of_ne_zero hsz), rfl, hz⟩
    · rw [if_neg hz, if_pos (Nat.pos_of_ne_zero hz)]
      have hlen : p.decrementHand.frames.length = p.frames.length := by
        unfold decrementHand
        exact List.length_set _ _ _
      obtain ⟨j, p', hrun, hjl, hlen', hz'⟩ :=
        ih p.decrementHand 0 (by rw [hlen]; exact hsz)
          (by have := totalUsage_decrementHand p hsz hz; omega)
      exact ⟨j, p', hrun, hjl, by rw [hlen', hlen], hz'⟩

end BufferPool

/-- A one-frame pool whose only frame is pinned (usage count 1): the concrete
state refuting C4 as stated. -/
def pinnedPool : BufferPool := ⟨[⟨1, 0, false, []⟩], 0⟩

/-- C4 counterexample.  In `pinnedPool` a single full scan of the pool finds
no frame with `usage_count == 0` (the only frame has count 1), yet `Evict`
does not fail with "no free buffer": it decrements the count, keeps scanning,
and returns frame 0 as the victim on its second pass. -/
theorem evict_pinned_pool_succeeds :
    (∀ f ∈ pinnedPool.frames, f.usageCount ≠ 0) ∧
    BufferPool.evict pinnedPool =
      some (some 0, ⟨[⟨0, 0, false, []⟩], 0⟩) := by
  constructor
  · decide
  · rfl

/-- C4 (amended).  On a nonempty pool the clock eviction never fails: whatever
the usage counts, `Evict` keeps scanning (decrementing positive counts) until
a count reaches zero and returns that frame as the victim — the
`"no free buffer"` return is unreachable dead code.  The second half of the
claim does hold: when the hand reaches a frame with `usage_count == 0` that
frame is returned as the victim immediately, with the pool unchanged. -/
theorem evict_never_fails (p : BufferPool) (hne : p.frames ≠ []) :
    (∃ i p', BufferPool.evict p = some (some i, p') ∧
       i < p'.frames.length ∧ p'.frames.length = p.frames.length ∧
       (p'.frames.getD i default).usageCount = 0) ∧
    (∀ fuel cp p', BufferPool.evictLoop fuel p cp ≠ some (none, p')) ∧
    (p.handFrame.usageCount = 0 →
       BufferPool.evict p = some (some (p.nextVictimID % p.frames.length), p)) := by
  have hsz : p.frames.length ≠ 0 := by
    intro h; exact hne (List.eq_nil_of_length_eq_zero h)
  refine ⟨?_, fun fuel cp p' => BufferPool.evictLoop_ne_giveup fuel p cp p', ?_⟩
  · exact BufferPool.evictLoop_finds_victim _ p 0 hsz (by omega)
  · intro hz
    unfold BufferPool.evict
    rw [BufferPool.evictLoop, if_neg hsz, if_pos hz]

/-- Witness for C4 (amended) at the concrete `pinnedPool`. -/
theorem evict_never_fails_witness :
    pinnedPool.frames ≠ [] ∧
    ((∃ i p', BufferPool.evict pinnedPool = some (some i, p') ∧
        i < p'.frames.length ∧ p'.frames.length = pinnedPool.frames.length ∧
        (p'.frames.getD i default).usageCount = 0) ∧
     (∀ fuel cp p', BufferPool.evictLoop fuel pinnedPool cp ≠ some (none, p')) ∧
     (pinnedPool.handFrame.usageCount = 0 →
        BufferPool.evict pinnedPool =
          some (some (pinnedPool.nextVictimID % pinnedPool.frames.length), pinnedPool))) :=
  ⟨by decide, evict_never_fails pinnedPool (by decide)⟩

/-! ## Buffer pool manager (buffer/buffer.go, `FetchPage` / `CreatePage`) -/

/-- The heap file: pages indexed by `PageID`; a missing entry is a page past
the end of the file, whose read yields `io.EOF`. -/
structure DiskState where
  pages : List (Nat × Bytes)
  deriving DecidableEq, Repr

/-- `ReadPageData`: `none` models the `io.EOF` error for a read past EOF. -/
def DiskState.read (d : DiskState) (pid : Nat) : Option Bytes :=
  d.pages.lookup pid

/-- `WritePageData` (the assoc list keeps one entry per page id). -/
def DiskState.write (d : DiskState) (pid : Nat) (pg : Bytes) : DiskState :=
  ⟨(pid, pg) :: d.pages.filter (fun e => e.1 != pid)⟩

theorem DiskState.read_write_self (d : DiskState) (pid : Nat) (pg : Bytes) :
    (d.write pid pg).read pid = some pg := by
  simp [DiskState.read, DiskState.write, List.lookup_cons]

/-- The buffer pool manager: the disk, the frame pool and the page table. -/
structure BufMgr where
  disk : DiskState
  pool : BufferPool
  pageTable : List (Nat × Nat)
  deriving DecidableEq, Repr

/-- Result of `FetchPage`. `stuck` covers the two situations in which the Go
code does not return normally: `Evict` on an empty pool (an index panic) and
the unreachable fuel exhaustion of the eviction loop model. -/
inductive FetchRes where
  | ok (m : BufMgr) (bufferID : Nat)
  | noFreeBuffer
  | stuck
  deriving DecidableEq, Repr

/-- Read a page from disk, zero-filling on `io.EOF`, as the tail of
`FetchPage` does. -/
def readOrZero (d : DiskState) (pid : Nat) : Bytes :=
  match d.read pid with
  | some pg => pg
  | none => zeroPage

/-- `FetchPage(pageID)` from buffer.go.  On a page-table hit the frame's usage
count is incremented and the buffer returned.  On a miss a victim is evicted;
its old page is written back if dirty; the old id is unmapped; the requested
page is read (zero-filled on EOF); the frame is relabelled (note: the Go code
does not touch `UsageCount` on this path); the new mapping is added. -/
def fetchPage (m : BufMgr) (pid : Nat) : FetchRes :=
  match m.pageTable.lookup pid with
  | some bid =>
    let f := m.pool.frames.getD bid default
    let f2 : Frame := { f with usageCount := f.usageCount + 1 }
    FetchRes.ok { m with pool := { m.pool with frames := m.pool.frames.set bid f2 } } bid
  | none =>
    match BufferPool.evict m.pool with
    | none => FetchRes.stuck
    | some (none, _) => FetchRes.noFreeBuffer
    | some (some bid, p) =>
      let f := p.frames.getD bid default
      let disk1 := if f.isDirty then m.disk.write f.pageID f.page else m.disk
      let f2 : Frame := { f with pageID := pid, isDirty := false, page := readOrZero disk1 pid }
      FetchRes.ok
        { disk := disk1,
          pool := { p with frames := p.frames.set bid f2 },
          pageTable := (pid, bid) :: m.pageTable.filter (fun e => e.1 != f.pageID) }
        bid

/-- Looking up a key after filtering away all entries with that key fails. -/
theorem lookup_filter_bne {β : Type} (l : List (Nat × β)) (k : Nat) :
    (l.filter (fun e => e.1 != k)).lookup k = none := by
  induction l with
  | nil => rfl
  | cons x xs ih =>
    rcases x with ⟨a, b⟩
    rw [List.filter_cons]
    by_cases ha : a = k
    · subst ha
      simp [ih]
    · have : (a != k) = true := by simp [ha]
      rw [if_pos this, List.lookup_cons]
      have : (k == a) = false := by simp [Ne.symm ha]
      rw [this]
      exact ih

/-- Structural facts about the result of a successful eviction, for an
arbitrary `Evict` result (companion to `evictLoop_finds_victim`). -/
theorem evictLoop_ok_inv : ∀ fuel (p : BufferPool) cp i p',
    BufferPool.evictLoop fuel p cp = some (some i, p') →
    i < p'.frames.length ∧ p'.frames.length = p.frames.length ∧
      (p'.frames.getD i default).usageCount = 0 := by
  intro fuel
  induction fuel with
  | zero => intro p cp i p' h; simp [BufferPool.evictLoop] at h
  | succ fuel ih =>
    intro p cp i p' h
    rw [BufferPool.evictLoop] at h
    by_cases hsz : p.frames.length = 0
    · rw [if_pos hsz] at h; exact Option.noConfusion h
    · rw [if_neg hsz] at h
      by_cases hz : p.handFrame.usageCount = 0
      · rw [if_pos hz] at h
        have h2 := Option.some_inj.mp h
        have h3 : some (p.nextVictimID % p.frames.length) = some i :=
          congrArg Prod.fst h2
        have h4 : p = p' := congrArg Prod.snd h2
        have hi := Option.some_inj.mp h3
        subst hi
        subst h4
        exact ⟨Nat.mod_lt _ (Nat.pos_of_ne_zero hsz), rfl, hz⟩
      · rw [if_neg hz, if_pos (Nat.pos_of_ne_zero hz)] at h
        have := ih _ _ _ _ h
        refine ⟨this.1, ?_, this.2.2⟩
        rw [this.2.1]
        show (p.frames.set _ _).length = p.frames.length
        exact List.length_set _ _ _

/-- C5 (amended).  `FetchPage` miss postcondition: when the requested page is
not in the page table and a victim is found, then on return the victim's old
dirty page has been written to disk, the old page id is unmapped, the
requested page has been read from disk (zero-filled on EOF), the frame is
relabelled with the requested id and a clear dirty flag, and the page table
maps the id to the frame — but the frame's `usage_count` is left at `0` (the
value that made it the victim); the Go miss path never assigns
`usage_count = 1`. -/
theorem fetchPage_miss_contract (m : BufMgr) (pid bid : Nat) (p : BufferPool)
    (hmiss : m.pageTable.lookup pid = none)
    (hev : BufferPool.evict m.pool = some (some bid, p))
    (hold : (p.frames.getD bid default).pageID ≠ pid) :
    ∃ m', fetchPage m pid = FetchRes.ok m' bid ∧
      ((p.frames.getD bid default).isDirty = true →
         m'.disk.read (p.frames.getD bid default).pageID =
           some (p.frames.getD bid default).page) ∧
      ((p.frames.getD bid default).isDirty = false → m'.disk = m.disk) ∧
      m'.pageTable.lookup (p.frames.getD bid default).pageID = none ∧
      (m'.pool.frames.getD bid default).page =
        readOrZero (if (p.frames.getD bid default).isDirty
                    then m.disk.write (p.frames.getD bid default).pageID
                           (p.frames.getD bid default).page
                    else m.disk) pid ∧
      (m'.pool.frames.getD bid default).pageID = pid ∧
      (m'.pool.frames.getD bid default).isDirty = false ∧
      (m'.pool.frames.getD bid default).usageCount = 0 ∧
      m'.pageTable.lookup pid = some bid := by
  obtain ⟨hbid, hlen, husage⟩ := evictLoop_ok_inv _ _ _ _ _ hev
  unfold fetchPage
  rw [hmiss, hev]
  set f := p.frames.getD bid default with hf
  set disk1 := if f.isDirty then m.disk.write f.pageID f.page else m.disk with hd1
  set f2 : Frame := { f with pageID := pid, isDirty := false, page := readOrZero disk1 pid }
    with hf2
  refine ⟨_, rfl, ?_, ?_, ?_, ?_, ?_, ?_, ?_, ?_⟩
  · intro hdirty
    show disk1.read f.pageID = some f.page
    rw [hd1, if_pos hdirty]
    exact DiskState.read_write_self _ _ _
  · intro hclean
    show disk1 = m.disk
    rw [hd1, if_neg (by simp [hclean])]
  · show (((pid, bid) :: m.pageTable.filter (fun e => e.1 != f.pageID)).lookup f.pageID) = none
    rw [List.lookup_cons]
    have hne : (f.pageID == pid) = false := by simp [hold]
    have : (f.pageID == pid) = false → ((f.pageID == pid) : Bool) ≠ true := by simp
    rw [show (f.pageID == pid) = false from hne]
    exact lookup_filter_bne _ _
  · show ((p.frames.set bid f2).getD bid default).page = readOrZero disk1 pid
    rw [List.getD_eq_getElem _ _ (by rw [List.length_set]; exact hbid),
      List.getElem_set_self]
  · show ((p.frames.set bid f2).getD bid default).pageID = pid
    rw [List.getD_eq_getElem _ _ (by rw [List.length_set]; exact hbid),
      List.getElem_set_self]
  · show ((p.frames.set bid f2).getD bid default).isDirty = false
    rw [List.getD_eq_getElem _ _ (by rw [List.length_set]; exact hbid),
      List.getElem_set_self]
  · show ((p.frames.set bid f2).getD bid default).usageCount = 0
    rw [List.getD_eq_getElem _ _ (by rw [List.length_set]; exact hbid),
      List.getElem_set_self]
    exact husage
  · show (((pid, bid) :: m.pageTable.filter (fun e => e.1 != f.pageID)).lookup pid) = some bid
    rw [List.lookup_cons]
    simp

/-- The one-frame manager used to exhibit C5's usage-count divergence: frame 0
caches page 0 (clean, usage 0), the page table maps page 0, page 1 is past
EOF on disk. -/
def bufMgr0 : BufMgr :=
  ⟨⟨[(0, zeroPage)]⟩, ⟨[⟨0, 0, false, zeroPage⟩], 0⟩, [(0, 0)]⟩

/-- The state after `fetchPage bufMgr0 1`. -/
def bufMgr1 : BufMgr :=
  ⟨⟨[(0, zeroPage)]⟩, ⟨[⟨0, 1, false, zeroPage⟩], 0⟩, [(1, 0)]⟩

/-- C5 counterexample.  Fetching page 1 (a miss; the victim frame holds clean
page 0) returns a frame whose `usage_count` is `0`, not `1` as the claim
states: the Go miss path never writes the usage count. -/
theorem fetchPage_miss_usage_not_one :
    fetchPage bufMgr0 1 = FetchRes.ok bufMgr1 0 ∧
    (bufMgr1.pool.frames.getD 0 default).usageCount = 0 ∧
    ¬ (bufMgr1.pool.frames.getD 0 default).usageCount = 1 :=
  ⟨rfl, rfl, by decide⟩

/-- Witness for C5 (amended) at the concrete manager `bufMgr0`. -/
theorem fetchPage_miss_contract_witness :
    bufMgr0.pageTable.lookup 1 = none ∧
    BufferPool.evict bufMgr0.pool = some (some 0, bufMgr0.pool) ∧
    (bufMgr0.pool.frames.getD 0 default).pageID ≠ 1 ∧
    (∃ m', fetchPage bufMgr0 1 = FetchRes.ok m' 0 ∧
      ((bufMgr0.pool.frames.getD 0 default).isDirty = true →
         m'.disk.read (bufMgr0.pool.frames.getD 0 default).pageID =
           some (bufMgr0.pool.frames.getD 0 default).page) ∧
      ((bufMgr0.pool.frames.getD 0 default).isDirty = false → m'.disk = bufMgr0.disk) ∧
      m'.pageTable.lookup (bufMgr0.pool.frames.getD 0 default).pageID = none ∧
      (m'.pool.frames.getD 0 default).page =
        readOrZero (if (bufMgr0.pool.frames.getD 0 default).isDirty
                    then bufMgr0.disk.write (bufMgr0.pool.frames.getD 0 default).pageID
                           (bufMgr0.pool.frames.getD 0 default).page
                    else bufMgr0.disk) 1 ∧
      (m'.pool.frames.getD 0 default).pageID = 1 ∧
      (m'.pool.frames.getD 0 default).isDirty = false ∧
      (m'.pool.frames.getD 0 default).usageCount = 0 ∧
      m'.pageTable.lookup 1 = some 0) :=
  ⟨rfl, rfl, by decide,
    fetchPage_miss_contract bufMgr0 1 0 bufMgr0.pool rfl rfl (by decide)⟩

/-! ## Lock manager (transaction/lock.go)

The claims C6 and C10 concern a single RID, and `LockShared` /
`LockExclusive` / `removeRequest` / `grantPendingLocks` only ever touch that
RID's queue (plus the global wait-for graph), so the model carries one queue.
Go compares requests by pointer identity (`r != req`); every request in the
model therefore carries a unique `tag` standing for its address.  The Go
wait-for maps have nondeterministic iteration order; the model fixes list
order (first occurrence), which no claim outcome depends on. -/

inductive LockMode where
  | shared
  | exclusive
  deriving DecidableEq, Repr

/-- One entry of `lockTable[rid]` (a Go `*LockRequest`). -/
structure LockRequest where
  txnID : Nat
  mode : LockMode
  granted : Bool
  tag : Nat
  deriving DecidableEq, Repr

instance : Inhabited LockRequest := ⟨⟨0, LockMode.shared, false, 0⟩⟩

/-- `waitFor`: per transaction, the list of transactions it waits for. -/
abbrev WaitForGraph := List (Nat × List Nat)

/-- `lm.waitFor[t]` (a missing key reads as the empty set). -/
def graphLookup (g : WaitForGraph) (t : Nat) : List Nat :=
  (g.lookup t).getD []

/-- Set the edge list of `t`. -/
def graphSet (g : WaitForGraph) (t : Nat) (ns : List Nat) : WaitForGraph :=
  (t, ns) :: g.filter (fun e => e.1 != t)

/-- `delete(lm.waitFor, t)` plus `delete(waiters, t)` for every entry:
remove `t` as a key and from every edge list. -/
def graphDeleteEverywhere (g : WaitForGraph) (t : Nat) : WaitForGraph :=
  (g.filter (fun e => e.1 != t)).map (fun e => (e.1, e.2.filter (fun x => x != t)))

/-- The early-return part of the `canGrantLock` loop: walking the queue, the
first *granted* request returns `false` when it is exclusive or when an
exclusive lock is being requested. -/
def canGrantScan (mode : LockMode) : List LockRequest → Option Bool
  | [] => none
  | r :: rest =>
    if r.granted then
      if r.mode = LockMode.exclusive then some false
      else if mode = LockMode.exclusive then some false
      else canGrantScan mode rest
    else canGrantScan mode rest

/-- `canGrantLock(rid, mode)` from lock.go: empty queue grants; otherwise the
scan above may return early; after the loop, a shared request with granted
locks present checks that all granted locks are shared, and any other request
is granted only when nothing is granted. -/
def canGrantLock (q : List LockRequest) (mode : LockMode) : Bool :=
  if q.isEmpty then true
  else
    match canGrantScan mode q with
    | some b => b
    | none =>
      let hasGrantedLocks := q.any (fun r => r.granted)
      if mode = LockMode.shared ∧ hasGrantedLocks then
        q.all (fun r => !(r.granted && r.mode == LockMode.exclusive))
      else
        !hasGrantedLocks

/-- `grantLock`: mark the transaction's first pending request granted, or
append a fresh granted request. -/
def grantLockGo (txnID : Nat) (mode : LockMode) (tag : Nat) :
    List LockRequest → List LockRequest
  | [] => [⟨txnID, mode, true, tag⟩]
  | r :: rest =>
    if r.txnID = txnID ∧ r.granted = false then
      { r with granted := true } :: rest
    else
      r :: grantLockGo txnID mode tag rest

/-- Set-insert used for the Go `map[TransactionID]bool` edge sets. -/
def insertIfAbsent (l : List Nat) (t : Nat) : List Nat :=
  if t ∈ l then l else l ++ [t]

/-- One step of `updateWaitForGraph`'s outer loop: for a pending request,
drop the edges to transactions involved with this RID that no longer hold a
lock, then add edges to every current holder. -/
def updGo (all : List LockRequest) : List LockRequest → WaitForGraph → WaitForGraph
  | [], g => g
  | r :: rest, g =>
    if r.granted then updGo all rest g
    else
      let grantedTxns := (all.filter (fun x => x.granted)).map (fun x => x.txnID)
      let allTxns := all.map (fun x => x.txnID)
      let edges0 := graphLookup g r.txnID
      let edges1 := edges0.filter (fun t => !(allTxns.contains t) || grantedTxns.contains t)
      let edges2 := grantedTxns.foldl insertIfAbsent edges1
      updGo all rest (graphSet g r.txnID edges2)

/-- `updateWaitForGraph(rid)` from lock.go. -/
def updateWaitForGraph (q : List LockRequest) (g : WaitForGraph) : WaitForGraph :=
  updGo q q g

/-- Result of one `dfsDeadlock` call: cycle found / no cycle / out of fuel
(the last cannot occur with the fuel chosen in `hasDeadlock`, as proved
below). -/
inductive DfsRes where
  | found
  | notFound
  | out
  deriving DecidableEq, Repr

/-- `dfsDeadlock(txnID, visited, recStack)`: mark visited and on-stack,
explore the neighbours in order, unmark the stack on failure.  `visited` and
`recStack` are threaded state (Go mutates shared maps).  The
`for blockingTxnID := range waitingFor` loop is the `foldl`: once the
accumulator is `found` (cycle: the neighbour is on the recursion stack) or
`out`, the remaining neighbours are skipped, exactly like the early
`return true` in Go. -/
def dfsDeadlock (g : WaitForGraph) : Nat → Nat → List Nat → List Nat →
    DfsRes × List Nat × List Nat
  | 0, _, v, r => (DfsRes.out, v, r)
  | fuel + 1, t, v, r =>
    match (graphLookup g t).foldl
        (fun acc u =>
          match acc with
          | (DfsRes.notFound, v1, r1) =>
            if u ∈ v1 then
              if u ∈ r1 then (DfsRes.found, v1, r1) else (DfsRes.notFound, v1, r1)
            else dfsDeadlock g fuel u v1 r1
          | done => done)
        (DfsRes.notFound, t :: v, t :: r) with
    | (DfsRes.notFound, v2, r2) => (DfsRes.notFound, v2, r2.erase t)
    | done => done

/-- The step function of the neighbour fold of `dfsDeadlock` (definitionally
the lambda in its body), named for the lemmas below. -/
def dfsStep (g : WaitForGraph) (fuel : Nat)
    (acc : DfsRes × List Nat × List Nat) (u : Nat) : DfsRes × List Nat × List Nat :=
  match acc with
  | (DfsRes.notFound, v1, r1) =>
    if u ∈ v1 then
      if u ∈ r1 then (DfsRes.found, v1, r1) else (DfsRes.notFound, v1, r1)
    else dfsDeadlock g fuel u v1 r1
  | done => done

theorem dfsDeadlock_succ (g : WaitForGraph) (fuel t : Nat) (v r : List Nat) :
    dfsDeadlock g (fuel + 1) t v r =
      match (graphLookup g t).foldl (dfsStep g fuel) (DfsRes.notFound, t :: v, t :: r) with
      | (DfsRes.notFound, v2, r2) => (DfsRes.notFound, v2, r2.erase t)
      | done => done := rfl

/-- Every transaction mentioned by the graph (keys and edge targets). -/
def graphNodes (g : WaitForGraph) : List Nat :=
  g.map (fun e => e.1) ++ g.foldr (fun e acc => e.2 ++ acc) []

/-- `hasDeadlock(txnID)`: DFS from the requesting transaction with fresh
`visited` / `recStack`.  The Go recursion always terminates because `visited`
grows; the fuel below is an upper bound on its depth, and
`dfsDeadlock_no_out` proves it is never exhausted. -/
def hasDeadlock (g : WaitForGraph) (t : Nat) : Bool :=
  match dfsDeadlock g ((graphNodes g).dedup.length + 1) t [] [] with
  | (DfsRes.found, _, _) => true
  | _ => false

/-- The lock-manager state restricted to one RID. -/
structure LMState where
  queue : List LockRequest
  waitFor : WaitForGraph
  nextTag : Nat
  deriving DecidableEq, Repr

/-- `grantPendingLocks`' queue walk.  `done` is the already-visited part of
the queue (its grants are visible to `canGrantLock`, which Go reads through
the shared slice). -/
def gplGo (done : List LockRequest) : List LockRequest → List LockRequest
  | [] => done
  | r :: rest =>
    if r.granted then gplGo (done ++ [r]) rest
    else if canGrantLock (done ++ r :: rest) r.mode then
      if r.mode = LockMode.exclusive then done ++ { r with granted := true } :: rest
      else gplGo (done ++ [{ r with granted := true }]) rest
    else done ++ r :: rest

/-- `grantPendingLocks(rid)` from lock.go. -/
def grantPendingLocks (q : List LockRequest) : List LockRequest :=
  gplGo [] q

/-- `removeRequest(rid, req)`: drop the request (pointer identity → `tag`),
remove its transaction from the wait-for graph, refresh the graph and try to
grant pending requests. -/
def removeRequest (st : LMState) (req : LockRequest) : LMState :=
  let q1 := st.queue.filter (fun r => r != req)
  let g1 := graphDeleteEverywhere st.waitFor req.txnID
  let g2 := updateWaitForGraph q1 g1
  ⟨grantPendingLocks q1, g2, st.nextTag⟩

/-- Outcome of a lock-acquire call.  `pending` stands for the Go path that
blocks on the condition variable (the state at the moment of blocking). -/
inductive LockOutcome where
  | granted
  | pending
  | deadlock
  | notActive
  deriving DecidableEq, Repr

/-- `LockExclusive(txn, rid)` up to its suspension point. -/
def lockExclusive (st : LMState) (isActive : Bool) (t : Nat) : LMState × LockOutcome :=
  if isActive = false then (st, LockOutcome.notActive)
  else if canGrantLock st.queue LockMode.exclusive then
    (⟨grantLockGo t LockMode.exclusive st.nextTag st.queue, st.waitFor, st.nextTag + 1⟩,
      LockOutcome.granted)
  else
    let req : LockRequest := ⟨t, LockMode.exclusive, false, st.nextTag⟩
    let q1 := st.queue ++ [req]
    let g1 := updateWaitForGraph q1 st.waitFor
    if hasDeadlock g1 t then
      (removeRequest ⟨q1, g1, st.nextTag + 1⟩ req, LockOutcome.deadlock)
    else
      (⟨q1, g1, st.nextTag + 1⟩, LockOutcome.pending)

/-- `LockShared(txn, rid)` up to its suspension point. -/
def lockShared (st : LMState) (isActive : Bool) (t : Nat) : LMState × LockOutcome :=
  if isActive = false then (st, LockOutcome.notActive)
  else if canGrantLock st.queue LockMode.shared then
    (⟨grantLockGo t LockMode.shared st.nextTag st.queue, st.waitFor, st.nextTag + 1⟩,
      LockOutcome.granted)
  else
    let req : LockRequest := ⟨t, LockMode.shared, false, st.nextTag⟩
    let q1 := st.queue ++ [req]
    let g1 := updateWaitForGraph q1 st.waitFor
    if hasDeadlock g1 t then
      (removeRequest ⟨q1, g1, st.nextTag + 1⟩ req, LockOutcome.deadlock)
    else
      (⟨q1, g1, st.nextTag + 1⟩, LockOutcome.pending)

/-- The empty lock-manager state. -/
def lmEmpty : LMState := ⟨[], [], 0⟩

/-- T1 holds a shared lock. -/
def lmS1 : LMState := (lockShared lmEmpty true 1).1

/-- …then T2's exclusive request is pending. -/
def lmS1X2 : LMState := (lockExclusive lmS1 true 2).1

/-- C6 counterexample.  With T1 holding a shared lock and T2's exclusive
request pending in the queue, a later shared request by T3 on the same RID is
granted immediately — before the pending exclusive request, which is still
ungranted in the resulting queue.  `canGrantLock` only ever inspects granted
requests, so the arrival path passes over the queued writer. -/
theorem later_shared_overtakes_pending_exclusive :
    (lockExclusive lmS1 true 2).2 = LockOutcome.pending ∧
    (lockShared lmS1X2 true 3).2 = LockOutcome.granted ∧
    (∃ r ∈ (lockShared lmS1X2 true 3).1.queue,
       r.txnID = 2 ∧ r.mode = LockMode.exclusive ∧ r.granted = false) ∧
    (∃ r ∈ (lockShared lmS1X2 true 3).1.queue,
       r.txnID = 3 ∧ r.mode = LockMode.shared ∧ r.granted = true) := by
  refine ⟨by decide, by decide, ?_, ?_⟩
  · decide
  · decide

/-- `(a ++ b).getD (a.length + j) = b.getD j`. -/
theorem getD_append_right {α : Type} [Inhabited α] (a : List α) (b : List α) (j : Nat) :
    (a ++ b).getD (a.length + j) default = b.getD j default := by
  induction a with
  | nil => simp
  | cons x xs ih => simpa [Nat.succ_add] using ih

/-- `(a ++ b).getD k = a.getD k` for `k < a.length`. -/
theorem getD_append_left {α : Type} [Inhabited α] (a : List α) (b : List α) (k : Nat)
    (hk : k < a.length) : (a ++ b).getD k default = a.getD k default := by
  induction a generalizing k with
  | nil => simp at hk
  | cons x xs ih =>
    cases k with
    | zero => simp
    | succ k => simpa using ih k (by simpa using hk)

/-- `gplGo` preserves the length of the queue. -/
theorem gplGo_length (rest : List LockRequest) : ∀ done,
    (gplGo done rest).length = done.length + rest.length := by
  induction rest with
  | nil => intro done; simp [gplGo]
  | cons r rest ih =>
    intro done
    rw [gplGo]
    by_cases hg : r.granted
    · rw [if_pos hg, ih]
      simp
      omega
    · rw [if_neg hg]
      by_cases hc : canGrantLock (done ++ r :: rest) r.mode
      · rw [if_pos hc]
        by_cases hx : r.mode = LockMode.exclusive
        · rw [if_pos hx]
          simp
        · rw [if_neg hx, ih]
          simp
          omega
      · rw [if_neg hc]
        simp

/-- `gplGo` never modifies the already-processed part of the queue. -/
theorem gplGo_done_preserved (rest : List LockRequest) : ∀ done k, k < done.length →
    (gplGo done rest).getD k default = done.getD k default := by
  induction rest with
  | nil => intro done k hk; rfl
  | cons r rest ih =>
    intro done k hk
    rw [gplGo]
    by_cases hg : r.granted
    · rw [if_pos hg, ih _ k (by simp; omega), getD_append_left _ _ _ hk]
    · rw [if_neg hg]
      by_cases hc : canGrantLock (done ++ r :: rest) r.mode
      · rw [if_pos hc]
        by_cases hx : r.mode = LockMode.exclusive
        · rw [if_pos hx, getD_append_left _ _ _ hk]
        · rw [if_neg hx, ih _ k (by simp; omega), getD_append_left _ _ _ hk]
      · rw [if_neg hc, getD_append_left _ _ _ hk]

/-- FIFO core of `grantPendingLocks`: within one scan, a pending request can
only be granted if every earlier pending request was granted too (the scan
stops at the first ungrantable pending request). -/
theorem gplGo_fifo (rest : List LockRequest) : ∀ done j,
    (rest.getD j default).granted = false →
    ((gplGo done rest).getD (done.length + j) default).granted = true →
    ∀ i, i < j → (rest.getD i default).granted = false →
      ((gplGo done rest).getD (done.length + i) default).granted = true := by
  induction rest with
  | nil =>
    intro done j hjp hjg i hij hip
    rw [gplGo] at hjg ⊢
    rw [show ([] : List LockRequest).getD j default = default from by simp] at hjp
    have : (done.getD (done.length + j) default) = default := by
      apply List.getD_eq_default
      omega
    rw [this] at hjg
    rw [hjg] at hjp
    exact absurd hjp (by simp)
  | cons r rest ih =>
    intro done j hjp hjg i hij hip
    rw [gplGo] at hjg ⊢
    by_cases hg : r.granted
    · rw [if_pos hg] at hjg ⊢
      -- r is granted: positions shift into done ++ [r]
      cases j with
      | zero => simp at hjp; rw [hjp] at hg; exact absurd hg (by simp)
      | succ j =>
        cases i with
        | zero => simp at hip; rw [hip] at hg; exact absurd hg (by simp)
        | succ i =>
          have h1 : done.length + (j + 1) = (done ++ [r]).length + j := by simp; omega
          have h2 : done.length + (i + 1) = (done ++ [r]).length + i := by simp; omega
          rw [h1] at hjg
          rw [h2]
          exact ih (done ++ [r]) j (by rw [List.getD_cons_succ] at hjp; exact hjp) hjg i
            (by omega) (by rw [List.getD_cons_succ] at hip; exact hip)
    · rw [if_neg hg] at hjg ⊢
      by_cases hc : canGrantLock (done ++ r :: rest) r.mode
      · rw [if_pos hc] at hjg ⊢
        by_cases hx : r.mode = LockMode.exclusive
        · rw [if_pos hx] at hjg ⊢
          -- scan stops: tail beyond r is unchanged, so a pending j ≥ 1 stays pending
          cases j with
          | zero => omega
          | succ j =>
            have : ((done ++ { r with granted := true } :: rest).getD
                (done.length + (j + 1)) default) = rest.getD j default := by
              rw [getD_append_right, List.getD_cons_succ]
            rw [this] at hjg
            rw [List.getD_cons_succ] at hjp
            rw [hjp] at hjg
            exact absurd hjg (by simp)
        · rw [if_neg hx] at hjg ⊢
          -- r (shared) is granted; continue scanning
          cases j with
          | zero => omega
          | succ j =>
            cases i with
            | zero =>
              -- position 0 is r, which this scan just granted
              have h2 : done.length < (done ++ [{ r with granted := true }]).length := by
                simp
              have h0 : done.length + 0 = done.length := rfl
              rw [h0, gplGo_done_preserved rest _ _ h2]
              have h3 : (done ++ [{ r with granted := true }]).getD done.length default
                  = { r with granted := true } := by
                have h4 := getD_append_right done [{ r with granted := true }] 0
                rw [Nat.add_zero] at h4
                rw [h4]
                rfl
              rw [h3]
            | succ i =>
              have h1 : done.length + (j + 1) = (done ++ [{ r with granted := true }]).length + j := by
                simp; omega
              have h2 : done.length + (i + 1) = (done ++ [{ r with granted := true }]).length + i := by
                simp; omega
              rw [h1] at hjg
              rw [h2]
              exact ih _ j (by simpa using hjp) hjg i (by omega) (by simpa using hip)
      · rw [if_neg hc] at hjg ⊢
        -- scan stops before granting anything: position done.length + j unchanged
        have : ((done ++ r :: rest).getD (done.length + j) default)
            = (r :: rest).getD j default := by
          rw [getD_append_right]
        rw [this] at hjg
        rw [hjg] at hjp
        exact absurd hjp (by simp)

/-- When every granted request on the queue is shared, `canGrantScan` never
returns early. -/
theorem canGrantScan_shared_none (q : List LockRequest)
    (h : ∀ r ∈ q, r.granted = true → r.mode = LockMode.shared) :
    canGrantScan LockMode.shared q = none := by
  induction q with
  | nil => rfl
  | cons r rest ih =>
    rw [canGrantScan]
    by_cases hg : r.granted
    · rw [if_pos hg]
      have hm : r.mode = LockMode.shared := h r (by simp) hg
      rw [if_neg (by rw [hm]; intro hcon; exact LockMode.noConfusion hcon),
        if_neg (by intro hcon; exact LockMode.noConfusion hcon)]
      exact ih (fun x hx => h x (by simp [hx]))
    · rw [if_neg hg]
      exact ih (fun x hx => h x (by simp [hx]))

/-- Pending requests never block a shared request: whenever all *granted*
locks on the RID are shared, `canGrantLock(rid, Shared)` answers true, no
matter which exclusive requests are pending in the queue. -/
theorem canGrant_shared_ignores_pending (q : List LockRequest)
    (h : ∀ r ∈ q, r.granted = true → r.mode = LockMode.shared) :
    canGrantLock q LockMode.shared = true := by
  unfold canGrantLock
  by_cases he : q.isEmpty
  · rw [if_pos he]
  · rw [if_neg he, canGrantScan_shared_none q h]
    show (if LockMode.shared = LockMode.shared ∧ q.any (fun r => r.granted) = true then
        q.all (fun r => !(r.granted && r.mode == LockMode.exclusive))
      else !(q.any (fun r => r.granted))) = true
    by_cases hg : q.any (fun r => r.granted) = true
    · rw [if_pos ⟨rfl, hg⟩]
      rw [List.all_eq_true]
      intro r hr
      by_cases hgr : r.granted
      · have := h r hr hgr
        simp [this]
      · simp [hgr]
    · rw [if_neg (by intro hcon; exact hg hcon.2)]
      simp only [Bool.not_eq_true] at hg
      rw [hg]
      rfl

/-- C6 (amended).  FIFO holds only inside `grantPendingLocks`: within one
grant scan after a release, a pending request can be granted only if every
earlier pending request in the queue was granted too (the scan stops at the
first ungrantable pending request).  The arrival path, however, ignores
pending requests entirely: whenever all *granted* locks are shared,
`canGrantLock(rid, Shared)` accepts a newly arriving shared request even while
an exclusive request is pending in the queue, so a later shared request can
overtake a pending exclusive one (see
`later_shared_overtakes_pending_exclusive`). -/
theorem lock_fifo_amended :
    (∀ q : List LockRequest,
       (∀ r ∈ q, r.granted = true → r.mode = LockMode.shared) →
       canGrantLock q LockMode.shared = true) ∧
    (∀ (q : List LockRequest) (j : Nat),
       (q.getD j default).granted = false →
       ((grantPendingLocks q).getD j default).granted = true →
       ∀ i, i < j → (q.getD i default).granted = false →
         ((grantPendingLocks q).getD i default).granted = true) := by
  refine ⟨canGrant_shared_ignores_pending, ?_⟩
  intro q j hjp hjg i hij hip
  have := gplGo_fifo q [] j hjp
  simp only [List.length_nil, Nat.zero_add] at this
  exact this hjg i hij hip

/-- Witness for C6 (amended): the ignores-pending half at the
`lmS1X2` queue (shared granted to T1, exclusive pending for T2), and the FIFO
half at a queue of two pending shared requests, both granted by one scan. -/
theorem lock_fifo_amended_witness :
    ((∀ r ∈ lmS1X2.queue, r.granted = true → r.mode = LockMode.shared) ∧
     canGrantLock lmS1X2.queue LockMode.shared = true) ∧
    ((([⟨1, LockMode.shared, false, 0⟩, ⟨2, LockMode.shared, false, 1⟩] :
         List LockRequest).getD 1 default).granted = false ∧
     ((grantPendingLocks [⟨1, LockMode.shared, false, 0⟩, ⟨2, LockMode.shared, false, 1⟩]).getD
         1 default).granted = true ∧
     (0 : Nat) < 1 ∧
     (([⟨1, LockMode.shared, false, 0⟩, ⟨2, LockMode.shared, false, 1⟩] :
         List LockRequest).getD 0 default).granted = false ∧
     ((grantPendingLocks [⟨1, LockMode.shared, false, 0⟩, ⟨2, LockMode.shared, false, 1⟩]).getD
         0 default).granted = true) :=
  ⟨⟨by decide, lock_fifo_amended.1 lmS1X2.queue (by decide)⟩,
   ⟨by decide, by decide, by decide, by decide,
    lock_fifo_amended.2 [⟨1, LockMode.shared, false, 0⟩, ⟨2, LockMode.shared, false, 1⟩] 1
      (by decide) (by decide) 0 (by decide) (by decide)⟩⟩

/-! ### Deadlock-detection DFS: the Go recursion always terminates because
`visited` only grows; the lemmas below make the fuel bound of `hasDeadlock`
rigorous and characterise the search on a self-edge. -/

/-- A step of the neighbour fold leaves a decided accumulator alone (the Go
loop has already returned). -/
theorem dfsStep_done (g : WaitForGraph) (fuel : Nat)
    (acc : DfsRes × List Nat × List Nat) (u : Nat) (h : acc.1 ≠ DfsRes.notFound) :
    dfsStep g fuel acc u = acc := by
  rcases acc with ⟨res, v, r⟩
  cases res with
  | found => rfl
  | notFound => exact absurd rfl h
  | out => rfl

theorem dfsFold_done (g : WaitForGraph) (fuel : Nat) (ns : List Nat)
    (acc : DfsRes × List Nat × List Nat) (h : acc.1 ≠ DfsRes.notFound) :
    ns.foldl (dfsStep g fuel) acc = acc := by
  induction ns with
  | nil => rfl
  | cons u rest ih => rw [List.foldl_cons, dfsStep_done _ _ _ _ h]; exact ih

/-- Unfolding equation of `dfsStep` on an undecided accumulator. -/
theorem dfsStep_eq (g : WaitForGraph) (fuel : Nat) (v1 r1 : List Nat) (u : Nat) :
    dfsStep g fuel (DfsRes.notFound, v1, r1) u =
      if u ∈ v1 then
        if u ∈ r1 then (DfsRes.found, v1, r1) else (DfsRes.notFound, v1, r1)
      else dfsDeadlock g fuel u v1 r1 := rfl

/-- The visited set only ever grows during the DFS. -/
theorem dfs_visited_mono (g : WaitForGraph) : ∀ fuel u v r,
    v ⊆ (dfsDeadlock g fuel u v r).2.1 := by
  intro fuel
  induction fuel with
  | zero => intro u v r; exact fun x hx => hx
  | succ fuel ih =>
    have hfold : ∀ (ns : List Nat) (acc : DfsRes × List Nat × List Nat),
        acc.2.1 ⊆ (ns.foldl (dfsStep g fuel) acc).2.1 := by
      intro ns
      induction ns with
      | nil => intro acc; exact fun x hx => hx
      | cons u rest ihn =>
        intro acc
        rw [List.foldl_cons]
        have h1 : acc.2.1 ⊆ (dfsStep g fuel acc u).2.1 := by
          rcases acc with ⟨res, v1, r1⟩
          cases res with
          | notFound =>
            show v1 ⊆ (dfsStep g fuel (DfsRes.notFound, v1, r1) u).2.1
            rw [dfsStep_eq]
            by_cases hv : u ∈ v1
            · rw [if_pos hv]
              by_cases hr : u ∈ r1
              · rw [if_pos hr]; exact fun x hx => hx
              · rw [if_neg hr]; exact fun x hx => hx
            · rw [if_neg hv]
              exact ih u v1 r1
          | found => exact fun x hx => hx
          | out => exact fun x hx => hx
        exact fun x hx => ihn _ (h1 hx)
    intro u v r
    rw [dfsDeadlock_succ]
    rcases hf : (graphLookup g u).foldl (dfsStep g fuel) (DfsRes.notFound, u :: v, u :: r)
      with ⟨res, v2, r2⟩
    have hsub : (u :: v) ⊆ v2 := by
      have := hfold (graphLookup g u) (DfsRes.notFound, u :: v, u :: r)
      rw [hf] at this
      exact this
    cases res with
    | notFound => exact fun x hx => hsub (List.mem_cons_of_mem u hx)
    | found => exact fun x hx => hsub (List.mem_cons_of_mem u hx)
    | out => exact fun x hx => hsub (List.mem_cons_of_mem u hx)

/-- When the DFS answers "no cycle", the recursion stack is restored to
exactly what it was at the call. -/
theorem dfs_recStack_restore (g : WaitForGraph) : ∀ fuel u v r v2 r2,
    dfsDeadlock g fuel u v r = (DfsRes.notFound, v2, r2) → r2 = r := by
  intro fuel
  induction fuel with
  | zero =>
    intro u v r v2 r2 h
    rw [dfsDeadlock] at h
    exact absurd (congrArg Prod.fst h) (by simp)
  | succ fuel ih =>
    have hfold : ∀ (ns : List Nat) (acc : DfsRes × List Nat × List Nat) v2 r2,
        acc.1 = DfsRes.notFound →
        ns.foldl (dfsStep g fuel) acc = (DfsRes.notFound, v2, r2) → r2 = acc.2.2 := by
      intro ns
      induction ns with
      | nil =>
        intro acc v2 r2 _ h
        rw [List.foldl_nil] at h
        rw [h]
      | cons u rest ihn =>
        intro acc v2 r2 hacc h
        rcases acc with ⟨res, v1, r1⟩
        cases res with
        | found => exact absurd hacc (by simp)
        | out => exact absurd hacc (by simp)
        | notFound =>
          rw [List.foldl_cons] at h
          show r2 = r1
          rw [dfsStep_eq] at h
          by_cases hv : u ∈ v1
          · rw [if_pos hv] at h
            by_cases hr : u ∈ r1
            · rw [if_pos hr, dfsFold_done _ _ _ _ (by simp)] at h
              exact absurd (congrArg Prod.fst h) (by simp)
            · rw [if_neg hr] at h
              exact ihn _ _ _ rfl h
          · rw [if_neg hv] at h
            rcases h3 : dfsDeadlock g fuel u v1 r1 with ⟨res3, v3, r3⟩
            rw [h3] at h
            cases res3 with
            | found =>
              rw [dfsFold_done _ _ _ _ (by simp)] at h
              exact absurd (congrArg Prod.fst h) (by simp)
            | out =>
              rw [dfsFold_done _ _ _ _ (by simp)] at h
              exact absurd (congrArg Prod.fst h) (by simp)
            | notFound =>
              have hr3 : r3 = r1 := ih _ _ _ _ _ h3
              have := ihn (DfsRes.notFound, v3, r3) v2 r2 rfl h
              rw [this, hr3]
    intro u v r v2 r2 h
    rw [dfsDeadlock_succ] at h
    rcases hf : (graphLookup g u).foldl (dfsStep g fuel) (DfsRes.notFound, u :: v, u :: r)
      with ⟨res, v2', r2'⟩
    rw [hf] at h
    cases res with
    | found => exact absurd (congrArg Prod.fst h) (by simp)
    | out => exact absurd (congrArg Prod.fst h) (by simp)
    | notFound =>
      have hr : r2' = u :: r := hfold _ _ _ _ rfl hf
      have h5 : r2 = r2'.erase u := (congrArg (fun x => x.2.2) h).symm
      rw [h5, hr, List.erase_cons_head]

/-- Number of graph nodes not yet visited: the measure that bounds the DFS
recursion depth. -/
def unvisitedCount (g : WaitForGraph) (v : List Nat) : Nat :=
  ((graphNodes g).dedup.filter (fun x => decide (¬ x ∈ v))).length

/-- Growing the visited set cannot increase the measure. -/
theorem unvisitedCount_anti (g : WaitForGraph) {v w : List Nat} (h : v ⊆ w) :
    unvisitedCount g w ≤ unvisitedCount g v := by
  unfold unvisitedCount
  refine List.Sublist.length_le (List.monotone_filter_right _ ?_)
  intro a ha
  simp only [decide_eq_true_eq] at ha ⊢
  intro hav
  exact ha (h hav)

/-- Marking an unvisited node visited decreases the measure by exactly one
(on the duplicate-free node list). -/
theorem unvisitedCount_cons_aux : ∀ (l : List Nat), l.Nodup → ∀ (u : Nat) (v : List Nat),
    u ∈ l → ¬ u ∈ v →
    (l.filter (fun x => decide (¬ x ∈ u :: v))).length + 1
      = (l.filter (fun x => decide (¬ x ∈ v))).length := by
  intro l
  induction l with
  | nil => intro _ u v hu; simp at hu
  | cons a l ih =>
    intro hnd u v hu hv
    have hndl : l.Nodup := (List.nodup_cons.mp hnd).2
    have hal : ¬ a ∈ l := (List.nodup_cons.mp hnd).1
    rw [List.filter_cons, List.filter_cons]
    by_cases hau : a = u
    · subst hau
      -- the head is the node being marked: dropped on the left, kept on the right
      rw [if_neg (by simp), if_pos (by simpa using hv)]
      have htails : l.filter (fun x => decide (¬ x ∈ a :: v))
          = l.filter (fun x => decide (¬ x ∈ v)) := by
        apply List.filter_congr
        intro x hx
        have hxa : x ≠ a := fun hxe => hal (hxe ▸ hx)
        simp [hxa]
      rw [htails]
      simp
    · have hu' : u ∈ l := by
        rcases List.mem_cons.mp hu with h | h
        · exact absurd h.symm hau
        · exact h
      by_cases hav : a ∈ v
      · rw [if_neg (by simp [hav]), if_neg (by simp [hav])]
        exact ih hndl u v hu' hv
      · rw [if_pos (by simp [hav, hau]), if_pos (by simpa using hav),
          List.length_cons, List.length_cons]
        rw [Nat.add_right_comm]
        rw [ih hndl u v hu' hv]

theorem unvisitedCount_cons (g : WaitForGraph) (u : Nat) (v : List Nat)
    (hu : u ∈ graphNodes g) (hv : ¬ u ∈ v) :
    unvisitedCount g (u :: v) + 1 = unvisitedCount g v :=
  unvisitedCount_cons_aux _ (List.nodup_dedup _) u v (List.mem_dedup.mpr hu) hv

/-- `lookup` only answers entries of the association list. -/
theorem lookup_mem {β : Type} : ∀ (g : List (Nat × β)) (t : Nat) (ns : β),
    g.lookup t = some ns → (t, ns) ∈ g := by
  intro g
  induction g with
  | nil => intro t ns h; exact absurd h (by simp)
  | cons e rest ih =>
    intro t ns h
    rcases e with ⟨a, b⟩
    rw [List.lookup_cons] at h
    by_cases hta : t = a
    · subst hta
      rw [show (t == t) = true from by simp] at h
      simp only [Option.some_inj] at h
      subst h
      exact List.mem_cons_self _ _
    · rw [show (t == a) = false from by simp [hta]] at h
      exact List.mem_cons_of_mem _ (ih t ns h)

/-- Edge targets of any entry are nodes of the graph. -/
theorem mem_graphNodes_of_edge : ∀ (g : WaitForGraph) (t : Nat) (ns : List Nat),
    (t, ns) ∈ g → ∀ x ∈ ns, x ∈ graphNodes g := by
  intro g t ns hmem x hx
  unfold graphNodes
  refine List.mem_append_right _ ?_
  induction g with
  | nil => simp at hmem
  | cons e rest ih =>
    rw [List.foldr_cons]
    rcases List.mem_cons.mp hmem with h | h
    · subst h
      exact List.mem_append_left _ hx
    · exact List.mem_append_right _ (ih h)

/-- Everything reachable through `graphLookup` is a node of the graph. -/
theorem mem_graphNodes_of_lookup (g : WaitForGraph) (t : Nat) {x : Nat}
    (hx : x ∈ graphLookup g t) : x ∈ graphNodes g := by
  unfold graphLookup at hx
  rcases hl : g.lookup t with _ | ns
  · rw [hl] at hx; simp at hx
  · rw [hl] at hx
    exact mem_graphNodes_of_edge g t ns (lookup_mem g t ns hl) x hx

/-- With the measure below the fuel, the DFS never runs out of fuel. -/
theorem dfs_no_out (g : WaitForGraph) : ∀ fuel u v r,
    ¬ u ∈ v → u ∈ graphNodes g → unvisitedCount g v ≤ fuel →
    (dfsDeadlock g fuel u v r).1 ≠ DfsRes.out := by
  intro fuel
  induction fuel with
  | zero =>
    intro u v r huv hun hcnt
    exfalso
    have : u ∈ (graphNodes g).dedup.filter (fun x => decide (¬ x ∈ v)) :=
      List.mem_filter.mpr ⟨List.mem_dedup.mpr hun, by simpa using huv⟩
    have := List.length_pos_of_mem this
    unfold unvisitedCount at hcnt
    omega
  | succ fuel ih =>
    have hfold : ∀ (ns : List Nat) (acc : DfsRes × List Nat × List Nat),
        (∀ x ∈ ns, x ∈ graphNodes g) → acc.1 ≠ DfsRes.out →
        (acc.1 = DfsRes.notFound → unvisitedCount g acc.2.1 ≤ fuel) →
        (ns.foldl (dfsStep g fuel) acc).1 ≠ DfsRes.out := by
      intro ns
      induction ns with
      | nil => intro acc _ hne _; simpa using hne
      | cons u rest ihn =>
        intro acc hns hne hcnt
        rcases acc with ⟨res, v1, r1⟩
        rw [List.foldl_cons]
        cases res with
        | found =>
          rw [dfsStep_done _ _ _ _ (by simp)]
          exact ihn _ (fun x hx => hns x (List.mem_cons_of_mem _ hx)) hne hcnt
        | out => exact absurd rfl hne
        | notFound =>
          have hc1 : unvisitedCount g v1 ≤ fuel := hcnt rfl
          rw [dfsStep_eq]
          by_cases hv : u ∈ v1
          · rw [if_pos hv]
            by_cases hr : u ∈ r1
            · rw [if_pos hr]
              rw [dfsFold_done _ _ _ _ (by simp)]
              simp
            · rw [if_neg hr]
              exact ihn _ (fun x hx => hns x (List.mem_cons_of_mem _ hx)) (by simp)
                (fun _ => hc1)
          · rw [if_neg hv]
            have hnode : u ∈ graphNodes g := hns u (List.mem_cons_self _ _)
            rcases h3 : dfsDeadlock g fuel u v1 r1 with ⟨res3, v3, r3⟩
            have hne3 : res3 ≠ DfsRes.out := by
              have := ih u v1 r1 hv hnode hc1
              rw [h3] at this
              exact this
            cases res3 with
            | out => exact absurd rfl hne3
            | found =>
              rw [dfsFold_done _ _ _ _ (by simp)]
              simp
            | notFound =>
              refine ihn _ (fun x hx => hns x (List.mem_cons_of_mem _ hx)) (by simp) ?_
              intro _
              show unvisitedCount g v3 ≤ fuel
              have hsub : v1 ⊆ v3 := by
                have := dfs_visited_mono g fuel u v1 r1
                rw [h3] at this
                exact this
              exact Nat.le_trans (unvisitedCount_anti g hsub) hc1
    intro u v r huv hun hcnt
    rw [dfsDeadlock_succ]
    have hc2 : unvisitedCount g (u :: v) ≤ fuel := by
      have := unvisitedCount_cons g u v hun huv
      omega
    have := hfold (graphLookup g u) (DfsRes.notFound, u :: v, u :: r)
      (fun x hx => mem_graphNodes_of_lookup g u hx) (by simp) (fun _ => hc2)
    rcases hf : (graphLookup g u).foldl (dfsStep g fuel) (DfsRes.notFound, u :: v, u :: r)
      with ⟨res, v2, r2⟩
    rw [hf] at this
    cases res with
    | notFound => simp
    | found => simp
    | out => simp at this

/-- A self-edge is always detected by the neighbour fold: if the node under
scrutiny is among the neighbours, on the visited set and on the recursion
stack, the fold cannot answer "no cycle". -/
theorem dfsFold_self_edge (g : WaitForGraph) (fuel : Nat) :
    ∀ (ns : List Nat) (acc : DfsRes × List Nat × List Nat) (t : Nat),
    t ∈ ns → acc.1 = DfsRes.notFound → t ∈ acc.2.1 → t ∈ acc.2.2 →
    (ns.foldl (dfsStep g fuel) acc).1 ≠ DfsRes.notFound := by
  intro ns
  induction ns with
  | nil => intro acc t ht; simp at ht
  | cons u rest ih =>
    intro acc t ht hacc htv htr
    rcases acc with ⟨res, v1, r1⟩
    cases res with
    | found => exact absurd hacc (by simp)
    | out => exact absurd hacc (by simp)
    | notFound =>
      simp only at htv htr
      rw [List.foldl_cons, dfsStep_eq]
      by_cases hv : u ∈ v1
      · rw [if_pos hv]
        by_cases hr : u ∈ r1
        · rw [if_pos hr, dfsFold_done _ _ _ _ (by simp)]
          simp
        · rw [if_neg hr]
          have hut : u ≠ t := fun he => hr (he ▸ htr)
          have ht' : t ∈ rest := by
            rcases List.mem_cons.mp ht with h | h
            · exact absurd h.symm hut
            · exact h
          exact ih _ t ht' rfl htv htr
      · rw [if_neg hv]
        have hut : u ≠ t := fun he => hv (he ▸ htv)
        have ht' : t ∈ rest := by
          rcases List.mem_cons.mp ht with h | h
          · exact absurd h.symm hut
          · exact h
        rcases h3 : dfsDeadlock g fuel u v1 r1 with ⟨res3, v3, r3⟩
        cases res3 with
        | found =>
          rw [dfsFold_done _ _ _ _ (by simp)]
          simp
        | out =>
          rw [dfsFold_done _ _ _ _ (by simp)]
          simp
        | notFound =>
          have hr3 : r3 = r1 := dfs_recStack_restore g fuel u v1 r1 v3 r3 h3
          have hsub : v1 ⊆ v3 := by
            have := dfs_visited_mono g fuel u v1 r1
            rw [h3] at this
            exact this
          exact ih _ t ht' rfl (hsub htv) (hr3 ▸ htr)

/-- A transaction waiting for itself is always reported as a deadlock: with a
self-edge in the wait-for graph, `hasDeadlock` answers true. -/
theorem hasDeadlock_self_edge (g : WaitForGraph) (t : Nat)
    (ht : t ∈ graphLookup g t) : hasDeadlock g t = true := by
  have hnode : t ∈ graphNodes g := mem_graphNodes_of_lookup g t ht
  unfold hasDeadlock
  rcases hres : dfsDeadlock g ((graphNodes g).dedup.length + 1) t [] [] with ⟨res, v2, r2⟩
  have hnotout : res ≠ DfsRes.out := by
    have := dfs_no_out g ((graphNodes g).dedup.length + 1) t [] []
      (by simp) hnode (by unfold unvisitedCount; simp)
    rw [hres] at this
    simpa using this
  have hnotnf : res ≠ DfsRes.notFound := by
    rw [dfsDeadlock_succ] at hres
    rcases hf : (graphLookup g t).foldl (dfsStep g ((graphNodes g).dedup.length))
        (DfsRes.notFound, t :: [], t :: []) with ⟨res', v2', r2'⟩
    rw [hf] at hres
    have hfne := dfsFold_self_edge g ((graphNodes g).dedup.length) (graphLookup g t)
      (DfsRes.notFound, t :: [], t :: []) t ht rfl (by simp) (by simp)
    rw [hf] at hfne
    cases res' with
    | notFound => simp at hfne
    | found =>
      have : res = DfsRes.found := (congrArg Prod.fst hres).symm
      rw [this]
      simp
    | out =>
      have : res = DfsRes.out := (congrArg Prod.fst hres).symm
      rw [this] at hnotout ⊢
      exact absurd rfl hnotout
  cases res with
  | found => rfl
  | notFound => exact absurd rfl hnotnf
  | out => exact absurd rfl hnotout

/-- With any lock granted on the RID, the scan refuses an exclusive request
at the first granted entry. -/
theorem canGrantScan_exclusive_some_false : ∀ q : List LockRequest,
    (∃ r ∈ q, r.granted = true) → canGrantScan LockMode.exclusive q = some false := by
  intro q
  induction q with
  | nil => intro h; simp at h
  | cons r rest ih =>
    intro h
    rw [canGrantScan]
    by_cases hg : r.granted
    · rw [if_pos hg]
      by_cases hm : r.mode = LockMode.exclusive
      · rw [if_pos hm]
      · rw [if_neg hm, if_pos rfl]
    · rw [if_neg hg]
      refine ih ?_
      rcases h with ⟨x, hx, hxg⟩
      rcases List.mem_cons.mp hx with he | he
      · subst he; exact absurd hxg hg
      · exact ⟨x, he, hxg⟩

/-- `canGrantLock(rid, Exclusive)` is false whenever any request is granted. -/
theorem canGrant_exclusive_false (q : List LockRequest)
    (h : ∃ r ∈ q, r.granted = true) : canGrantLock q LockMode.exclusive = false := by
  unfold canGrantLock
  have hne : q.isEmpty = false := by
    rcases h with ⟨x, hx, _⟩
    cases q with
    | nil => simp at hx
    | cons a l => rfl
  rw [if_neg (by rw [hne]; exact Bool.false_ne_true), canGrantScan_exclusive_some_false q h]

/-- `updateWaitForGraph`'s outer loop splits over an append. -/
theorem updGo_append (all : List LockRequest) : ∀ (l1 l2 : List LockRequest) (g : WaitForGraph),
    updGo all (l1 ++ l2) g = updGo all l2 (updGo all l1 g) := by
  intro l1
  induction l1 with
  | nil => intro l2 g; rfl
  | cons r l1 ih =>
    intro l2 g
    rw [List.cons_append, updGo, updGo]
    by_cases hg : r.granted
    · rw [if_pos hg, if_pos hg, ih]
    · rw [if_neg hg, if_neg hg, ih]

theorem mem_insertIfAbsent_self (l : List Nat) (t : Nat) : t ∈ insertIfAbsent l t := by
  unfold insertIfAbsent
  by_cases h : t ∈ l
  · rw [if_pos h]; exact h
  · rw [if_neg h]; simp

theorem mem_insertIfAbsent_of_mem (l : List Nat) (t x : Nat) (h : x ∈ l) :
    x ∈ insertIfAbsent l t := by
  unfold insertIfAbsent
  by_cases ht : t ∈ l
  · rw [if_pos ht]; exact h
  · rw [if_neg ht]; exact List.mem_append_left _ h

theorem mem_foldl_insertIfAbsent_acc : ∀ (l acc : List Nat) (x : Nat),
    x ∈ acc → x ∈ l.foldl insertIfAbsent acc := by
  intro l
  induction l with
  | nil => intro acc x h; exact h
  | cons y l ih =>
    intro acc x h
    rw [List.foldl_cons]
    exact ih _ x (mem_insertIfAbsent_of_mem acc y x h)

theorem mem_foldl_insertIfAbsent : ∀ (l acc : List Nat) (x : Nat),
    x ∈ l → x ∈ l.foldl insertIfAbsent acc := by
  intro l
  induction l with
  | nil => intro acc x h; simp at h
  | cons y l ih =>
    intro acc x h
    rw [List.foldl_cons]
    rcases List.mem_cons.mp h with he | he
    · subst he
      exact mem_foldl_insertIfAbsent_acc l _ x (mem_insertIfAbsent_self acc x)
    · exact ih _ x he

theorem graphLookup_graphSet_self (g : WaitForGraph) (t : Nat) (ns : List Nat) :
    graphLookup (graphSet g t ns) t = ns := by
  unfold graphLookup graphSet
  rw [List.lookup_cons]
  simp

/-- After `updateWaitForGraph` on a queue whose *last* request is a pending
request by `t`, and in which `t` also holds a granted lock, the graph records
`t` as waiting for itself. -/
theorem updateWaitForGraph_self_edge (q : List LockRequest) (g : WaitForGraph)
    (req : LockRequest) (hpend : req.granted = false)
    (hgr : ∃ r ∈ q ++ [req], r.granted = true ∧ r.txnID = req.txnID) :
    req.txnID ∈ graphLookup (updateWaitForGraph (q ++ [req]) g) req.txnID := by
  unfold updateWaitForGraph
  rw [updGo_append]
  rw [updGo, if_neg (by rw [hpend]; exact Bool.false_ne_true)]
  show req.txnID ∈ graphLookup (updGo _ [] (graphSet _ req.txnID _)) req.txnID
  rw [updGo, graphLookup_graphSet_self]
  refine mem_foldl_insertIfAbsent _ _ _ ?_
  rcases hgr with ⟨r, hr, hrg, hrt⟩
  have : r ∈ (q ++ [req]).filter (fun x => x.granted) := List.mem_filter.mpr ⟨hr, hrg⟩
  rw [← hrt]
  exact List.mem_map_of_mem (fun x => x.txnID) this

/-- `grantPendingLocks` keeps every granted request (it only flips pending
requests to granted). -/
theorem gplGo_keeps_granted : ∀ (rest done : List LockRequest) (r : LockRequest),
    r.granted = true → (r ∈ done ∨ r ∈ rest) → r ∈ gplGo done rest := by
  intro rest
  induction rest with
  | nil =>
    intro done r _ h
    rw [gplGo]
    rcases h with h | h
    · exact h
    · simp at h
  | cons x rest ih =>
    intro done r hg h
    rw [gplGo]
    by_cases hxg : x.granted
    · rw [if_pos hxg]
      refine ih _ r hg ?_
      rcases h with h | h
      · exact Or.inl (List.mem_append_left _ h)
      · rcases List.mem_cons.mp h with he | he
        · exact Or.inl (he ▸ List.mem_append_right _ (List.mem_singleton.mpr rfl))
        · exact Or.inr he
    · rw [if_neg hxg]
      have hrx : r ≠ x := fun he => hxg (he ▸ hg)
      have h' : r ∈ done ∨ r ∈ rest := by
        rcases h with h | h
        · exact Or.inl h
        · rcases List.mem_cons.mp h with he | he
          · exact absurd he hrx
          · exact Or.inr he
      by_cases hc : canGrantLock (done ++ x :: rest) x.mode
      · rw [if_pos hc]
        by_cases hm : x.mode = LockMode.exclusive
        · rw [if_pos hm]
          rcases h' with h' | h'
          · exact List.mem_append_left _ h'
          · exact List.mem_append_right _ (List.mem_cons_of_mem _ h')
        · rw [if_neg hm]
          refine ih _ r hg ?_
          rcases h' with h' | h'
          · exact Or.inl (List.mem_append_left _ h')
          · exact Or.inr h'
      · rw [if_neg hc]
        rcases h' with h' | h'
        · exact List.mem_append_left _ h'
        · exact List.mem_append_right _ (List.mem_cons_of_mem _ h')

/-- Every request in the output of `grantPendingLocks`' scan comes from the
input, possibly with its `granted` flag switched on. -/
theorem gplGo_source : ∀ (rest done : List LockRequest) (x : LockRequest),
    x ∈ gplGo done rest →
    ∃ r, (r ∈ done ∨ r ∈ rest) ∧ (x = r ∨ x = { r with granted := true }) := by
  intro rest
  induction rest with
  | nil =>
    intro done x hx
    rw [gplGo] at hx
    exact ⟨x, Or.inl hx, Or.inl rfl⟩
  | cons y rest ih =>
    intro done x hx
    rw [gplGo] at hx
    by_cases hyg : y.granted
    · rw [if_pos hyg] at hx
      rcases ih _ x hx with ⟨r, hr, hxr⟩
      rcases hr with hr | hr
      · rcases List.mem_append.mp hr with h | h
        · exact ⟨r, Or.inl h, hxr⟩
        · exact ⟨r, Or.inr (List.mem_cons.mpr (Or.inl (List.mem_singleton.mp h))), hxr⟩
      · exact ⟨r, Or.inr (List.mem_cons_of_mem _ hr), hxr⟩
    · rw [if_neg hyg] at hx
      by_cases hc : canGrantLock (done ++ y :: rest) y.mode
      · rw [if_pos hc] at hx
        by_cases hm : y.mode = LockMode.exclusive
        · rw [if_pos hm] at hx
          rcases List.mem_append.mp hx with h | h
          · exact ⟨x, Or.inl h, Or.inl rfl⟩
          · rcases List.mem_cons.mp h with he | he
            · exact ⟨y, Or.inr (List.mem_cons_self _ _), Or.inr he⟩
            · exact ⟨x, Or.inr (List.mem_cons_of_mem _ he), Or.inl rfl⟩
        · rw [if_neg hm] at hx
          rcases ih _ x hx with ⟨r, hr, hxr⟩
          rcases hr with hr | hr
          · rcases List.mem_append.mp hr with h | h
            · exact ⟨r, Or.inl h, hxr⟩
            · have he := List.mem_singleton.mp h
              subst he
              rcases hxr with hxr | hxr
              · exact ⟨y, Or.inr (List.mem_cons_self _ _), Or.inr hxr⟩
              · exact ⟨y, Or.inr (List.mem_cons_self _ _), Or.inr (by rw [hxr])⟩
          · exact ⟨r, Or.inr (List.mem_cons_of_mem _ hr), hxr⟩
      · rw [if_neg hc] at hx
        rcases List.mem_append.mp hx with h | h
        · exact ⟨x, Or.inl h, Or.inl rfl⟩
        · rcases List.mem_cons.mp h with he | he
          · exact ⟨y, Or.inr (List.mem_cons_self _ _), Or.inl he⟩
          · exact ⟨x, Or.inr (List.mem_cons_of_mem _ he), Or.inl rfl⟩

/-- C10.  Lock upgrade is reported as deadlock: when an Active transaction `t`
already holds a granted shared lock on the RID, `LockExclusive(t, rid)` does
not upgrade or grant the lock; the appended pending request makes
`updateWaitForGraph` record `t` as waiting for itself, `hasDeadlock` finds
the self-cycle, and the call returns `Deadlock`, leaving every granted
request (in particular `t`'s shared lock) in place and the new exclusive
request removed from the queue. -/
theorem lock_upgrade_reports_deadlock (st : LMState) (t : Nat)
    (hheld : ∃ r ∈ st.queue, r.txnID = t ∧ r.mode = LockMode.shared ∧ r.granted = true)
    (htags : ∀ r ∈ st.queue, r.tag < st.nextTag) :
    (lockExclusive st true t).2 = LockOutcome.deadlock ∧
    t ∈ graphLookup
      (updateWaitForGraph (st.queue ++ [⟨t, LockMode.exclusive, false, st.nextTag⟩])
        st.waitFor) t ∧
    hasDeadlock
      (updateWaitForGraph (st.queue ++ [⟨t, LockMode.exclusive, false, st.nextTag⟩])
        st.waitFor) t = true ∧
    (∀ r ∈ st.queue, r.granted = true → r ∈ (lockExclusive st true t).1.queue) ∧
    (∀ r ∈ (lockExclusive st true t).1.queue, r.tag ≠ st.nextTag) := by
  rcases hheld with ⟨rS, hrSmem, hrSt, hrSm, hrSg⟩
  have hcg : canGrantLock st.queue LockMode.exclusive = false :=
    canGrant_exclusive_false _ ⟨rS, hrSmem, hrSg⟩
  have hself : t ∈ graphLookup
      (updateWaitForGraph (st.queue ++ [⟨t, LockMode.exclusive, false, st.nextTag⟩])
        st.waitFor) t := by
    have := updateWaitForGraph_self_edge st.queue st.waitFor
      ⟨t, LockMode.exclusive, false, st.nextTag⟩ rfl
      ⟨rS, List.mem_append_left _ hrSmem, hrSg, hrSt⟩
    exact this
  have hdl : hasDeadlock
      (updateWaitForGraph (st.queue ++ [⟨t, LockMode.exclusive, false, st.nextTag⟩])
        st.waitFor) t = true := hasDeadlock_self_edge _ t hself
  have hstep : lockExclusive st true t =
      (removeRequest
        ⟨st.queue ++ [⟨t, LockMode.exclusive, false, st.nextTag⟩],
         updateWaitForGraph (st.queue ++ [⟨t, LockMode.exclusive, false, st.nextTag⟩])
           st.waitFor,
         st.nextTag + 1⟩
        ⟨t, LockMode.exclusive, false, st.nextTag⟩, LockOutcome.deadlock) := by
    unfold lockExclusive
    rw [if_neg (by simp), if_neg (by rw [hcg]; exact Bool.false_ne_true), if_pos hdl]
  have hqueue : (lockExclusive st true t).1.queue =
      grantPendingLocks
        ((st.queue ++ [(⟨t, LockMode.exclusive, false, st.nextTag⟩ : LockRequest)]).filter
          (fun x => x != (⟨t, LockMode.exclusive, false, st.nextTag⟩ : LockRequest))) := by
    rw [hstep]
    rfl
  refine ⟨by rw [hstep], hself, hdl, ?_, ?_⟩
  · intro r hr hg
    rw [hqueue]
    refine gplGo_keeps_granted _ [] r hg (Or.inr ?_)
    refine List.mem_filter.mpr ⟨List.mem_append_left _ hr, ?_⟩
    have hne : r ≠ (⟨t, LockMode.exclusive, false, st.nextTag⟩ : LockRequest) := by
      intro he
      rw [he] at hg
      exact Bool.noConfusion hg
    simpa using hne
  · intro r hr
    rw [hqueue] at hr
    rcases gplGo_source _ [] r hr with ⟨r0, hr0, hrr0⟩
    have hr0' : r0 ∈ (st.queue ++ [(⟨t, LockMode.exclusive, false, st.nextTag⟩ : LockRequest)]).filter
        (fun x => x != (⟨t, LockMode.exclusive, false, st.nextTag⟩ : LockRequest)) := by
      rcases hr0 with h | h
      · simp at h
      · exact h
    have hr0mem := List.mem_filter.mp hr0'
    have hr0ne : r0 ≠ (⟨t, LockMode.exclusive, false, st.nextTag⟩ : LockRequest) := by
      have := hr0mem.2
      simpa using this
    have hr0q : r0 ∈ st.queue := by
      rcases List.mem_append.mp hr0mem.1 with h | h
      · exact h
      · exact absurd (List.mem_singleton.mp h) hr0ne
    have htag : r0.tag < st.nextTag := htags r0 hr0q
    have hrtag : r.tag = r0.tag := by
      rcases hrr0 with h | h
      · rw [h]
      · rw [h]
    omega

/-- Witness for C10 at the concrete state `lmS1` (T1 holds a granted shared
lock, next tag 1): requesting the exclusive lock for T1 itself. -/
theorem lock_upgrade_reports_deadlock_witness :
    (∃ r ∈ lmS1.queue, r.txnID = 1 ∧ r.mode = LockMode.shared ∧ r.granted = true) ∧
    (∀ r ∈ lmS1.queue, r.tag < lmS1.nextTag) ∧
    ((lockExclusive lmS1 true 1).2 = LockOutcome.deadlock ∧
     1 ∈ graphLookup
       (updateWaitForGraph (lmS1.queue ++ [⟨1, LockMode.exclusive, false, lmS1.nextTag⟩])
         lmS1.waitFor) 1 ∧
     hasDeadlock
       (updateWaitForGraph (lmS1.queue ++ [⟨1, LockMode.exclusive, false, lmS1.nextTag⟩])
         lmS1.waitFor) 1 = true ∧
     (∀ r ∈ lmS1.queue, r.granted = true → r ∈ (lockExclusive lmS1 true 1).1.queue) ∧
     (∀ r ∈ (lockExclusive lmS1 true 1).1.queue, r.tag ≠ lmS1.nextTag)) :=
  ⟨by decide, by decide,
    lock_upgrade_reports_deadlock lmS1 1 (by decide) (by decide)⟩

/-! ## Log records and recovery (transaction/recovery.go, part of log manager)

Pages are byte functions (`offset → byte`), the page store is
`PageID → page`.  The buffer pool is modelled as an unbounded write-back
cache over the disk: recovery's `FetchPage` reads a cached page or loads it
from disk (a page never written reads as zeroes, the `io.EOF` zero-fill),
`undoUpdate`/`redoUpdate` overwrite bytes in the cache and mark the page
dirty, and `Flush` copies every dirty cached page to disk.  Eviction
behaviour is covered separately by the buffer-pool theorems. -/

/-- `LogRecordType` (recovery only inspects Update / Commit / Abort / Begin). -/
inductive LogType where
  | update
  | commit
  | abortRec
  | beginRec
  | checkpoint
  deriving DecidableEq, Repr

/-- `LogRecord` from the log manager. -/
structure LogRecord where
  type : LogType
  txnID : Nat
  pageID : Nat
  offset : Nat
  oldValue : Bytes
  newValue : Bytes
  lsn : Nat
  deriving DecidableEq, Repr

/-- A page as a byte function. -/
abbrev PageFn := Nat → Nat

/-- The recovery-time database state: durable pages and the page cache with
per-page dirty flags. -/
structure RecState where
  disk : Nat → PageFn
  cache : Nat → Option (PageFn × Bool)

/-- The page content `FetchPage` yields during recovery: the cached copy, or
the disk copy on a miss. -/
def fetchCached (s : RecState) (pid : Nat) : PageFn :=
  match s.cache pid with
  | some (pg, _) => pg
  | none => s.disk pid

/-- `copy(page[offset:offset+len(data)], data)`. -/
def writeBytes (pg : PageFn) (off : Nat) (data : Bytes) : PageFn :=
  fun i => if off ≤ i ∧ i < off + data.length then data.getD (i - off) 0 else pg i

/-- Common body of `undoUpdate` / `redoUpdate`: fetch the page, overwrite the
bytes, mark the buffer dirty. -/
def applyAt (s : RecState) (pid off : Nat) (data : Bytes) : RecState :=
  { s with cache := fun p =>
      if p = pid then some (writeBytes (fetchCached s pid) off data, true) else s.cache p }

/-- `BufferPoolManager.Flush()`: write every dirty cached page to disk and
clear the flags. -/
def flushAll (s : RecState) : RecState :=
  { disk := fun p =>
      match s.cache p with
      | some (pg, true) => pg
      | _ => s.disk p,
    cache := fun p =>
      match s.cache p with
      | some (pg, _) => some (pg, false)
      | none => none }

/-- Analysis fold of `Recover()`: Begin adds the transaction to the active
set, Commit moves it to the committed set, Abort removes it (Go `map`s become
duplicate-free lists). -/
def analysisStep (sets : List Nat × List Nat) (r : LogRecord) : List Nat × List Nat :=
  match r.type with
  | LogType.beginRec => (insertIfAbsent sets.1 r.txnID, sets.2)
  | LogType.commit => (sets.1.filter (fun t => t != r.txnID), insertIfAbsent sets.2 r.txnID)
  | LogType.abortRec => (sets.1.filter (fun t => t != r.txnID), sets.2)
  | _ => sets

/-- The reverse scan of the undo phase: walk the log newest-first, collect
this transaction's Update records, stop at its Begin.  (Records of other
transactions are skipped without stopping.) -/
def collectUndo (t : Nat) : List LogRecord → List LogRecord
  | [] => []
  | r :: rest =>
    if r.txnID = t then
      if r.type = LogType.beginRec then []
      else if r.type = LogType.update then r :: collectUndo t rest
      else collectUndo t rest
    else collectUndo t rest

/-- `Recover()` from recovery.go: analysis, redo (forward scan applying
`new_value` of committed transactions' updates), undo (per still-active
transaction, `old_value`s newest-first up to its Begin), and a final buffer
flush.  The `dirtyPages` set the Go code builds between analysis and redo is
never read afterwards (dead code) and is omitted. -/
def recover (records : List LogRecord) (s : RecState) : RecState :=
  flushAll
    ((records.foldl analysisStep ([], [])).1.foldl
      (fun st t =>
        (collectUndo t records.reverse).foldl
          (fun st2 r => applyAt st2 r.pageID r.offset r.oldValue) st)
      (records.foldl
        (fun st r =>
          if r.type = LogType.update ∧
              (records.foldl analysisStep ([], [])).2.contains r.txnID then
            applyAt st r.pageID r.offset r.newValue
          else st) s))

/-- The claim's phrasing of the redo phase: apply, in forward scan order, the
`new_value` of exactly the Update records of committed transactions. -/
def redoSpec (records : List LogRecord) (committed : List Nat) (s : RecState) : RecState :=
  (records.filter (fun r => r.type == LogType.update && committed.contains r.txnID)).foldl
    (fun st r => applyAt st r.pageID r.offset r.newValue) s

/-- The claim's phrasing of one transaction's undo work: its Update records,
newest first, up to (not including) its Begin, with `old_value` applied. -/
def undoSpecOne (records : List LogRecord) (t : Nat) (s : RecState) : RecState :=
  ((records.reverse.takeWhile
      (fun r => !(r.txnID == t && r.type == LogType.beginRec))).filter
    (fun r => r.txnID == t && r.type == LogType.update)).foldl
    (fun st r => applyAt st r.pageID r.offset r.oldValue) s

/-- The claim's phrasing of `Recover()` as a whole. -/
def recoverSpec (records : List LogRecord) (s : RecState) : RecState :=
  flushAll
    ((records.foldl analysisStep ([], [])).1.foldl
      (fun st t => undoSpecOne records t st)
      (redoSpec records (records.foldl analysisStep ([], [])).2 s))

/-- Folding over a filtered list is the guarded fold. -/
theorem foldl_filter {α β : Type} (p : α → Bool) (f : β → α → β) :
    ∀ (l : List α) (init : β),
    (l.filter p).foldl f init = l.foldl (fun acc a => if p a then f acc a else acc) init := by
  intro l
  induction l with
  | nil => intro init; rfl
  | cons x xs ih =>
    intro init
    rw [List.filter_cons, List.foldl_cons]
    by_cases hx : p x
    · rw [if_pos hx, List.foldl_cons, if_pos hx, ih]
    · rw [if_neg (by simp [hx]), if_neg hx, ih]

/-- The Go reverse scan with break equals take-up-to-Begin-then-filter. -/
theorem collectUndo_eq_spec (t : Nat) : ∀ (l : List LogRecord),
    collectUndo t l =
      (l.takeWhile (fun r => !(r.txnID == t && r.type == LogType.beginRec))).filter
        (fun r => r.txnID == t && r.type == LogType.update) := by
  intro l
  induction l with
  | nil => rfl
  | cons r rest ih =>
    rw [collectUndo, List.takeWhile]
    by_cases ht : r.txnID = t
    · rw [if_pos ht]
      by_cases hb : r.type = LogType.beginRec
      · rw [if_pos hb]
        have : (!(r.txnID == t && r.type == LogType.beginRec)) = false := by
          simp [ht, hb]
        rw [this]
        rfl
      · rw [if_neg hb]
        have hcond : (!(r.txnID == t && r.type == LogType.beginRec)) = true := by
          simp [ht, hb]
        rw [hcond]
        by_cases hu : r.type = LogType.update
        · rw [if_pos hu, List.filter_cons, if_pos (by simp [ht, hu]), ih]
        · rw [if_neg hu, List.filter_cons, if_neg (by simp [ht, hu]), ih]
    · rw [if_neg ht]
      have hcond : (!(r.txnID == t && r.type == LogType.beginRec)) = true := by
        simp [ht]
      rw [hcond, List.filter_cons, if_neg (by simp [ht]), ih]

/-- The Scenario H log: Begin(T1), Update(T1, p, 100, 0000 → 1111),
Commit(T1), Begin(T2), Update(T2, p, 100, 1111 → 2222), then a crash.  The
byte value `1` plays the spec's `11`. -/
def scenarioHLog : List LogRecord :=
  [⟨LogType.beginRec, 1, 0, 0, [], [], 1⟩,
   ⟨LogType.update, 1, 5, 100, [0, 0, 0, 0], [1, 1, 1, 1], 2⟩,
   ⟨LogType.commit, 1, 0, 0, [], [], 3⟩,
   ⟨LogType.beginRec, 2, 0, 0, [], [], 4⟩,
   ⟨LogType.update, 2, 5, 100, [1, 1, 1, 1], [2, 2, 2, 2], 5⟩]

/-- The post-crash state: the page cache is empty, the disk is all zeroes
(the result is the same for any disk image, since redo and undo overwrite the
probed bytes). -/
def stateH0 : RecState := ⟨fun _ _ => 0, fun _ => none⟩

/-- C2.  Recovery correctness: `Recover()` equals, on every log and state,
the claim's three-phase description — analysis (Begin adds to active, Commit
moves to committed, Abort removes), redo of committed transactions'
`new_value`s in forward order, undo of each still-active transaction's
`old_value`s newest-first up to its Begin, then a buffer-pool flush; and on
the Scenario H log the recovered page `p` holds `1 1 1 1` (the spec's
`11 11 11 11`) at bytes 100..103, both on disk and in the cache. -/
theorem recover_correct :
    (∀ records s, recover records s = recoverSpec records s) ∧
    ((recover scenarioHLog stateH0).disk 5 100 = 1 ∧
     (recover scenarioHLog stateH0).disk 5 101 = 1 ∧
     (recover scenarioHLog stateH0).disk 5 102 = 1 ∧
     (recover scenarioHLog stateH0).disk 5 103 = 1 ∧
     fetchCached (recover scenarioHLog stateH0) 5 100 = 1 ∧
     fetchCached (recover scenarioHLog stateH0) 5 103 = 1) := by
  constructor
  · intro records s
    unfold recover recoverSpec
    have hredo : ∀ (committed : List Nat),
        records.foldl
          (fun st r =>
            if r.type = LogType.update ∧ committed.contains r.txnID then
              applyAt st r.pageID r.offset r.newValue
            else st) s = redoSpec records committed s := by
      intro committed
      unfold redoSpec
      rw [foldl_filter]
      have hfun : (fun (st : RecState) (r : LogRecord) =>
            if r.type = LogType.update ∧ committed.contains r.txnID then
              applyAt st r.pageID r.offset r.newValue
            else st)
          = fun st r =>
            if (r.type == LogType.update && committed.contains r.txnID) then
              applyAt st r.pageID r.offset r.newValue
            else st := by
        funext st r
        by_cases h : r.type = LogType.update ∧ committed.contains r.txnID
        · rw [if_pos h,
            if_pos (by simp only [h.1, beq_self_eq_true, Bool.true_and]; exact h.2)]
        · rw [if_neg h, if_neg ?_]
          simp only [Bool.and_eq_true, beq_iff_eq]
          exact h
      rw [hfun]
    have hundo : (fun (st : RecState) (t : Nat) =>
          (collectUndo t records.reverse).foldl
            (fun st2 r => applyAt st2 r.pageID r.offset r.oldValue) st)
        = fun st t => undoSpecOne records t st := by
      funext st t
      unfold undoSpecOne
      rw [collectUndo_eq_spec]
    rw [hredo, hundo]
  · refine ⟨?_, ?_, ?_, ?_, ?_, ?_⟩ <;> decide

/-! ## Transaction manager (transaction/transaction.go)

The file holds two revisions of `TransactionManager.Commit`/`Abort`; the
claim cites both (lines 198–235 and 484–529).  `Transaction.Commit` and
`Transaction.Abort` are textually identical in the two revisions.  The model
tracks one transaction: its `State` field, whether its ID is still in
`tm.activeTxns`, the appended log-record types (`AppendLog` order), how many
records `Flush` has made durable, and whether `UnlockAll` has run.
`recoveryManager.Rollback` touches none of these fields and is elided. -/

/-- `TransactionState`. -/
inductive TxnState where
  | active
  | committed
  | failed
  | aborted
  | terminated
  deriving DecidableEq, Repr

/-- The transaction-manager errors the claim mentions. -/
inductive TMErr where
  | alreadyCommitted
  | alreadyAborted
  | notActive
  deriving DecidableEq, Repr

/-- `Transaction.Commit` (both revisions): require Active, else
AlreadyCommitted for Committed and NotActive otherwise; on success the state
becomes Committed. -/
def txnCommitGo (s : TxnState) : Option TMErr × TxnState :=
  if s = TxnState.active then (none, TxnState.committed)
  else if s = TxnState.committed then (some TMErr.alreadyCommitted, s)
  else (some TMErr.notActive, s)

/-- `Transaction.Abort` (both revisions): nil and unchanged on Terminated,
AlreadyAborted on Aborted, otherwise Failed then Aborted, nil. -/
def txnAbortGo (s : TxnState) : Option TMErr × TxnState :=
  if s = TxnState.terminated then (none, s)
  else if s = TxnState.aborted then (some TMErr.alreadyAborted, s)
  else (none, TxnState.aborted)

/-- The manager-visible state of one transaction. -/
structure TMState where
  txn : TxnState
  inActive : Bool
  log : List LogType
  flushedLen : Nat
  locksHeld : Bool
  deriving DecidableEq, Repr

/-- `TransactionManager.Commit`, first revision (lines 198–235): call
`Transaction.Commit` and return its error on failure; otherwise append a
Commit record, `Flush`, `UnlockAll`, delete from `activeTxns`, and set the
state to Terminated. -/
def tmCommitV1 (s : TMState) : Option TMErr × TMState :=
  match txnCommitGo s.txn with
  | (some e, st1) => (some e, { s with txn := st1 })
  | (none, _) =>
    (none, { txn := TxnState.terminated,
             inActive := false,
             log := s.log ++ [LogType.commit],
             flushedLen := s.log.length + 1,
             locksHeld := false })

/-- `TransactionManager.Commit`, second revision (lines 484–529): after
`Transaction.Commit` succeeds it re-checks `txn.State != Active` — but
`Transaction.Commit` has already set the state to Committed, so the re-check
fires and returns AlreadyCommitted before any logging, unlocking or
termination happens. -/
def tmCommitV2 (s : TMState) : Option TMErr × TMState :=
  match txnCommitGo s.txn with
  | (some e, st1) => (some e, { s with txn := st1 })
  | (none, st1) =>
    if st1 ≠ TxnState.active then
      (if st1 = TxnState.committed then
        (some TMErr.alreadyCommitted, { s with txn := st1 })
       else (some TMErr.notActive, { s with txn := st1 }))
    else
      (none, { txn := TxnState.terminated,
               inActive := false,
               log := s.log ++ [LogType.commit],
               flushedLen := s.log.length + 1,
               locksHeld := false })

/-- `TransactionManager.Abort`, first revision (lines 239–282): call
`Transaction.Abort`; on error, return nil early only if the state is
Terminated (dead: the only error, AlreadyAborted, leaves the state Aborted),
otherwise continue; then rollback, append an Abort record (unflushed),
`UnlockAll`, delete from `activeTxns`, set Terminated, return nil.  On a
Terminated transaction `Transaction.Abort` returns nil, so the whole abort
path — including the log append — runs again. -/
def tmAbortV1 (s : TMState) : Option TMErr × TMState :=
  match txnAbortGo s.txn with
  | (some _, st1) =>
    if st1 = TxnState.terminated then (none, { s with txn := st1 })
    else (none, { txn := TxnState.terminated,
                  inActive := false,
                  log := s.log ++ [LogType.abortRec],
                  flushedLen := s.flushedLen,
                  locksHeld := false })
  | (none, _) =>
    (none, { txn := TxnState.terminated,
             inActive := false,
             log := s.log ++ [LogType.abortRec],
             flushedLen := s.flushedLen,
             locksHeld := false })

/-- C7.  Commit contract, settled against both cited variants.
(1) The second `TransactionManager.Commit` variant, on EVERY Active
transaction, returns AlreadyCommitted and leaves the transaction Committed,
still in the active map, with its locks held and nothing logged — the claimed
nil-with-full-processing contract fails.  (2) The first variant does satisfy
the claimed Active contract: nil, Commit record appended and flushed, locks
released, removed from the active map, final state Terminated.  (3) Both
variants return AlreadyCommitted, with no other effect, on a Committed
transaction.  (4) The first variant's Abort on a Terminated transaction is
NOT a no-op: it appends a fresh Abort record and re-runs lock release. -/
theorem tm_commit_contract_divergence :
    (∀ (ia : Bool) (l : List LogType) (fl : Nat) (lh : Bool),
      tmCommitV2 ⟨TxnState.active, ia, l, fl, lh⟩ =
        (some TMErr.alreadyCommitted, ⟨TxnState.committed, ia, l, fl, lh⟩)) ∧
    (∀ (ia : Bool) (l : List LogType) (fl : Nat) (lh : Bool),
      tmCommitV1 ⟨TxnState.active, ia, l, fl, lh⟩ =
        (none, ⟨TxnState.terminated, false, l ++ [LogType.commit], l.length + 1, false⟩)) ∧
    (∀ (ia : Bool) (l : List LogType) (fl : Nat) (lh : Bool),
      tmCommitV1 ⟨TxnState.committed, ia, l, fl, lh⟩ =
        (some TMErr.alreadyCommitted, ⟨TxnState.committed, ia, l, fl, lh⟩) ∧
      tmCommitV2 ⟨TxnState.committed, ia, l, fl, lh⟩ =
        (some TMErr.alreadyCommitted, ⟨TxnState.committed, ia, l, fl, lh⟩)) ∧
    (∀ (ia : Bool) (l : List LogType) (fl : Nat) (lh : Bool),
      tmAbortV1 ⟨TxnState.terminated, ia, l, fl, lh⟩ =
        (none, ⟨TxnState.terminated, false, l ++ [LogType.abortRec], fl, false⟩)) := by
  refine ⟨fun ia l fl lh => rfl, fun ia l fl lh => rfl,
          fun ia l fl lh => ⟨rfl, rfl⟩, fun ia l fl lh => rfl⟩

/-! ## B+ tree (btree/btree.go, btree/leaf/leaf.go, btree/internal/branch.go)

A node page is 4096 bytes: 8 bytes of node-type header, then the leaf header
(16 bytes: prev/next page IDs) or internal header (8 bytes: right child),
then a slotted page (8-byte header + body).  So a leaf's slotted body holds
4096 − 8 − 16 − 8 = 4064 bytes and a branch's 4096 − 8 − 8 − 8 = 4072.
The slotted body is represented by its list of records (C8 verified the
byte-level slotted insert); `FreeSpaceOffset` is capacity minus the total
record length, so `FreeSpace()` is capacity − total record length −
4·num_slots.  A leaf record is an encoded `Pair`
(`[key_len:4][key][value_len:4][value]`, 8 + |key| + |value| bytes); a
branch record's value is an 8-byte page ID (8 + |key| + 8 bytes).  The meta
page is the `root` field; node pages live in `pages`, a `CreatePage` appends
at index `pages.length`.  Go panics become `BRes.crash` with the panic
message; `ErrDuplicateKey` becomes `BRes.dup`. -/

/-- Results of B+ tree operations: success, `ErrDuplicateKey`, or a panic. -/
inductive BRes (α : Type) where
  | ok (a : α)
  | dup
  | crash (msg : String)
  deriving DecidableEq, Repr

/-- `true` on `BRes.ok`. -/
def BRes.isOk {α : Type} : BRes α → Bool
  | BRes.ok _ => true
  | _ => false

/-- Encoded size of a leaf `Pair`: `[key_len:4][key][value_len:4][value]`. -/
def pairSize (kv : Bytes × Bytes) : Nat := 8 + kv.1.length + kv.2.length

/-- Encoded size of a branch pair (the value is an 8-byte page ID). -/
def bpairSize (kv : Bytes × Nat) : Nat := 8 + kv.1.length + 8

/-- Slotted-body capacity of a leaf node. -/
def leafCapacity : Nat := 4064

/-- Slotted-body capacity of a branch (internal) node. -/
def branchCapacity : Nat := 4072

/-- `Slotted.FreeSpace()` of a leaf body (Go `int`, so `Int`). -/
def leafFreeSpace (pairs : List (Bytes × Bytes)) : Int :=
  (leafCapacity : Int) - ((pairs.map pairSize).sum : Nat) - 4 * pairs.length

/-- `Slotted.FreeSpace()` of a branch body. -/
def branchFreeSpace (pairs : List (Bytes × Nat)) : Int :=
  (branchCapacity : Int) - ((pairs.map bpairSize).sum : Nat) - 4 * pairs.length

/-- `Leaf.SearchSlotID`: binary search over the pairs by key comparison. -/
def leafSearchSlotID (pairs : List (Bytes × Bytes)) (key : Bytes) : Nat × Bool :=
  binarySearchBy pairs.length (fun i => compareBytes (pairs.getD i ([], [])).1 key)

/-- `Leaf.Insert`: reject a pair above `MaxPairSize()` (= capacity/2 − 4) or
one that does not fit in the free space (`Slotted.Insert`'s guard), otherwise
place it at the slot. -/
def leafInsertGo (pairs : List (Bytes × Bytes)) (slotID : Nat) (key value : Bytes) :
    Option (List (Bytes × Bytes)) :=
  if leafCapacity / 2 - 4 < pairSize (key, value) then none
  else if leafFreeSpace pairs < 4 + (pairSize (key, value) : Int) then none
  else some (pairs.insertIdx slotID (key, value))

/-- `InternalNode.Insert`, same shape with the branch capacity. -/
def branchInsertGo (pairs : List (Bytes × Nat)) (slotID : Nat) (key : Bytes) (pid : Nat) :
    Option (List (Bytes × Nat)) :=
  if branchCapacity / 2 - 4 < bpairSize (key, pid) then none
  else if branchFreeSpace pairs < 4 + (bpairSize (key, pid) : Int) then none
  else some (pairs.insertIdx slotID (key, pid))

/-- `InternalNode.SearchSlotId`. -/
def branchSearchSlotId (pairs : List (Bytes × Nat)) (key : Bytes) : Nat × Bool :=
  binarySearchBy pairs.length (fun i => compareBytes (pairs.getD i ([], 0)).1 key)

/-- `InternalNode.SearchChildIdx`: slot + 1 on an exact match, otherwise the
insertion point. -/
def branchSearchChildIdx (pairs : List (Bytes × Nat)) (key : Bytes) : Nat :=
  if (branchSearchSlotId pairs key).2 then (branchSearchSlotId pairs key).1 + 1
  else (branchSearchSlotId pairs key).1

/-- `InternalNode.ChildAt`: the pair's page ID, or `RightChild` past the last
pair. -/
def childAt (pairs : List (Bytes × Nat)) (rightChild : Nat) (i : Nat) : Nat :=
  if i = pairs.length then rightChild else (pairs.getD i ([], 0)).2

/-- `for !newLeaf.IsHalfFull() { l.Transfer(newLeaf) }` inside
`Leaf.SplitInsert`. -/
def leafTransferLoop : Nat → List (Bytes × Bytes) → List (Bytes × Bytes) →
    BRes (List (Bytes × Bytes) × List (Bytes × Bytes))
  | 0, _, _ => BRes.crash "transfer fuel"
  | fuel + 1, old, new =>
    if 2 * leafFreeSpace new < (leafCapacity : Int) then BRes.ok (old, new)
    else
      match old with
      | [] => BRes.crash "transfer from empty leaf"
      | p :: rest =>
        if leafFreeSpace new < 4 + (pairSize p : Int) then BRes.crash "no space in dest leaf"
        else leafTransferLoop fuel rest (new ++ [p])

/-- The loop of `Leaf.SplitInsert` (fuel ≥ |old| + 1 is never exhausted: each
pass either exits or moves one pair out of `old`).  Branches in order: if the
new (left) leaf is half full, insert the new pair into the old leaf and exit;
if the old leaf's first key is below the new key, `Transfer` it (a raw
`Slotted.Insert` with only the free-space guard) and continue; otherwise
append the new pair to the new leaf and `Transfer` until the new leaf is half
full.  `PairAt(0)` of an empty leaf panics in `PairFromBytes`. -/
def leafSplitLoop : Nat → List (Bytes × Bytes) → List (Bytes × Bytes) → Bytes → Bytes →
    BRes (List (Bytes × Bytes) × List (Bytes × Bytes))
  | 0, _, _, _, _ => BRes.crash "split fuel"
  | fuel + 1, old, new, key, value =>
    if 2 * leafFreeSpace new < (leafCapacity : Int) then
      match leafInsertGo old (leafSearchSlotID old key).1 key value with
      | none => BRes.crash "old leaf must have space"
      | some old2 => BRes.ok (old2, new)
    else
      match old with
      | [] => BRes.crash "pair data too short"
      | p :: rest =>
        if compareBytes p.1 key < 0 then
          if leafFreeSpace new < 4 + (pairSize p : Int) then BRes.crash "no space in dest leaf"
          else leafSplitLoop fuel rest (new ++ [p]) key value
        else
          match leafInsertGo new new.length key value with
          | none => BRes.crash "new leaf must have space"
          | some new2 => leafTransferLoop (rest.length + 2) (p :: rest) new2

/-- `Leaf.SplitInsert`: run the loop, then report the old leaf's first key as
the promoted key. -/
def leafSplitInsert (old : List (Bytes × Bytes)) (key value : Bytes) :
    BRes (List (Bytes × Bytes) × List (Bytes × Bytes) × Bytes) :=
  match leafSplitLoop (old.length + 2) old [] key value with
  | BRes.ok (o, n) =>
    match o with
    | [] => BRes.crash "pair data too short"
    | q :: _ => BRes.ok (o, n, q.1)
  | BRes.dup => BRes.dup
  | BRes.crash m => BRes.crash m

/-- `for !newNode.IsHalfFull() { n.Transfer(newNode) }` inside
`InternalNode.SplitInsert`. -/
def branchTransferLoop : Nat → List (Bytes × Nat) → List (Bytes × Nat) →
    BRes (List (Bytes × Nat) × List (Bytes × Nat))
  | 0, _, _ => BRes.crash "transfer fuel"
  | fuel + 1, old, new =>
    if 2 * branchFreeSpace new < (branchCapacity : Int) then BRes.ok (old, new)
    else
      match old with
      | [] => BRes.crash "transfer from empty internal node"
      | p :: rest =>
        if branchFreeSpace new < 4 + (bpairSize p : Int) then
          BRes.crash "no space in dest internal node"
        else branchTransferLoop fuel rest (new ++ [p])

/-- The loop of `InternalNode.SplitInsert`, mirroring the leaf loop. -/
def branchSplitLoop : Nat → List (Bytes × Nat) → List (Bytes × Nat) → Bytes → Nat →
    BRes (List (Bytes × Nat) × List (Bytes × Nat))
  | 0, _, _, _, _ => BRes.crash "split fuel"
  | fuel + 1, old, new, key, pid =>
    if 2 * branchFreeSpace new < (branchCapacity : Int) then
      match branchInsertGo old (branchSearchSlotId old key).1 key pid with
      | none => BRes.crash "old internal node must have space"
      | some old2 => BRes.ok (old2, new)
    else
      match old with
      | [] => BRes.crash "pair data too short"
      | p :: rest =>
        if compareBytes p.1 key < 0 then
          if branchFreeSpace new < 4 + (bpairSize p : Int) then
            BRes.crash "no space in dest internal node"
          else branchSplitLoop fuel rest (new ++ [p]) key pid
        else
          match branchInsertGo new new.length key pid with
          | none => BRes.crash "new internal node must have space"
          | some new2 => branchTransferLoop (rest.length + 2) (p :: rest) new2

/-- `InternalNode.FillRightChild`: pop the node's last pair; its page ID
becomes `RightChild` and its key is returned. -/
def fillRightChild (pairs : List (Bytes × Nat)) : BRes (List (Bytes × Nat) × Nat × Bytes) :=
  match pairs.getLast? with
  | none => BRes.crash "index out of range"
  | some q => BRes.ok (pairs.dropLast, q.2, q.1)

/-- `InternalNode.SplitInsert`: run the loop, then `FillRightChild` on the
new node; yields (old pairs, new pairs, new node's right child, promoted
key). -/
def branchSplitInsert (old : List (Bytes × Nat)) (key : Bytes) (pid : Nat) :
    BRes (List (Bytes × Nat) × List (Bytes × Nat) × Nat × Bytes) :=
  match branchSplitLoop (old.length + 2) old [] key pid with
  | BRes.ok (o, n) =>
    match fillRightChild n with
    | BRes.ok (n2, rc, k) => BRes.ok (o, n2, rc, k)
    | BRes.dup => BRes.dup
    | BRes.crash m => BRes.crash m
  | BRes.dup => BRes.dup
  | BRes.crash m => BRes.crash m

/-- A B+ tree node: a leaf with prev/next links and key–value pairs, or a
branch with key–child pairs and a right child.  `InvalidPageID` links are
`none`. -/
inductive BNode where
  | leaf (prevId nextId : Option Nat) (pairs : List (Bytes × Bytes))
  | branch (pairs : List (Bytes × Nat)) (rightChild : Nat)
  deriving DecidableEq, Repr

/-- The page store: node pages indexed by page ID (a `CreatePage` appends at
index `pages.length`) and the meta page's root pointer. -/
structure BStore where
  pages : List BNode
  root : Nat
  deriving DecidableEq, Repr

/-- `prevLeaf.SetNextPageID` on the fetched previous page (the Go code casts
it to a leaf without a type check; in every reachable state it is one). -/
def setLeafNext (n : BNode) (nid : Nat) : BNode :=
  match n with
  | BNode.leaf p _ prs => BNode.leaf p (some nid) prs
  | b => b

/-- The leaf split arm of `insertInternal` (btree.go 181–218): fetch the
previous leaf if the link is valid, create the new (left) leaf, relink
`prev.next` and `old.prev` to it, `SplitInsert`, set the new leaf's links,
and report the promoted key with the new page ID as overflow. -/
def leafSplitStep (st : BStore) (pid : Nat) (prevId nextId : Option Nat)
    (pairs : List (Bytes × Bytes)) (key value : Bytes) :
    BRes (BStore × Option (Bytes × Nat)) :=
  if prevId.all (fun pp => decide (pp < st.pages.length)) then
    match leafSplitInsert pairs key value with
    | BRes.ok (oldPairs, newPairs, okey) =>
      let newPid := st.pages.length
      let pages1 := st.pages.set pid (BNode.leaf (some newPid) nextId oldPairs)
      let pages2 :=
        match prevId with
        | some pp => pages1.set pp (setLeafNext (pages1.getD pp (BNode.leaf none none [])) newPid)
        | none => pages1
      BRes.ok (⟨pages2 ++ [BNode.leaf prevId (some pid) newPairs], st.root⟩, some (okey, newPid))
    | BRes.dup => BRes.dup
    | BRes.crash m => BRes.crash m
  else BRes.crash "fetch failed"

/-- `insertInternal` (btree.go 161–257).  The branch case handles only
`overflow != nil`; when the child absorbed the insert without splitting,
control falls through the `else if` chain to `panic("unknown node type")` —
translated verbatim as a crash.  Fuel bounds the descent depth. -/
def insertInternalGo (fuel : Nat) (st : BStore) (pid : Nat) (key value : Bytes) :
    BRes (BStore × Option (Bytes × Nat)) :=
  match fuel with
  | 0 => BRes.crash "descent fuel"
  | fuel + 1 =>
    match st.pages.get? pid with
    | none => BRes.crash "fetch failed"
    | some (BNode.leaf prevId nextId pairs) =>
      if (leafSearchSlotID pairs key).2 then BRes.dup
      else
        match leafInsertGo pairs (leafSearchSlotID pairs key).1 key value with
        | some pairs2 =>
          BRes.ok (⟨st.pages.set pid (BNode.leaf prevId nextId pairs2), st.root⟩, none)
        | none => leafSplitStep st pid prevId nextId pairs key value
    | some (BNode.branch bpairs rightChild) =>
      match insertInternalGo fuel st (childAt bpairs rightChild (branchSearchChildIdx bpairs key))
          key value with
      | BRes.dup => BRes.dup
      | BRes.crash m => BRes.crash m
      | BRes.ok (_, none) => BRes.crash "unknown node type"
      | BRes.ok (st1, some (okey, opid)) =>
        match branchInsertGo bpairs (branchSearchChildIdx bpairs key) okey opid with
        | some bpairs2 =>
          BRes.ok (⟨st1.pages.set pid (BNode.branch bpairs2 rightChild), st1.root⟩, none)
        | none =>
          match branchSplitInsert bpairs okey opid with
          | BRes.ok (oldP, newP, newRC, pk) =>
            BRes.ok (⟨(st1.pages.set pid (BNode.branch oldP rightChild)) ++
                [BNode.branch newP newRC], st1.root⟩,
              some (pk, st1.pages.length))
          | BRes.dup => BRes.dup
          | BRes.crash m => BRes.crash m

/-- `BTree.Insert` (btree.go 125–159): descend from the root; on overflow,
create a new root branch `Initialize(overflow.Key, overflow.Child, oldRoot)`
and repoint the meta page. -/
def btInsert (st : BStore) (key value : Bytes) : BRes BStore :=
  match insertInternalGo (st.pages.length + 2) st st.root key value with
  | BRes.ok (st1, none) => BRes.ok st1
  | BRes.ok (st1, some (okey, opid)) =>
    BRes.ok ⟨st1.pages ++ [BNode.branch [(okey, opid)] st.root], st1.pages.length⟩
  | BRes.dup => BRes.dup
  | BRes.crash m => BRes.crash m

/-- Big-endian 8-byte encoding, `binary.BigEndian.PutUint64`. -/
def be64 (n : Nat) : Bytes :=
  [n / 2 ^ 56 % 256, n / 2 ^ 48 % 256, n / 2 ^ 40 % 256, n / 2 ^ 32 % 256,
   n / 2 ^ 24 % 256, n / 2 ^ 16 % 256, n / 2 ^ 8 % 256, n % 256]

/-- The 1024-byte value of Scenario D. -/
def valD : Bytes := List.replicate 1024 0

/-- `CreateBTree`: one empty root leaf. -/
def btreeD0 : BStore := ⟨[BNode.leaf none none []], 0⟩

/-- One Scenario D insert: key `2i` big-endian, 1024-byte value. -/
def insertD (st : BRes BStore) (i : Nat) : BRes BStore :=
  match st with
  | BRes.ok s => btInsert s (be64 (2 * i)) valD
  | e => e

/-- The tree after the first `n` Scenario D inserts. -/
def btreeDAfter (n : Nat) : BRes BStore :=
  (List.range n).foldl insertD (BRes.ok btreeD0)

set_option maxRecDepth 100000 in
set_option maxHeartbeats 2000000 in
/-- C1.  Split progress FAILS: on the Scenario D workload (keys big-endian
`2i`, 1024-byte values, fresh tree) the first four inserts return without
error — the fourth splits the root leaf into a branch over two leaves — but
the fifth insert (key `8`) descends through the root branch, succeeds at the
right leaf without splitting it, and then `insertInternal`'s branch case,
which only handles a non-nil overflow, falls through to
`panic("unknown node type")`.  Not every Insert call returns without
error. -/
theorem scenario_d_fifth_insert_crashes :
    (btreeDAfter 4).isOk = true ∧
    btreeDAfter 5 = BRes.crash "unknown node type" := by
  constructor
  · decide
  · decide

/-! ## B+ tree search and iteration (btree/btree.go 79–123, 279–331) -/

/-- `Iter`: the current leaf page and slot. -/
structure BIter where
  pid : Nat
  slotID : Nat
  deriving DecidableEq, Repr

/-- The pair list of the leaf at `pid` (empty for a branch or missing page). -/
def leafPairsAt (st : BStore) (pid : Nat) : List (Bytes × Bytes) :=
  match st.pages.get? pid with
  | some (BNode.leaf _ _ pairs) => pairs
  | _ => []

/-- The `NextPageID` link of the leaf at `pid`. -/
def leafNextAt (st : BStore) (pid : Nat) : Option Nat :=
  match st.pages.get? pid with
  | some (BNode.leaf _ n _) => n
  | _ => none

/-- The `PrevPageID` link of the leaf at `pid`. -/
def leafPrevAt (st : BStore) (pid : Nat) : Option Nat :=
  match st.pages.get? pid with
  | some (BNode.leaf p _ _) => p
  | _ => none

/-- `Iter.Get`: the pair at the current slot, `none` when the slot is past
the end of the leaf (or the page is not a leaf). -/
def iterGet (st : BStore) (it : BIter) : Option (Bytes × Bytes) :=
  match st.pages.get? it.pid with
  | some (BNode.leaf _ _ pairs) => pairs.get? it.slotID
  | _ => none

/-- `Iter.Advance`: increment the slot; if it runs past the leaf, follow the
`NextPageID` link (fetching the next page) and reset the slot to 0; with no
next page the iterator stays at the end position. -/
def iterAdvance (st : BStore) (it : BIter) : BRes BIter :=
  match st.pages.get? it.pid with
  | none => BRes.crash "fetch failed"
  | some (BNode.branch _ _) => BRes.ok ⟨it.pid, it.slotID + 1⟩
  | some (BNode.leaf _ nxt pairs) =>
    if it.slotID + 1 < pairs.length then BRes.ok ⟨it.pid, it.slotID + 1⟩
    else
      match nxt with
      | some np =>
        if np < st.pages.length then BRes.ok ⟨np, 0⟩ else BRes.crash "fetch failed"
      | none => BRes.ok ⟨it.pid, it.slotID + 1⟩

/-- `searchInternal` in key mode (btree.go 79–123): at a leaf, position the
iterator at `SearchSlotID`'s slot (the exact slot on a hit, the insertion
point on a miss) and `Advance` it immediately when the slot equals
`NumPairs`; at a branch, descend into `SearchChild`. -/
def searchInternalGo (fuel : Nat) (st : BStore) (pid : Nat) (key : Bytes) : BRes BIter :=
  match fuel with
  | 0 => BRes.crash "descent fuel"
  | fuel + 1 =>
    match st.pages.get? pid with
    | none => BRes.crash "fetch failed"
    | some (BNode.leaf _ _ pairs) =>
      if pairs.length = (leafSearchSlotID pairs key).1 then
        iterAdvance st ⟨pid, (leafSearchSlotID pairs key).1⟩
      else BRes.ok ⟨pid, (leafSearchSlotID pairs key).1⟩
    | some (BNode.branch bpairs rc) =>
      searchInternalGo fuel st (childAt bpairs rc (branchSearchChildIdx bpairs key)) key

/-- `searchInternal` in Start mode: descend through `ChildAt(0)`, position at
slot 0, advancing immediately when the leaf is empty. -/
def searchStartGo (fuel : Nat) (st : BStore) (pid : Nat) : BRes BIter :=
  match fuel with
  | 0 => BRes.crash "descent fuel"
  | fuel + 1 =>
    match st.pages.get? pid with
    | none => BRes.crash "fetch failed"
    | some (BNode.leaf _ _ pairs) =>
      if pairs.length = 0 then iterAdvance st ⟨pid, 0⟩
      else BRes.ok ⟨pid, 0⟩
    | some (BNode.branch bpairs rc) => searchStartGo fuel st (childAt bpairs rc 0)

/-- `BTree.Search` with `SearchModeKey`. -/
def btSearchKey (st : BStore) (key : Bytes) : BRes BIter :=
  searchInternalGo (st.pages.length + 2) st st.root key

/-- `BTree.Search` with `SearchModeStart`. -/
def btSearchStart (st : BStore) : BRes BIter :=
  searchStartGo (st.pages.length + 2) st st.root

/-- Pairs sorted strictly by key, the leaf-body invariant. -/
def SortedPairs (pairs : List (Bytes × Bytes)) : Prop :=
  pairs.Pairwise (fun a b => bytesLT a.1 b.1)

/-- Branch pairs sorted strictly by key. -/
def SortedBPairs (pairs : List (Bytes × Nat)) : Prop :=
  pairs.Pairwise (fun a b => bytesLT a.1 b.1)

/-- What `Leaf.SearchSlotID` computes on a sorted leaf: on a hit, the slot of
the key; on a miss, the insertion point — every slot below it holds a
smaller key and every slot from it on a larger one. -/
theorem leafSearchSlotID_spec (pairs : List (Bytes × Bytes)) (key : Bytes)
    (hsorted : SortedPairs pairs) :
    (leafSearchSlotID pairs key).1 ≤ pairs.length ∧
    ((leafSearchSlotID pairs key).2 = true →
      (leafSearchSlotID pairs key).1 < pairs.length ∧
      (pairs.getD (leafSearchSlotID pairs key).1 ([], [])).1 = key) ∧
    ((leafSearchSlotID pairs key).2 = false →
      (∀ j, j < (leafSearchSlotID pairs key).1 → bytesLT (pairs.getD j ([], [])).1 key) ∧
      (∀ j, (leafSearchSlotID pairs key).1 ≤ j → j < pairs.length →
        bytesLT key (pairs.getD j ([], [])).1)) := by
  unfold leafSearchSlotID
  have hmono : ∀ i j, i < j → j < pairs.length →
      (0 < compareBytes (pairs.getD i ([], [])).1 key →
        0 < compareBytes (pairs.getD j ([], [])).1 key) ∧
      (compareBytes (pairs.getD j ([], [])).1 key < 0 →
        compareBytes (pairs.getD i ([], [])).1 key < 0) := by
    intro i j hij hj
    have hi : i < pairs.length := by omega
    have hlt : bytesLT (pairs.getD i ([], [])).1 (pairs.getD j ([], [])).1 := by
      rw [List.getD_eq_getElem pairs ([], []) hi, List.getD_eq_getElem pairs ([], []) hj]
      have := (List.pairwise_iff_get.mp hsorted) ⟨i, hi⟩ ⟨j, hj⟩ hij
      simpa using this
    constructor
    · intro hpos
      have h1 : compareBytes (pairs.getD i ([], [])).1 key = 1 := by
        rcases compareBytes_cases (pairs.getD i ([], [])).1 key with h | h | h <;> omega
      have : bytesLT key (pairs.getD i ([], [])).1 := bytesLT_of_compare_pos h1
      have : bytesLT key (pairs.getD j ([], [])).1 := bytesLT_trans _ _ _ this hlt
      have := compare_pos_of_bytesLT this
      omega
    · intro hneg
      have h1 : compareBytes (pairs.getD j ([], [])).1 key = -1 := by
        rcases compareBytes_cases (pairs.getD j ([], [])).1 key with h | h | h <;> omega
      have : bytesLT (pairs.getD j ([], [])).1 key := h1
      have : bytesLT (pairs.getD i ([], [])).1 key := bytesLT_trans _ _ _ hlt this
      have := this
      unfold bytesLT at this
      omega
  have hspec := binarySearchBy_spec
    (fun i => compareBytes (pairs.getD i ([], [])).1 key) pairs.length hmono
  have hbounds := binarySearchBy_bounds
    (fun i => compareBytes (pairs.getD i ([], [])).1 key) pairs.length
  refine ⟨hbounds.1, ?_, ?_⟩
  · intro hfound
    refine ⟨hbounds.2 hfound, ?_⟩
    have := hspec.1 hfound
    exact (compareBytes_eq_zero_iff _ _).mp this
  · intro hmiss
    have h2 := hspec.2 hmiss
    refine ⟨fun j hj => ?_, fun j hj hjs => ?_⟩
    · have h3 : compareBytes (pairs.getD j ([], [])).1 key < 0 := h2.1 j hj
      have hc : compareBytes (pairs.getD j ([], [])).1 key = -1 := by
        rcases compareBytes_cases (pairs.getD j ([], [])).1 key with h | h | h <;> omega
      exact hc
    · have h3 : 0 < compareBytes (pairs.getD j ([], [])).1 key := h2.2 j hj hjs
      have hc : compareBytes (pairs.getD j ([], [])).1 key = 1 := by
        rcases compareBytes_cases (pairs.getD j ([], [])).1 key with h | h | h <;> omega
      exact bytesLT_of_compare_pos hc

/-- What `InternalNode.SearchSlotId` computes on sorted branch pairs (same
search, branch pair type). -/
theorem branchSearchSlotId_spec (pairs : List (Bytes × Nat)) (key : Bytes)
    (hsorted : SortedBPairs pairs) :
    (branchSearchSlotId pairs key).1 ≤ pairs.length ∧
    ((branchSearchSlotId pairs key).2 = true →
      (branchSearchSlotId pairs key).1 < pairs.length ∧
      (pairs.getD (branchSearchSlotId pairs key).1 ([], 0)).1 = key) ∧
    ((branchSearchSlotId pairs key).2 = false →
      (∀ j, j < (branchSearchSlotId pairs key).1 → bytesLT (pairs.getD j ([], 0)).1 key) ∧
      (∀ j, (branchSearchSlotId pairs key).1 ≤ j → j < pairs.length →
        bytesLT key (pairs.getD j ([], 0)).1)) := by
  unfold branchSearchSlotId
  have hmono : ∀ i j, i < j → j < pairs.length →
      (0 < compareBytes (pairs.getD i ([], 0)).1 key →
        0 < compareBytes (pairs.getD j ([], 0)).1 key) ∧
      (compareBytes (pairs.getD j ([], 0)).1 key < 0 →
        compareBytes (pairs.getD i ([], 0)).1 key < 0) := by
    intro i j hij hj
    have hi : i < pairs.length := by omega
    have hlt : bytesLT (pairs.getD i ([], 0)).1 (pairs.getD j ([], 0)).1 := by
      rw [List.getD_eq_getElem pairs ([], 0) hi, List.getD_eq_getElem pairs ([], 0) hj]
      have := (List.pairwise_iff_get.mp hsorted) ⟨i, hi⟩ ⟨j, hj⟩ hij
      simpa using this
    constructor
    · intro hpos
      have h1 : compareBytes (pairs.getD i ([], 0)).1 key = 1 := by
        rcases compareBytes_cases (pairs.getD i ([], 0)).1 key with h | h | h <;> omega
      have : bytesLT key (pairs.getD i ([], 0)).1 := bytesLT_of_compare_pos h1
      have : bytesLT key (pairs.getD j ([], 0)).1 := bytesLT_trans _ _ _ this hlt
      have := compare_pos_of_bytesLT this
      omega
    · intro hneg
      have h1 : compareBytes (pairs.getD j ([], 0)).1 key = -1 := by
        rcases compareBytes_cases (pairs.getD j ([], 0)).1 key with h | h | h <;> omega
      have : bytesLT (pairs.getD j ([], 0)).1 key := h1
      have : bytesLT (pairs.getD i ([], 0)).1 key := bytesLT_trans _ _ _ hlt this
      unfold bytesLT at this
      omega
  have hspec := binarySearchBy_spec
    (fun i => compareBytes (pairs.getD i ([], 0)).1 key) pairs.length hmono
  have hbounds := binarySearchBy_bounds
    (fun i => compareBytes (pairs.getD i ([], 0)).1 key) pairs.length
  refine ⟨hbounds.1, ?_, ?_⟩
  · intro hfound
    refine ⟨hbounds.2 hfound, ?_⟩
    have := hspec.1 hfound
    exact (compareBytes_eq_zero_iff _ _).mp this
  · intro hmiss
    have h2 := hspec.2 hmiss
    refine ⟨fun j hj => ?_, fun j hj hjs => ?_⟩
    · have h3 : compareBytes (pairs.getD j ([], 0)).1 key < 0 := h2.1 j hj
      have hc : compareBytes (pairs.getD j ([], 0)).1 key = -1 := by
        rcases compareBytes_cases (pairs.getD j ([], 0)).1 key with h | h | h <;> omega
      exact hc
    · have h3 : 0 < compareBytes (pairs.getD j ([], 0)).1 key := h2.2 j hj hjs
      have hc : compareBytes (pairs.getD j ([], 0)).1 key = 1 := by
        rcases compareBytes_cases (pairs.getD j ([], 0)).1 key with h | h | h <;> omega
      exact bytesLT_of_compare_pos hc

/-! ## B+ tree well-formedness

The invariant a tree built by successful inserts maintains: every leaf holds
strictly sorted pairs within its key interval, every branch partitions its
interval by strictly increasing separators where the child left of separator
`k` holds keys `< k` and keys `≥ k` (including `k` itself — `SearchChildIdx`
routes an exact match right) continue right, the pages of the tree are
pairwise distinct, and the leaves form a doubly linked chain in key order. -/

/-- `lo ≤ k` for an optional lower bound. -/
def lbLE (lo : Option Bytes) (k : Bytes) : Prop :=
  match lo with
  | none => True
  | some l => l = k ∨ bytesLT l k

/-- `lo < k` strictly, for an optional lower bound. -/
def lbLT (lo : Option Bytes) (k : Bytes) : Prop :=
  match lo with
  | none => True
  | some l => bytesLT l k

/-- `k < hi` for an optional upper bound. -/
def ubGT (hi : Option Bytes) (k : Bytes) : Prop :=
  match hi with
  | none => True
  | some u => bytesLT k u

/-- The branch-body invariant, parameterised by the subtree invariant of the
children: each pair `(k, c)` has a separator strictly inside `(lo, hi)`, its
child covers `[lo, k)`, and the rest of the body covers `[k, hi)` ending in
the right child. -/
def BranchOK (sub : Nat → Option Bytes → Option Bytes → List Nat → List Nat → Prop) :
    Option Bytes → List (Bytes × Nat) → Nat → Option Bytes → List Nat → List Nat → Prop
  | lo, [], rc, hi, nodes, leaves => sub rc lo hi nodes leaves
  | lo, (k, c) :: rest, rc, hi, nodes, leaves =>
    lbLT lo k ∧ ubGT hi k ∧
    ∃ n1 l1 n2 l2, nodes = n1 ++ n2 ∧ leaves = l1 ++ l2 ∧
      sub c lo (some k) n1 l1 ∧ BranchOK sub (some k) rest rc hi n2 l2

/-- The subtree invariant: at pid sits a tree of the given height covering
the key interval `[lo, hi)`, occupying exactly `nodes` (root first) with
in-order leaf list `leaves`. -/
def SubtreeOK (st : BStore) : Nat → Nat → Option Bytes → Option Bytes →
    List Nat → List Nat → Prop
  | 0, pid, lo, hi, nodes, leaves =>
    ∃ p n pairs, st.pages.get? pid = some (BNode.leaf p n pairs) ∧ SortedPairs pairs ∧
      (∀ q ∈ pairs, lbLE lo q.1 ∧ ubGT hi q.1) ∧ nodes = [pid] ∧ leaves = [pid]
  | h + 1, pid, lo, hi, nodes, leaves =>
    ∃ bpairs rc nodes1, st.pages.get? pid = some (BNode.branch bpairs rc) ∧
      nodes = pid :: nodes1 ∧
      BranchOK (fun c lo2 hi2 ns ls => SubtreeOK st h c lo2 hi2 ns ls)
        lo bpairs rc hi nodes1 leaves

/-- The in-order pair list of a leaf chain. -/
def chainPairs (st : BStore) (leaves : List Nat) : List (Bytes × Bytes) :=
  leaves.flatMap (fun l => leafPairsAt st l)

/-- The leaf chain's prev/next links: each leaf's `PrevPageID` is the leaf
before it (`prev` before the first) and its `NextPageID` the leaf after it
(`none` after the last). -/
def ChainFrom (st : BStore) : Option Nat → List Nat → Prop
  | _, [] => True
  | prev, l :: rest =>
    leafPrevAt st l = prev ∧ leafNextAt st l = rest.head? ∧ ChainFrom st (some l) rest

/-- Full well-formedness of a tree store: a well-formed subtree at the root
over the unbounded interval, distinct pages, a correctly linked leaf chain,
and every leaf nonempty except in the single-leaf (freshly created) tree. -/
def TreeWF (st : BStore) : Prop :=
  ∃ h nodes leaves,
    SubtreeOK st h st.root none none nodes leaves ∧
    nodes.Nodup ∧
    ChainFrom st none leaves ∧
    (∀ l ∈ leaves, leafPairsAt st l ≠ [] ∨ leaves = [l])

/-- The in-order leaf list by tree descent (executable counterpart of the
`leaves` index of `SubtreeOK`). -/
def collectLeaves (st : BStore) : Nat → Nat → List Nat
  | 0, _ => []
  | fuel + 1, pid =>
    match st.pages.get? pid with
    | some (BNode.leaf _ _ _) => [pid]
    | some (BNode.branch bpairs rc) =>
      (bpairs.flatMap (fun q => collectLeaves st fuel q.2)) ++ collectLeaves st fuel rc
    | none => []

/-- The in-order pair list of the whole tree. -/
def treePairs (st : BStore) : List (Bytes × Bytes) :=
  chainPairs st (collectLeaves st (st.pages.length + 2) st.root)

/-- Separators of a well-formed branch body are strictly sorted and lie
strictly inside `(lo, hi)`. -/
theorem branchOK_separators
    (sub : Nat → Option Bytes → Option Bytes → List Nat → List Nat → Prop) :
    ∀ (bpairs : List (Bytes × Nat)) lo rc hi nodes leaves,
    BranchOK sub lo bpairs rc hi nodes leaves →
    SortedBPairs bpairs ∧ (∀ q ∈ bpairs, lbLT lo q.1 ∧ ubGT hi q.1) := by
  intro bpairs
  induction bpairs with
  | nil =>
    intro lo rc hi nodes leaves _
    exact ⟨List.Pairwise.nil, by simp⟩
  | cons q rest ih =>
    intro lo rc hi nodes leaves hb
    obtain ⟨k, c⟩ := q
    obtain ⟨hklo, hkhi, n1, l1, n2, l2, hn, hl, hc, hrest⟩ := hb
    obtain ⟨hsort, hbnd⟩ := ih (some k) rc hi n2 l2 hrest
    constructor
    · refine List.Pairwise.cons ?_ hsort
      intro b hbmem
      have := (hbnd b hbmem).1
      exact this
    · intro q hq
      rcases List.mem_cons.mp hq with heq | hq
      · subst heq; exact ⟨hklo, hkhi⟩
      · obtain ⟨hblo, hbhi⟩ := hbnd q hq
        refine ⟨?_, hbhi⟩
        have hkk : bytesLT k q.1 := hblo
        cases lo with
        | none => trivial
        | some l => exact bytesLT_trans _ _ _ hklo hkk

/-- Structural facts of a well-formed subtree: the root is its first node,
all nodes are present pages, leaves are nodes and are leaf pages, the leaf
list is nonempty, and the height is below the node count. -/
theorem subtreeOK_facts (st : BStore) : ∀ h pid lo hi nodes leaves,
    SubtreeOK st h pid lo hi nodes leaves →
    pid ∈ nodes ∧
    (∀ p ∈ nodes, ∃ nd, st.pages.get? p = some nd) ∧
    (∀ l ∈ leaves, l ∈ nodes) ∧
    leaves ≠ [] ∧
    (∀ l ∈ leaves, ∃ p n prs, st.pages.get? l = some (BNode.leaf p n prs)) ∧
    h < nodes.length := by
  intro h
  induction h with
  | zero =>
    intro pid lo hi nodes leaves hs
    obtain ⟨p, n, pairs, hpg, _, _, hnod, hlv⟩ := hs
    subst hnod hlv
    refine ⟨List.mem_singleton.mpr rfl, ?_, ?_, by simp, ?_, by simp⟩
    · intro q hq
      rw [List.mem_singleton.mp hq]
      exact ⟨_, hpg⟩
    · intro l hl
      exact hl
    · intro l hl
      rw [List.mem_singleton.mp hl]
      exact ⟨p, n, pairs, hpg⟩
  | succ h ih =>
    intro pid lo hi nodes leaves hs
    obtain ⟨bpairs, rc, nodes1, hpg, hnod, hb⟩ := hs
    have inner : ∀ (bp : List (Bytes × Nat)) lo2 rc2 hi2 ns ls,
        BranchOK (fun c lo3 hi3 ns3 ls3 => SubtreeOK st h c lo3 hi3 ns3 ls3)
          lo2 bp rc2 hi2 ns ls →
        (∀ p ∈ ns, ∃ nd, st.pages.get? p = some nd) ∧ (∀ l ∈ ls, l ∈ ns) ∧ ls ≠ [] ∧
        (∀ l ∈ ls, ∃ p n prs, st.pages.get? l = some (BNode.leaf p n prs)) ∧
        h < ns.length := by
      intro bp
      induction bp with
      | nil =>
        intro lo2 rc2 hi2 ns ls hb2
        have := ih rc2 lo2 hi2 ns ls hb2
        exact ⟨this.2.1, this.2.2.1, this.2.2.2.1, this.2.2.2.2.1, this.2.2.2.2.2⟩
      | cons q rest ihq =>
        intro lo2 rc2 hi2 ns ls hb2
        obtain ⟨k, c⟩ := q
        obtain ⟨_, _, n1, l1, n2, l2, hn, hl, hc, hrest⟩ := hb2
        subst hn hl
        have f1 := ih c lo2 (some k) n1 l1 hc
        have f2 := ihq (some k) rc2 hi2 n2 l2 hrest
        refine ⟨?_, ?_, ?_, ?_, ?_⟩
        · intro p hp
          rcases List.mem_append.mp hp with hp | hp
          · exact f1.2.1 p hp
          · exact f2.1 p hp
        · intro l hl
          rcases List.mem_append.mp hl with hl | hl
          · exact List.mem_append.mpr (Or.inl (f1.2.2.1 l hl))
          · exact List.mem_append.mpr (Or.inr (f2.2.1 l hl))
        · have := f1.2.2.2.1
          intro hcon
          rcases List.append_eq_nil.mp hcon with ⟨h1, _⟩
          exact this h1
        · intro l hl
          rcases List.mem_append.mp hl with hl | hl
          · exact f1.2.2.2.2.1 l hl
          · exact f2.2.2.2.1 l hl
        · have := f2.2.2.2.2
          have hlen : n2.length ≤ (n1 ++ n2).length := by
            rw [List.length_append]; omega
          omega
    subst hnod
    obtain ⟨hvalid, hlin, hlne, hltyp, hlen⟩ :=
      inner bpairs lo rc hi nodes1 leaves hb
    refine ⟨List.mem_cons_self _ _, ?_, ?_, hlne, hltyp, by simp; omega⟩
    · intro p hp
      rcases List.mem_cons.mp hp with hp | hp
      · subst hp; exact ⟨_, hpg⟩
      · exact hvalid p hp
    · intro l hl
      exact List.mem_cons.mpr (Or.inr (hlin l hl))

/-- Every node page of a well-formed subtree is a valid index. -/
theorem subtreeOK_nodes_lt (st : BStore) (h pid : Nat) (lo hi : Option Bytes)
    (nodes leaves : List Nat) (hs : SubtreeOK st h pid lo hi nodes leaves) :
    ∀ p ∈ nodes, p < st.pages.length := by
  intro p hp
  obtain ⟨nd, hnd⟩ := (subtreeOK_facts st h pid lo hi nodes leaves hs).2.1 p hp
  exact (List.get?_eq_some.mp hnd).1

/-- `collectLeaves` with enough fuel computes a well-formed subtree's leaf
list. -/
theorem subtreeOK_collectLeaves (st : BStore) : ∀ h pid lo hi nodes leaves,
    SubtreeOK st h pid lo hi nodes leaves → ∀ fuel, h < fuel →
    collectLeaves st fuel pid = leaves := by
  intro h
  induction h with
  | zero =>
    intro pid lo hi nodes leaves hs fuel hf
    obtain ⟨p, n, pairs, hpg, _, _, _, hlv⟩ := hs
    subst hlv
    obtain ⟨f, rfl⟩ : ∃ f, fuel = f + 1 := ⟨fuel - 1, by omega⟩
    rw [collectLeaves, hpg]
  | succ h ih =>
    intro pid lo hi nodes leaves hs fuel hf
    obtain ⟨bpairs, rc, nodes1, hpg, _, hb⟩ := hs
    obtain ⟨f, rfl⟩ : ∃ f, fuel = f + 1 := ⟨fuel - 1, by omega⟩
    rw [collectLeaves, hpg]
    have hhf : h < f := by omega
    have inner : ∀ (bp : List (Bytes × Nat)) lo2 rc2 hi2 ns ls,
        BranchOK (fun c lo3 hi3 ns3 ls3 => SubtreeOK st h c lo3 hi3 ns3 ls3)
          lo2 bp rc2 hi2 ns ls →
        (bp.flatMap (fun q => collectLeaves st f q.2)) ++ collectLeaves st f rc2 = ls := by
      intro bp
      induction bp with
      | nil =>
        intro lo2 rc2 hi2 ns ls hb2
        rw [List.flatMap_nil, List.nil_append]
        exact ih rc2 lo2 hi2 ns ls hb2 f hhf
      | cons q rest ihq =>
        intro lo2 rc2 hi2 ns ls hb2
        obtain ⟨k, c⟩ := q
        obtain ⟨_, _, n1, l1, n2, l2, hn, hl, hc, hrest⟩ := hb2
        subst hl
        rw [List.flatMap_cons, List.append_assoc, ihq (some k) rc2 hi2 n2 l2 hrest,
          ih c lo2 (some k) n1 l1 hc f hhf]
    exact inner bpairs lo rc hi nodes1 leaves hb

/-- The in-order pair list of a well-formed subtree's leaves is strictly
sorted and lies within the subtree's interval. -/
theorem subtreeOK_chain_sorted (st : BStore) : ∀ h pid lo hi nodes leaves,
    SubtreeOK st h pid lo hi nodes leaves →
    SortedPairs (chainPairs st leaves) ∧
    (∀ q ∈ chainPairs st leaves, lbLE lo q.1 ∧ ubGT hi q.1) := by
  intro h
  induction h with
  | zero =>
    intro pid lo hi nodes leaves hs
    obtain ⟨p, n, pairs, hpg, hsort, hbnd, _, hlv⟩ := hs
    subst hlv
    have hcp : chainPairs st [pid] = pairs := by
      unfold chainPairs leafPairsAt
      rw [List.flatMap_cons, List.flatMap_nil, List.append_nil, hpg]
    rw [hcp]
    exact ⟨hsort, hbnd⟩
  | succ h ih =>
    intro pid lo hi nodes leaves hs
    obtain ⟨bpairs, rc, nodes1, hpg, _, hb⟩ := hs
    have inner : ∀ (bp : List (Bytes × Nat)) lo2 rc2 hi2 ns ls,
        BranchOK (fun c lo3 hi3 ns3 ls3 => SubtreeOK st h c lo3 hi3 ns3 ls3)
          lo2 bp rc2 hi2 ns ls →
        SortedPairs (chainPairs st ls) ∧
        (∀ q ∈ chainPairs st ls, lbLE lo2 q.1 ∧ ubGT hi2 q.1) := by
      intro bp
      induction bp with
      | nil =>
        intro lo2 rc2 hi2 ns ls hb2
        exact ih rc2 lo2 hi2 ns ls hb2
      | cons q rest ihq =>
        intro lo2 rc2 hi2 ns ls hb2
        obtain ⟨k, c⟩ := q
        obtain ⟨hklo, hkhi, n1, l1, n2, l2, hn, hl, hc, hrest⟩ := hb2
        subst hl
        have f1 := ih c lo2 (some k) n1 l1 hc
        have f2 := ihq (some k) rc2 hi2 n2 l2 hrest
        have hsplit : chainPairs st (l1 ++ l2) = chainPairs st l1 ++ chainPairs st l2 := by
          unfold chainPairs
          exact List.flatMap_append l1 l2 _
        rw [hsplit]
        constructor
        · rw [SortedPairs, List.pairwise_append]
          refine ⟨f1.1, f2.1, ?_⟩
          intro a ha b hb2m
          have hak : bytesLT a.1 k := (f1.2 a ha).2
          have hkb : lbLE (some k) b.1 := (f2.2 b hb2m).1
          rcases hkb with heq | hlt
          · rw [← heq]; exact hak
          · exact bytesLT_trans _ _ _ hak hlt
        · intro q hq
          rcases List.mem_append.mp hq with hq | hq
          · obtain ⟨hqlo, hqhi⟩ := f1.2 q hq
            refine ⟨hqlo, ?_⟩
            have hqk : bytesLT q.1 k := hqhi
            cases hi2 with
            | none => trivial
            | some u => exact bytesLT_trans _ _ _ hqk hkhi
          · obtain ⟨hqlo, hqhi⟩ := f2.2 q hq
            refine ⟨?_, hqhi⟩
            cases lo2 with
            | none => trivial
            | some l =>
              rcases hqlo with heq | hlt
              · exact Or.inr (heq ▸ hklo)
              · exact Or.inr (bytesLT_trans _ _ _ hklo hlt)
    exact inner bpairs lo rc hi nodes1 leaves hb

/-- A duplicate-free list of numbers below `n` has at most `n` elements. -/
theorem nodup_lt_length_le (l : List Nat) (n : Nat) (hnd : l.Nodup)
    (hlt : ∀ x ∈ l, x < n) : l.length ≤ n := by
  have hsub : l.toFinset ⊆ Finset.range n := by
    intro x hx
    rw [Finset.mem_range]
    exact hlt x (List.mem_toFinset.mp hx)
  have := Finset.card_le_card hsub
  rw [List.toFinset_card_of_nodup hnd, Finset.card_range] at this
  exact this

/-- In a linked chain, a leaf's `NextPageID` is the head of what follows
it. -/
theorem chainFrom_next (st : BStore) : ∀ (xs : List Nat) prev L post,
    ChainFrom st prev (xs ++ L :: post) → leafNextAt st L = post.head? := by
  intro xs
  induction xs with
  | nil =>
    intro prev L post hc
    exact hc.2.1
  | cons x rest ih =>
    intro prev L post hc
    exact ih (some x) L post hc.2.2

/-- Sorted branch pairs increase strictly with the slot. -/
theorem sortedBPairs_getD_lt (bp : List (Bytes × Nat)) (hs : SortedBPairs bp)
    (i j : Nat) (hij : i < j) (hj : j < bp.length) :
    bytesLT (bp.getD i ([], 0)).1 (bp.getD j ([], 0)).1 := by
  have hi : i < bp.length := by omega
  rw [List.getD_eq_getElem bp ([], 0) hi, List.getD_eq_getElem bp ([], 0) hj]
  have := (List.pairwise_iff_get.mp hs) ⟨i, hi⟩ ⟨j, hj⟩ hij
  simpa using this

/-- `a ≤ b` in the byte order. -/
def sepLE (a b : Bytes) : Prop := a = b ∨ bytesLT a b

/-- `SearchChildIdx` on a sorted branch body returns the count of separators
`≤ key`: separators strictly below it are `≤ key` and those from it on are
`> key`.  (An exact match at slot `i` yields `i + 1` — the claim's routing
rule.) -/
theorem branchSearchChildIdx_spec (bp : List (Bytes × Nat)) (key : Bytes)
    (hs : SortedBPairs bp) :
    branchSearchChildIdx bp key ≤ bp.length ∧
    (∀ j, j < branchSearchChildIdx bp key → sepLE (bp.getD j ([], 0)).1 key) ∧
    (∀ j, branchSearchChildIdx bp key ≤ j → j < bp.length →
      bytesLT key (bp.getD j ([], 0)).1) := by
  have hspec := branchSearchSlotId_spec bp key hs
  unfold branchSearchChildIdx
  by_cases hf : (branchSearchSlotId bp key).2 = true
  · rw [if_pos hf]
    obtain ⟨hlt, heq⟩ := hspec.2.1 hf
    refine ⟨by omega, ?_, ?_⟩
    · intro j hj
      rcases Nat.lt_or_ge j (branchSearchSlotId bp key).1 with hj2 | hj2
      · right
        rw [← heq]
        exact sortedBPairs_getD_lt bp hs j _ hj2 hlt
      · have hje : j = (branchSearchSlotId bp key).1 := by omega
        subst hje
        exact Or.inl heq
    · intro j hj1 hj2
      rw [← heq]
      exact sortedBPairs_getD_lt bp hs _ j (by omega) hj2
  · rw [if_neg hf]
    have hm := hspec.2.2 (by simpa using hf)
    exact ⟨hspec.1, fun j hj => Or.inr (hm.1 j hj), hm.2⟩

/-- The characterisation of `branchSearchChildIdx_spec` determines the index
uniquely. -/
theorem childIdx_char_unique (bp : List (Bytes × Nat)) (key : Bytes) (i1 i2 : Nat)
    (h1a : i1 ≤ bp.length) (h1b : ∀ j, j < i1 → sepLE (bp.getD j ([], 0)).1 key)
    (h1c : ∀ j, i1 ≤ j → j < bp.length → bytesLT key (bp.getD j ([], 0)).1)
    (h2a : i2 ≤ bp.length) (h2b : ∀ j, j < i2 → sepLE (bp.getD j ([], 0)).1 key)
    (h2c : ∀ j, i2 ≤ j → j < bp.length → bytesLT key (bp.getD j ([], 0)).1) :
    i1 = i2 := by
  rcases lt_trichotomy i1 i2 with hlt | heq | hgt
  · exfalso
    have hle := h2b i1 hlt
    have hgt2 := h1c i1 (le_refl _) (by omega)
    rcases hle with heq | hlt2
    · rw [heq] at hgt2
      exact bytesLT_irrefl _ hgt2
    · exact bytesLT_asymm hlt2 hgt2
  · exact heq
  · exfalso
    have hle := h1b i2 hgt
    have hgt2 := h2c i2 (le_refl _) (by omega)
    rcases hle with heq | hlt2
    · rw [heq] at hgt2
      exact bytesLT_irrefl _ hgt2
    · exact bytesLT_asymm hlt2 hgt2

/-- All keys under a well-formed branch body lie within its interval. -/
theorem branchOK_chain_bounds (st : BStore) (h : Nat) :
    ∀ (bp : List (Bytes × Nat)) lo rc hi ns ls,
    BranchOK (fun c lo3 hi3 ns3 ls3 => SubtreeOK st h c lo3 hi3 ns3 ls3) lo bp rc hi ns ls →
    ∀ q ∈ chainPairs st ls, lbLE lo q.1 ∧ ubGT hi q.1 := by
  intro bp
  induction bp with
  | nil =>
    intro lo rc hi ns ls hb q hq
    exact (subtreeOK_chain_sorted st h rc lo hi ns ls hb).2 q hq
  | cons p rest ih =>
    intro lo rc hi ns ls hb q hq
    obtain ⟨k, c⟩ := p
    obtain ⟨hklo, hkhi, n1, l1, n2, l2, hn, hl, hc, hrest⟩ := hb
    subst hl
    have hsplit : chainPairs st (l1 ++ l2) = chainPairs st l1 ++ chainPairs st l2 := by
      unfold chainPairs
      exact List.flatMap_append l1 l2 _
    rw [hsplit] at hq
    rcases List.mem_append.mp hq with hq | hq
    · obtain ⟨hqlo, hqhi⟩ := (subtreeOK_chain_sorted st h c lo (some k) n1 l1 hc).2 q hq
      refine ⟨hqlo, ?_⟩
      have hqk : bytesLT q.1 k := hqhi
      cases hi with
      | none => trivial
      | some u => exact bytesLT_trans _ _ _ hqk hkhi
    · obtain ⟨hqlo, hqhi⟩ := ih (some k) rc hi n2 l2 hrest q hq
      refine ⟨?_, hqhi⟩
      cases lo with
      | none => trivial
      | some l =>
        rcases hqlo with heq | hlt
        · exact Or.inr (heq ▸ hklo)
        · exact Or.inr (bytesLT_trans _ _ _ hklo hlt)

/-- The leaf case of `searchInternal`: slot from `SearchSlotID`, advancing
when it equals `NumPairs`. -/
def leafStep (st : BStore) (pid : Nat) (key : Bytes) : BRes BIter :=
  match st.pages.get? pid with
  | none => BRes.crash "fetch failed"
  | some (BNode.leaf _ _ pairs) =>
    if pairs.length = (leafSearchSlotID pairs key).1 then
      iterAdvance st ⟨pid, (leafSearchSlotID pairs key).1⟩
    else BRes.ok ⟨pid, (leafSearchSlotID pairs key).1⟩
  | some (BNode.branch _ _) => BRes.crash "not a leaf"

/-- Descent of `searchInternal` in a well-formed subtree containing the key's
interval: it reaches a leaf `L` of the subtree such that every pair left of
`L` is `< key` and every pair right of `L` is `> key`, and the search result
is the leaf step at `L`. -/
theorem searchInternalGo_descends (st : BStore) (key : Bytes) :
    ∀ h pid lo hi nodes leaves,
    SubtreeOK st h pid lo hi nodes leaves →
    lbLE lo key → ubGT hi key →
    ∃ pre L post, leaves = pre ++ L :: post ∧
      (∀ fuel, h < fuel →
        searchInternalGo fuel st pid key = leafStep st L key) ∧
      (∀ q ∈ chainPairs st pre, bytesLT q.1 key) ∧
      (∀ q ∈ chainPairs st post, bytesLT key q.1) := by
  intro h
  induction h with
  | zero =>
    intro pid lo hi nodes leaves hs hlo hhi
    obtain ⟨p, n, pairs, hpg, _, _, _, hlv⟩ := hs
    subst hlv
    refine ⟨[], pid, [], rfl, ?_, by simp [chainPairs], by simp [chainPairs]⟩
    intro fuel hf
    obtain ⟨f, rfl⟩ : ∃ f, fuel = f + 1 := ⟨fuel - 1, by omega⟩
    simp only [searchInternalGo, leafStep, hpg]
  | succ h ih =>
    intro pid lo hi nodes leaves hs hlo hhi
    obtain ⟨bpairs, rc, nodes1, hpg, hnod, hb⟩ := hs
    have hsbp := (branchOK_separators _ bpairs lo rc hi nodes1 leaves hb).1
    have inner : ∀ (bp : List (Bytes × Nat)) lo2 rc2 hi2 ns ls,
        BranchOK (fun c lo3 hi3 ns3 ls3 => SubtreeOK st h c lo3 hi3 ns3 ls3)
          lo2 bp rc2 hi2 ns ls →
        SortedBPairs bp → lbLE lo2 key → ubGT hi2 key →
        ∃ pre L post, ls = pre ++ L :: post ∧
          (∀ fuel, h < fuel →
            searchInternalGo fuel st (childAt bp rc2 (branchSearchChildIdx bp key)) key
              = leafStep st L key) ∧
          (∀ q ∈ chainPairs st pre, bytesLT q.1 key) ∧
          (∀ q ∈ chainPairs st post, bytesLT key q.1) := by
      intro bp
      induction bp with
      | nil =>
        intro lo2 rc2 hi2 ns ls hb2 hsrt hlo2 hhi2
        have hchild : childAt [] rc2 (branchSearchChildIdx [] key) = rc2 := rfl
        rw [hchild]
        exact ih rc2 lo2 hi2 ns ls hb2 hlo2 hhi2
      | cons q0 rest ihq =>
        intro lo2 rc2 hi2 ns ls hb2 hsrt hlo2 hhi2
        obtain ⟨k, c⟩ := q0
        obtain ⟨hklo, hkhi, n1, l1, n2, l2, hn, hl, hc, hrest⟩ := hb2
        subst hl
        have hchar := branchSearchChildIdx_spec ((k, c) :: rest) key hsrt
        have hsplit12 : chainPairs st (l1 ++ l2) = chainPairs st l1 ++ chainPairs st l2 := by
          unfold chainPairs
          exact List.flatMap_append l1 l2 _
        by_cases hkey : bytesLT key k
        · -- key < k: route to the first child
          have hidx : branchSearchChildIdx ((k, c) :: rest) key = 0 := by
            refine childIdx_char_unique ((k, c) :: rest) key _ 0
              hchar.1 hchar.2.1 hchar.2.2 (by simp) (by omega) ?_
            intro j _ hj
            match j with
            | 0 => exact hkey
            | j' + 1 =>
              rw [List.getD_cons_succ]
              have hk2 : bytesLT k (rest.getD j' ([], 0)).1 := by
                have := sortedBPairs_getD_lt ((k, c) :: rest) hsrt 0 (j' + 1) (by omega) hj
                rw [List.getD_cons_succ] at this
                exact this
              exact bytesLT_trans _ _ _ hkey hk2
          have hchild : childAt ((k, c) :: rest) rc2 (branchSearchChildIdx ((k, c) :: rest) key)
              = c := by
            rw [hidx]
            unfold childAt
            rw [if_neg (by simp)]
            rfl
          rw [hchild]
          obtain ⟨pre, L, post, hl1, hstep, hpre, hpost⟩ :=
            ih c lo2 (some k) n1 l1 hc hlo2 hkey
          refine ⟨pre, L, post ++ l2, ?_, hstep, hpre, ?_⟩
          · rw [hl1, List.append_assoc, List.cons_append]
          · intro q hq
            have hq2 : chainPairs st (post ++ l2) = chainPairs st post ++ chainPairs st l2 := by
              unfold chainPairs
              exact List.flatMap_append post l2 _
            rw [hq2] at hq
            rcases List.mem_append.mp hq with hq | hq
            · exact hpost q hq
            · obtain ⟨hqlo, _⟩ := branchOK_chain_bounds st h rest (some k) rc2 hi2 n2 l2 hrest q hq
              rcases hqlo with heq | hlt
              · exact heq ▸ hkey
              · exact bytesLT_trans _ _ _ hkey hlt
        · -- k = key or k < key: route into the rest of the body
          have hke : sepLE k key := by
            rcases bytesLT_trichotomy key k with h1 | h1 | h1
            · exact absurd h1 hkey
            · exact Or.inl h1.symm
            · exact Or.inr h1
          have hsrtR := (List.pairwise_cons.mp hsrt).2
          have hcharR := branchSearchChildIdx_spec rest key hsrtR
          have hidx : branchSearchChildIdx ((k, c) :: rest) key
              = branchSearchChildIdx rest key + 1 := by
            refine childIdx_char_unique ((k, c) :: rest) key _
              (branchSearchChildIdx rest key + 1)
              hchar.1 hchar.2.1 hchar.2.2
              (by have := hcharR.1; simp only [List.length_cons]; omega) ?_ ?_
            · intro j hj
              match j with
              | 0 => exact hke
              | j' + 1 =>
                rw [List.getD_cons_succ]
                exact hcharR.2.1 j' (by omega)
            · intro j hj1 hj2
              match j with
              | 0 => omega
              | j' + 1 =>
                rw [List.getD_cons_succ]
                refine hcharR.2.2 j' (by omega) ?_
                simp only [List.length_cons] at hj2
                omega
          have hchild : childAt ((k, c) :: rest) rc2
              (branchSearchChildIdx ((k, c) :: rest) key)
              = childAt rest rc2 (branchSearchChildIdx rest key) := by
            rw [hidx]
            unfold childAt
            by_cases hlen : branchSearchChildIdx rest key = rest.length
            · rw [if_pos (by simp [hlen]), if_pos hlen]
            · rw [if_neg (by simp [hlen]), if_neg hlen]
              rw [List.getD_cons_succ]
          rw [hchild]
          obtain ⟨pre, L, post, hl2, hstep, hpre, hpost⟩ :=
            ihq (some k) rc2 hi2 n2 l2 hrest hsrtR hke hhi2
          refine ⟨l1 ++ pre, L, post, ?_, hstep, ?_, hpost⟩
          · rw [hl2, List.append_assoc]
          · intro q hq
            have hq2 : chainPairs st (l1 ++ pre) = chainPairs st l1 ++ chainPairs st pre := by
              unfold chainPairs
              exact List.flatMap_append l1 pre _
            rw [hq2] at hq
            rcases List.mem_append.mp hq with hq | hq
            · have hqk : bytesLT q.1 k :=
                ((subtreeOK_chain_sorted st h c lo2 (some k) n1 l1 hc).2 q hq).2
              rcases hke with heq | hlt
              · exact heq ▸ hqk
              · exact bytesLT_trans _ _ _ hqk hlt
            · exact hpre q hq
    obtain ⟨pre, L, post, hsplit, hstep, hpre, hpost⟩ :=
      inner bpairs lo rc hi nodes1 leaves hb hsbp hlo hhi
    refine ⟨pre, L, post, hsplit, ?_, hpre, hpost⟩
    intro fuel hf
    obtain ⟨f, rfl⟩ : ∃ f, fuel = f + 1 := ⟨fuel - 1, by omega⟩
    simp only [searchInternalGo, hpg]
    exact hstep f (by omega)

instance bytesLT_decidable (a b : Bytes) : Decidable (bytesLT a b) :=
  inferInstanceAs (Decidable (compareBytes a b = -1))

/-- `find?` skips a prefix on which the predicate is false. -/
theorem find?_append_left_false {α : Type} (p : α → Bool) (l1 l2 : List α)
    (h : ∀ x ∈ l1, p x = false) : (l1 ++ l2).find? p = l2.find? p := by
  rw [List.find?_append, List.find?_eq_none.mpr (fun x hx => by simp [h x hx]),
    Option.none_or]

/-- `getD` of an append inside the left part. -/
theorem getD_append_lt {α : Type} (d : α) : ∀ (a b : List α) (j : Nat), j < a.length →
    (a ++ b).getD j d = a.getD j d := by
  intro a
  induction a with
  | nil =>
    intro b j hj
    simp at hj
  | cons x xs ih =>
    intro b j hj
    match j with
    | 0 => rfl
    | j' + 1 =>
      rw [List.cons_append, List.getD_cons_succ, List.getD_cons_succ]
      exact ih b j' (by simpa using hj)

/-- `find?` returns the element at the first index where the predicate
holds. -/
theorem find?_getD_first {α : Type} (p : α → Bool) :
    ∀ (l : List α) (i : Nat) (d : α), i < l.length →
    (∀ j, j < i → p (l.getD j d) = false) → p (l.getD i d) = true →
    l.find? p = some (l.getD i d) := by
  intro l
  induction l with
  | nil =>
    intro i d hi _ _
    simp at hi
  | cons x xs ih =>
    intro i d hi hb hp
    match i with
    | 0 =>
      rw [List.getD_cons_zero] at hp
      rw [List.getD_cons_zero]
      exact List.find?_cons_of_pos xs hp
    | i' + 1 =>
      have hx : p x = false := by
        have := hb 0 (by omega)
        rwa [List.getD_cons_zero] at this
      rw [List.getD_cons_succ] at hp
      rw [List.getD_cons_succ]
      rw [List.find?_cons_of_neg xs (by simp [hx])]
      refine ih i' d (by simpa using hi) ?_ hp
      intro j hj
      have := hb (j + 1) (by omega)
      rwa [List.getD_cons_succ] at this

/-- Sorted leaf pairs increase strictly with the slot. -/
theorem sortedPairs_getD_lt (pairs : List (Bytes × Bytes)) (hs : SortedPairs pairs)
    (i j : Nat) (hij : i < j) (hj : j < pairs.length) :
    bytesLT (pairs.getD i ([], [])).1 (pairs.getD j ([], [])).1 := by
  have hi : i < pairs.length := by omega
  rw [List.getD_eq_getElem pairs ([], []) hi, List.getD_eq_getElem pairs ([], []) hj]
  have := (List.pairwise_iff_get.mp hs) ⟨i, hi⟩ ⟨j, hj⟩ hij
  simpa using this

/-- Every member sits at some index. -/
theorem mem_getD {α : Type} (l : List α) (d : α) (x : α) (hx : x ∈ l) :
    ∃ j, j < l.length ∧ l.getD j d = x := by
  obtain ⟨⟨j, hj⟩, hget⟩ := List.mem_iff_get.mp hx
  exact ⟨j, hj, by rw [List.getD_eq_getElem l d hj]; simpa using hget⟩

/-- `Search` in key mode on a well-formed tree returns (without error) an
iterator whose current pair is the first stored pair with key `≥` the search
key — the stored pair of the key itself when present — and which is
exhausted when every stored key is smaller. -/
theorem btSearchKey_finds (st : BStore) (key : Bytes) (hwf : TreeWF st) :
    ∃ it, btSearchKey st key = BRes.ok it ∧
      iterGet st it = (treePairs st).find? (fun q => !(decide (bytesLT q.1 key))) := by
  classical
  obtain ⟨h, nodes, leaves, hroot, hnodup, hchain, hnemp⟩ := hwf
  have hfacts := subtreeOK_facts st h st.root none none nodes leaves hroot
  have hnlt := subtreeOK_nodes_lt st h st.root none none nodes leaves hroot
  have hhlt : h < st.pages.length + 2 := by
    have h1 := hfacts.2.2.2.2.2
    have h2 := nodup_lt_length_le nodes st.pages.length hnodup hnlt
    omega
  have htp : treePairs st = chainPairs st leaves := by
    unfold treePairs
    rw [subtreeOK_collectLeaves st h st.root none none nodes leaves hroot _ hhlt]
  obtain ⟨pre, L, post, hsplit, hstep, hpreK, hpostK⟩ :=
    searchInternalGo_descends st key h st.root none none nodes leaves hroot trivial trivial
  have hsearch : btSearchKey st key = leafStep st L key := by
    unfold btSearchKey
    exact hstep _ hhlt
  have hLleaf : L ∈ leaves := by
    rw [hsplit]
    exact List.mem_append.mpr (Or.inr (List.mem_cons_self _ _))
  obtain ⟨p, n, pairs, hLpg⟩ := hfacts.2.2.2.2.1 L hLleaf
  have hLpairs : leafPairsAt st L = pairs := by
    unfold leafPairsAt
    rw [hLpg]
  have hchainsplit : chainPairs st leaves
      = chainPairs st pre ++ (pairs ++ chainPairs st post) := by
    rw [hsplit]
    unfold chainPairs
    rw [List.flatMap_append, List.flatMap_cons, hLpairs]
  have hsortedAll : SortedPairs (chainPairs st leaves) :=
    (subtreeOK_chain_sorted st h st.root none none nodes leaves hroot).1
  have hsortedPairs : SortedPairs pairs := by
    rw [hchainsplit] at hsortedAll
    have h1 := (List.pairwise_append.mp hsortedAll).2.1
    exact (List.pairwise_append.mp h1).1
  have hLspec := leafSearchSlotID_spec pairs key hsortedPairs
  have hpreFalse : ∀ x ∈ chainPairs st pre,
      (fun q => !(decide (bytesLT q.1 key))) x = false := by
    intro x hx
    simp [hpreK x hx]
  have hfind1 : (treePairs st).find? (fun q => !(decide (bytesLT q.1 key)))
      = (pairs ++ chainPairs st post).find? (fun q => !(decide (bytesLT q.1 key))) := by
    rw [htp, hchainsplit]
    exact find?_append_left_false _ _ _ hpreFalse
  have hgetDapp : ∀ (j : Nat), j < pairs.length →
      (pairs ++ chainPairs st post).getD j ([], []) = pairs.getD j ([], []) :=
    fun j hj => getD_append_lt ([], []) pairs (chainPairs st post) j hj
  by_cases hslotlen : (leafSearchSlotID pairs key).1 < pairs.length
  · -- the slot is inside the leaf: the iterator stays there
    have hbefore : ∀ j, j < (leafSearchSlotID pairs key).1 →
        bytesLT (pairs.getD j ([], [])).1 key := by
      intro j hj
      by_cases hfound : (leafSearchSlotID pairs key).2 = true
      · obtain ⟨hslot, hkeyeq⟩ := hLspec.2.1 hfound
        rw [← hkeyeq]
        exact sortedPairs_getD_lt pairs hsortedPairs j _ hj hslot
      · exact (hLspec.2.2 (by simpa using hfound)).1 j hj
    have hat : bytesLT (pairs.getD (leafSearchSlotID pairs key).1 ([], [])).1 key → False := by
      intro hcon
      by_cases hfound : (leafSearchSlotID pairs key).2 = true
      · obtain ⟨_, hkeyeq⟩ := hLspec.2.1 hfound
        rw [hkeyeq] at hcon
        exact bytesLT_irrefl _ hcon
      · have := (hLspec.2.2 (by simpa using hfound)).2 _ (le_refl _) hslotlen
        exact bytesLT_asymm this hcon
    refine ⟨⟨L, (leafSearchSlotID pairs key).1⟩, ?_, ?_⟩
    · rw [hsearch]
      simp only [leafStep, hLpg]
      rw [if_neg (by omega)]
    · simp only [iterGet, hLpg]
      have hget : pairs.get? (leafSearchSlotID pairs key).1
          = some (pairs.getD (leafSearchSlotID pairs key).1 ([], [])) := by
        rw [List.getD_eq_getElem pairs ([], []) hslotlen]
        exact List.get?_eq_get hslotlen
      rw [hget, hfind1]
      rw [find?_getD_first _ (pairs ++ chainPairs st post) (leafSearchSlotID pairs key).1
        ([], []) (by rw [List.length_append]; omega) ?_ ?_]
      · rw [hgetDapp _ hslotlen]
      · intro j hj
        rw [hgetDapp _ (by omega)]
        show (!(decide (bytesLT (pairs.getD j ([], [])).1 key))) = false
        rw [decide_eq_true (hbefore j hj)]
        rfl
      · rw [hgetDapp _ hslotlen]
        show (!(decide
          (bytesLT (pairs.getD (leafSearchSlotID pairs key).1 ([], [])).1 key))) = true
        rw [decide_eq_false hat]
        rfl
  · -- the slot is past the end: Advance moves to the next leaf
    have hslotlen2 : (leafSearchSlotID pairs key).1 = pairs.length := by
      have := hLspec.1
      omega
    have hmiss : (leafSearchSlotID pairs key).2 = false := by
      by_cases hfound : (leafSearchSlotID pairs key).2 = true
      · exact absurd (hLspec.2.1 hfound).1 (by omega)
      · simpa using hfound
    have hallLT : ∀ x ∈ pairs, bytesLT x.1 key := by
      intro x hx
      obtain ⟨j, hj, hgd⟩ := mem_getD pairs ([], []) x hx
      rw [← hgd]
      exact (hLspec.2.2 hmiss).1 j (by omega)
    have hallFalse : ∀ x ∈ pairs, (fun q => !(decide (bytesLT q.1 key))) x = false := by
      intro x hx
      simp [hallLT x hx]
    have hnextL : n = post.head? := by
      have h1 : leafNextAt st L = post.head? := by
        refine chainFrom_next st pre none L post ?_
        rw [← hsplit]
        exact hchain
      unfold leafNextAt at h1
      rw [hLpg] at h1
      exact h1
    have hstep2 : btSearchKey st key
        = iterAdvance st ⟨L, (leafSearchSlotID pairs key).1⟩ := by
      rw [hsearch]
      simp only [leafStep, hLpg]
      rw [if_pos (by omega)]
    cases post with
    | nil =>
      -- no next leaf: the iterator is exhausted
      refine ⟨⟨L, (leafSearchSlotID pairs key).1 + 1⟩, ?_, ?_⟩
      · rw [hstep2]
        simp only [iterAdvance, hLpg]
        rw [if_neg (by omega), hnextL]
        simp only [List.head?_nil]
      · simp only [iterGet, hLpg]
        rw [List.get?_eq_none.mpr (by omega), hfind1]
        have hpost0 : chainPairs st [] = [] := rfl
        rw [hpost0, List.append_nil]
        exact (List.find?_eq_none.mpr (fun x hx => by simp [hallLT x hx])).symm
    | cons L2 post2 =>
      have hL2mem : L2 ∈ leaves := by
        rw [hsplit]
        exact List.mem_append.mpr (Or.inr (List.mem_cons.mpr
          (Or.inr (List.mem_cons_self _ _))))
      obtain ⟨p2, n2, pairs2, hL2pg⟩ := hfacts.2.2.2.2.1 L2 hL2mem
      have hL2lt : L2 < st.pages.length := hnlt L2 (hfacts.2.2.1 L2 hL2mem)
      have hpairs2ne : pairs2 ≠ [] := by
        rcases hnemp L2 hL2mem with hne2 | hone
        · unfold leafPairsAt at hne2
          rw [hL2pg] at hne2
          exact hne2
        · exfalso
          have : leaves.length = 1 := by rw [hone]; rfl
          rw [hsplit] at this
          simp at this
          omega
      obtain ⟨q0, pairs2t, hp2⟩ : ∃ q0 t, pairs2 = q0 :: t := by
        cases pairs2 with
        | nil => exact absurd rfl hpairs2ne
        | cons a b => exact ⟨a, b, rfl⟩
      have hq0post : q0 ∈ chainPairs st (L2 :: post2) := by
        unfold chainPairs leafPairsAt
        rw [List.flatMap_cons, hL2pg, hp2]
        exact List.mem_append.mpr (Or.inl (List.mem_cons_self _ _))
      have hq0gt : bytesLT key q0.1 := hpostK q0 hq0post
      refine ⟨⟨L2, 0⟩, ?_, ?_⟩
      · rw [hstep2]
        simp only [iterAdvance, hLpg]
        rw [if_neg (by omega), hnextL]
        simp only [List.head?_cons]
        rw [if_pos hL2lt]
      · simp only [iterGet, hL2pg, hp2]
        rw [hfind1, find?_append_left_false _ _ _ hallFalse]
        have hcp2 : chainPairs st (L2 :: post2)
            = (q0 :: pairs2t) ++ chainPairs st post2 := by
          unfold chainPairs leafPairsAt
          rw [List.flatMap_cons, hL2pg, hp2]
        rw [hcp2, List.cons_append]
        rw [List.find?_cons_of_pos _ (by simp [bytesLT_asymm hq0gt])]
        rfl

/-! ## Insert preservation: sorted insertion and frame lemmas -/

/-- Insertion of a pair into a sorted pair list at its key position. -/
def insertSorted (k v : Bytes) : List (Bytes × Bytes) → List (Bytes × Bytes)
  | [] => [(k, v)]
  | q :: rest => if bytesLT q.1 k then q :: insertSorted k v rest else (k, v) :: q :: rest

theorem insertSorted_mem (k v : Bytes) : ∀ (l : List (Bytes × Bytes)) (q : Bytes × Bytes),
    q ∈ insertSorted k v l ↔ q = (k, v) ∨ q ∈ l := by
  intro l
  induction l with
  | nil => intro q; simp [insertSorted]
  | cons x rest ih =>
    intro q
    rw [insertSorted]
    by_cases hx : bytesLT x.1 k
    · rw [if_pos hx]
      constructor
      · intro hq
        rcases List.mem_cons.mp hq with hq | hq
        · exact Or.inr (List.mem_cons.mpr (Or.inl hq))
        · rcases (ih q).mp hq with hq | hq
          · exact Or.inl hq
          · exact Or.inr (List.mem_cons.mpr (Or.inr hq))
      · intro hq
        rcases hq with hq | hq
        · exact List.mem_cons.mpr (Or.inr ((ih q).mpr (Or.inl hq)))
        · rcases List.mem_cons.mp hq with hq | hq
          · exact List.mem_cons.mpr (Or.inl hq)
          · exact List.mem_cons.mpr (Or.inr ((ih q).mpr (Or.inr hq)))
    · rw [if_neg hx]
      constructor
      · intro hq
        rcases List.mem_cons.mp hq with hq | hq
        · exact Or.inl hq
        · exact Or.inr hq
      · intro hq
        rcases hq with hq | hq
        · exact List.mem_cons.mpr (Or.inl hq)
        · exact List.mem_cons.mpr (Or.inr hq)

theorem insertSorted_sorted (k v : Bytes) : ∀ (l : List (Bytes × Bytes)),
    SortedPairs l → (∀ q ∈ l, q.1 ≠ k) → SortedPairs (insertSorted k v l) := by
  intro l
  induction l with
  | nil => intro _ _; simp [insertSorted, SortedPairs]
  | cons x rest ih =>
    intro hs hk
    obtain ⟨hx, hrest⟩ := List.pairwise_cons.mp hs
    rw [insertSorted]
    by_cases hxk : bytesLT x.1 k
    · rw [if_pos hxk]
      refine List.pairwise_cons.mpr ⟨?_, ?_⟩
      · intro b hb
        rcases (insertSorted_mem k v rest b).mp hb with hb | hb
        · rw [hb]; exact hxk
        · exact hx b hb
      · exact ih hrest (fun q hq => hk q (List.mem_cons.mpr (Or.inr hq)))
    · rw [if_neg hxk]
      have hkx : bytesLT k x.1 := by
        rcases bytesLT_trichotomy x.1 k with h1 | h1 | h1
        · exact absurd h1 hxk
        · exact absurd h1 (hk x (List.mem_cons_self _ _))
        · exact h1
      refine List.pairwise_cons.mpr ⟨?_, hs⟩
      intro b hb
      rcases List.mem_cons.mp hb with hb | hb
      · rw [hb]; exact hkx
      · exact bytesLT_trans _ _ _ hkx (hx b hb)

/-- Insertion commutes with a prefix of strictly smaller keys. -/
theorem insertSorted_append_left (k v : Bytes) : ∀ (a b : List (Bytes × Bytes)),
    (∀ q ∈ a, bytesLT q.1 k) →
    insertSorted k v (a ++ b) = a ++ insertSorted k v b := by
  intro a
  induction a with
  | nil => intro b _; simp
  | cons x rest ih =>
    intro b ha
    rw [List.cons_append, insertSorted, if_pos (ha x (List.mem_cons_self _ _)),
      ih b (fun q hq => ha q (List.mem_cons.mpr (Or.inr hq))), List.cons_append]

/-- Insertion confined left of a suffix of strictly larger keys. -/
theorem insertSorted_append_right (k v : Bytes) : ∀ (b c : List (Bytes × Bytes)),
    (∀ q ∈ c, bytesLT k q.1) →
    insertSorted k v (b ++ c) = insertSorted k v b ++ c := by
  intro b
  induction b with
  | nil =>
    intro c hc
    rw [List.nil_append, insertSorted]
    cases c with
    | nil => rfl
    | cons y t =>
      rw [insertSorted]
      have : ¬ bytesLT y.1 k := bytesLT_asymm (hc y (List.mem_cons_self _ _))
      rw [if_neg this]
      rfl
  | cons x rest ih =>
    intro c hc
    rw [List.cons_append, insertSorted, insertSorted]
    by_cases hx : bytesLT x.1 k
    · rw [if_pos hx, if_pos hx, ih c hc, List.cons_append]
    · rw [if_neg hx, if_neg hx]
      rfl

/-- Two pages with the same kind and payload, allowing different leaf
links. -/
def sameShape : Option BNode → Option BNode → Prop
  | some (BNode.leaf _ _ prs), some (BNode.leaf _ _ prs2) => prs2 = prs
  | some (BNode.branch b rc), some (BNode.branch b2 rc2) => b2 = b ∧ rc2 = rc
  | none, none => True
  | _, _ => False

/-- The subtree invariant only reads page payloads, so it survives any
update that preserves shapes on its nodes. -/
theorem subtreeOK_frame (st st2 : BStore) : ∀ h pid lo hi nodes leaves,
    SubtreeOK st h pid lo hi nodes leaves →
    (∀ p ∈ nodes, sameShape (st.pages.get? p) (st2.pages.get? p)) →
    SubtreeOK st2 h pid lo hi nodes leaves := by
  intro h
  induction h with
  | zero =>
    intro pid lo hi nodes leaves hs hsh
    obtain ⟨p, n, pairs, hpg, hsort, hbnd, hnod, hlv⟩ := hs
    subst hnod
    have hshL := hsh pid (List.mem_singleton.mpr rfl)
    rw [hpg] at hshL
    cases hpg2 : st2.pages.get? pid with
    | none =>
      rw [hpg2] at hshL
      simp [sameShape] at hshL
    | some nd =>
      cases nd with
      | branch b2 rc2 =>
        rw [hpg2] at hshL
        simp [sameShape] at hshL
      | leaf p2 n2 prs2 =>
        rw [hpg2] at hshL
        have hprs : prs2 = pairs := hshL
        exact ⟨p2, n2, pairs, by rw [hpg2, hprs], hsort, hbnd, rfl, hlv⟩
  | succ h ih =>
    intro pid lo hi nodes leaves hs hsh
    obtain ⟨bpairs, rc, nodes1, hpg, hnod, hb⟩ := hs
    subst hnod
    have hshR := hsh pid (List.mem_cons_self _ _)
    rw [hpg] at hshR
    have inner : ∀ (bp : List (Bytes × Nat)) lo2 rc2 hi2 ns ls,
        BranchOK (fun c lo3 hi3 ns3 ls3 => SubtreeOK st h c lo3 hi3 ns3 ls3)
          lo2 bp rc2 hi2 ns ls →
        (∀ p ∈ ns, sameShape (st.pages.get? p) (st2.pages.get? p)) →
        BranchOK (fun c lo3 hi3 ns3 ls3 => SubtreeOK st2 h c lo3 hi3 ns3 ls3)
          lo2 bp rc2 hi2 ns ls := by
      intro bp
      induction bp with
      | nil =>
        intro lo2 rc2 hi2 ns ls hb2 hsh2
        exact ih rc2 lo2 hi2 ns ls hb2 hsh2
      | cons q rest ihq =>
        intro lo2 rc2 hi2 ns ls hb2 hsh2
        obtain ⟨k, c⟩ := q
        obtain ⟨hklo, hkhi, n1, l1, n2, l2, hn, hl, hc, hrest⟩ := hb2
        subst hn
        refine ⟨hklo, hkhi, n1, l1, n2, l2, rfl, hl, ?_, ?_⟩
        · exact ih c lo2 (some k) n1 l1 hc
            (fun p hp => hsh2 p (List.mem_append.mpr (Or.inl hp)))
        · exact ihq (some k) rc2 hi2 n2 l2 hrest
            (fun p hp => hsh2 p (List.mem_append.mpr (Or.inr hp)))
    cases hpg2 : st2.pages.get? pid with
    | none =>
      rw [hpg2] at hshR
      simp [sameShape] at hshR
    | some nd =>
      cases nd with
      | leaf p2 n2 prs2 =>
        rw [hpg2] at hshR
        simp [sameShape] at hshR
      | branch b2 rc2 =>
        rw [hpg2] at hshR
        obtain ⟨hb2, hrc2⟩ : b2 = bpairs ∧ rc2 = rc := hshR
        refine ⟨bpairs, rc, nodes1, ?_, rfl,
          inner bpairs lo rc hi nodes1 leaves hb
            (fun p hp => hsh p (List.mem_cons.mpr (Or.inr hp)))⟩
        rw [hpg2, hb2, hrc2]

/-- A subtree's leaf list is a sublist of its node list. -/
theorem subtreeOK_leaves_sublist (st : BStore) : ∀ h pid lo hi nodes leaves,
    SubtreeOK st h pid lo hi nodes leaves → leaves.Sublist nodes := by
  intro h
  induction h with
  | zero =>
    intro pid lo hi nodes leaves hs
    obtain ⟨_, _, _, _, _, _, hnod, hlv⟩ := hs
    subst hnod hlv
    exact List.Sublist.refl _
  | succ h ih =>
    intro pid lo hi nodes leaves hs
    obtain ⟨bpairs, rc, nodes1, _, hnod, hb⟩ := hs
    subst hnod
    have inner : ∀ (bp : List (Bytes × Nat)) lo2 rc2 hi2 ns ls,
        BranchOK (fun c lo3 hi3 ns3 ls3 => SubtreeOK st h c lo3 hi3 ns3 ls3)
          lo2 bp rc2 hi2 ns ls → ls.Sublist ns := by
      intro bp
      induction bp with
      | nil =>
        intro lo2 rc2 hi2 ns ls hb2
        exact ih rc2 lo2 hi2 ns ls hb2
      | cons q rest ihq =>
        intro lo2 rc2 hi2 ns ls hb2
        obtain ⟨k, c⟩ := q
        obtain ⟨_, _, n1, l1, n2, l2, hn, hl, hc, hrest⟩ := hb2
        subst hn hl
        exact List.Sublist.append (ih c lo2 (some k) n1 l1 hc)
          (ihq (some k) rc2 hi2 n2 l2 hrest)
    exact List.Sublist.cons _ (inner bpairs lo rc hi nodes1 leaves hb)

theorem leafTransferLoop_succ (fuel : Nat) (old new : List (Bytes × Bytes)) :
    leafTransferLoop (fuel + 1) old new =
      if 2 * leafFreeSpace new < (leafCapacity : Int) then BRes.ok (old, new)
      else
        match old with
        | [] => BRes.crash "transfer from empty leaf"
        | p :: rest =>
          if leafFreeSpace new < 4 + (pairSize p : Int) then BRes.crash "no space in dest leaf"
          else leafTransferLoop fuel rest (new ++ [p]) := rfl

theorem leafSplitLoop_succ (fuel : Nat) (old new : List (Bytes × Bytes)) (key value : Bytes) :
    leafSplitLoop (fuel + 1) old new key value =
      (if 2 * leafFreeSpace new < (leafCapacity : Int) then
        match leafInsertGo old (leafSearchSlotID old key).1 key value with
        | none => BRes.crash "old leaf must have space"
        | some old2 => BRes.ok (old2, new)
      else
        match old with
        | [] => BRes.crash "pair data too short"
        | p :: rest =>
          if compareBytes p.1 key < 0 then
            if leafFreeSpace new < 4 + (pairSize p : Int) then
              BRes.crash "no space in dest leaf"
            else leafSplitLoop fuel rest (new ++ [p]) key value
          else
            match leafInsertGo new new.length key value with
            | none => BRes.crash "new leaf must have space"
            | some new2 => leafTransferLoop (rest.length + 2) (p :: rest) new2) := rfl

theorem branchTransferLoop_succ (fuel : Nat) (old new : List (Bytes × Nat)) :
    branchTransferLoop (fuel + 1) old new =
      if 2 * branchFreeSpace new < (branchCapacity : Int) then BRes.ok (old, new)
      else
        match old with
        | [] => BRes.crash "transfer from empty internal node"
        | p :: rest =>
          if branchFreeSpace new < 4 + (bpairSize p : Int) then
            BRes.crash "no space in dest internal node"
          else branchTransferLoop fuel rest (new ++ [p]) := rfl

theorem branchSplitLoop_succ (fuel : Nat) (old new : List (Bytes × Nat))
    (key : Bytes) (pid : Nat) :
    branchSplitLoop (fuel + 1) old new key pid =
      (if 2 * branchFreeSpace new < (branchCapacity : Int) then
        match branchInsertGo old (branchSearchSlotId old key).1 key pid with
        | none => BRes.crash "old internal node must have space"
        | some old2 => BRes.ok (old2, new)
      else
        match old with
        | [] => BRes.crash "pair data too short"
        | p :: rest =>
          if compareBytes p.1 key < 0 then
            if branchFreeSpace new < 4 + (bpairSize p : Int) then
              BRes.crash "no space in dest internal node"
            else branchSplitLoop fuel rest (new ++ [p]) key pid
          else
            match branchInsertGo new new.length key pid with
            | none => BRes.crash "new internal node must have space"
            | some new2 => branchTransferLoop (rest.length + 2) (p :: rest) new2) := rfl

theorem compareBytes_lt_iff (a b : Bytes) : compareBytes a b < 0 ↔ bytesLT a b := by
  unfold bytesLT
  rcases compareBytes_cases a b with h | h | h <;> rw [h] <;> constructor <;> omega

/-- Inserting at the end. -/
theorem insertIdx_self_append {α : Type} (a : α) : ∀ (l : List α),
    l.insertIdx l.length a = l ++ [a] := by
  intro l
  induction l with
  | nil => rfl
  | cons x xs ih => simpa [List.insertIdx] using ih

/-- `insertIdx` at the insertion point of a sorted list is sorted
insertion. -/
theorem insertIdx_insertion_point (k v : Bytes) : ∀ (l : List (Bytes × Bytes)) (i : Nat),
    i ≤ l.length →
    (∀ j, j < i → bytesLT (l.getD j ([], [])).1 k) →
    (∀ j, i ≤ j → j < l.length → bytesLT k (l.getD j ([], [])).1) →
    l.insertIdx i (k, v) = insertSorted k v l := by
  intro l
  induction l with
  | nil =>
    intro i hi _ _
    have hi0 : i = 0 := by simpa using hi
    subst hi0
    rfl
  | cons x xs ih =>
    intro i hi hlo hhi
    match i with
    | 0 =>
      have hx : bytesLT k x.1 := by
        have := hhi 0 (le_refl _) (by simp)
        rwa [List.getD_cons_zero] at this
      rw [insertSorted, if_neg (bytesLT_asymm hx)]
      rfl
    | i' + 1 =>
      have hx : bytesLT x.1 k := by
        have := hlo 0 (by omega)
        rwa [List.getD_cons_zero] at this
      rw [insertSorted, if_pos hx]
      have hrec := ih i' (by simpa using hi)
        (fun j hj => by
          have := hlo (j + 1) (by omega)
          rwa [List.getD_cons_succ] at this)
        (fun j hj1 hj2 => by
          have := hhi (j + 1) (by omega) (by simpa using hj2)
          rwa [List.getD_cons_succ] at this)
      rw [← hrec]
      rfl

/-- The inner transfer loop, on success, moves a prefix of `old` onto the end
of `new`. -/
theorem leafTransferLoop_ok : ∀ (fuel : Nat) (old new o n2 : List (Bytes × Bytes)),
    leafTransferLoop fuel old new = BRes.ok (o, n2) →
    ∃ moved, old = moved ++ o ∧ n2 = new ++ moved := by
  intro fuel
  induction fuel with
  | zero =>
    intro old new o n2 hok
    rw [leafTransferLoop] at hok
    simp at hok
  | succ f ih =>
    intro old new o n2 hok
    rw [leafTransferLoop_succ] at hok
    by_cases hhf : 2 * leafFreeSpace new < (leafCapacity : Int)
    · rw [if_pos hhf] at hok
      simp only [BRes.ok.injEq, Prod.mk.injEq] at hok
      exact ⟨[], by simp [hok.1], by simp [hok.2]⟩
    · rw [if_neg hhf] at hok
      cases old with
      | nil => simp at hok
      | cons p rest =>
        simp only [] at hok
        by_cases hsp : leafFreeSpace new < 4 + (pairSize p : Int)
        · rw [if_pos hsp] at hok
          simp at hok
        · rw [if_neg hsp] at hok
          obtain ⟨moved, hmo, hnn⟩ := ih rest (new ++ [p]) o n2 hok
          exact ⟨p :: moved, by simp [hmo], by simp [hnn]⟩

/-- `Leaf.SplitInsert`'s loop, on success, is sorted insertion of the new
pair into the combined content, split into the new (left, nonempty) leaf and
the remaining old leaf. -/
theorem leafSplitLoop_ok (k v : Bytes) : ∀ (fuel : Nat) (old new o n2 : List (Bytes × Bytes)),
    leafSplitLoop fuel old new k v = BRes.ok (o, n2) →
    SortedPairs (new ++ old) → (∀ q ∈ new ++ old, q.1 ≠ k) →
    (∀ q ∈ new, bytesLT q.1 k) →
    n2 ++ o = insertSorted k v (new ++ old) ∧ n2 ≠ [] := by
  intro fuel
  induction fuel with
  | zero =>
    intro old new o n2 hok _ _ _
    rw [leafSplitLoop] at hok
    simp at hok
  | succ f ih =>
    intro old new o n2 hok hsort hfresh hnewlt
    rw [leafSplitLoop_succ] at hok
    by_cases hhf : 2 * leafFreeSpace new < (leafCapacity : Int)
    · -- the new leaf is half full: insert into the old leaf
      rw [if_pos hhf] at hok
      have hnewne : new ≠ [] := by
        intro hcon
        rw [hcon] at hhf
        norm_num [leafFreeSpace, leafCapacity] at hhf
      have hsortold : SortedPairs old := (List.pairwise_append.mp hsort).2.1
      have hfreshold : ∀ q ∈ old, q.1 ≠ k :=
        fun q hq => hfresh q (List.mem_append.mpr (Or.inr hq))
      have hspec := leafSearchSlotID_spec old k hsortold
      have hmiss : (leafSearchSlotID old k).2 = false := by
        by_cases hfd : (leafSearchSlotID old k).2 = true
        · exfalso
          obtain ⟨hlt, heq⟩ := hspec.2.1 hfd
          have hmem : old.getD (leafSearchSlotID old k).1 ([], []) ∈ old := by
            rw [List.getD_eq_getElem old ([], []) hlt]
            exact List.getElem_mem hlt
          exact hfreshold _ hmem heq
        · simpa using hfd
      cases hins : leafInsertGo old (leafSearchSlotID old k).1 k v with
      | none => rw [hins] at hok; simp at hok
      | some old2 =>
        rw [hins] at hok
        simp only [] at hok
        simp only [BRes.ok.injEq, Prod.mk.injEq] at hok
        have hold2 : old2 = old.insertIdx (leafSearchSlotID old k).1 (k, v) := by
          unfold leafInsertGo at hins
          by_cases h1 : leafCapacity / 2 - 4 < pairSize (k, v)
          · rw [if_pos h1] at hins; simp at hins
          · rw [if_neg h1] at hins
            by_cases h2 : leafFreeSpace old < 4 + (pairSize (k, v) : Int)
            · rw [if_pos h2] at hins; simp at hins
            · rw [if_neg h2] at hins
              simpa using hins.symm
        have hpoint := insertIdx_insertion_point k v old (leafSearchSlotID old k).1
          hspec.1 (hspec.2.2 hmiss).1 (hspec.2.2 hmiss).2
        constructor
        · rw [← hok.1, ← hok.2, hold2, hpoint,
            insertSorted_append_left k v new old hnewlt]
        · rw [← hok.2]
          exact hnewne
    · rw [if_neg hhf] at hok
      cases old with
      | nil => simp at hok
      | cons p rest =>
        simp only [] at hok
        by_cases hcmp : compareBytes p.1 k < 0
        · -- transfer the old leaf's first pair and continue
          rw [if_pos hcmp] at hok
          have hplt : bytesLT p.1 k := (compareBytes_lt_iff _ _).mp hcmp
          by_cases hsp : leafFreeSpace new < 4 + (pairSize p : Int)
          · rw [if_pos hsp] at hok
            simp at hok
          · rw [if_neg hsp] at hok
            have hassoc : (new ++ [p]) ++ rest = new ++ p :: rest := by simp
            have := ih rest (new ++ [p]) o n2 hok
              (by rw [hassoc]; exact hsort)
              (by rw [hassoc]; exact hfresh)
              (by
                intro q hq
                rcases List.mem_append.mp hq with hq | hq
                · exact hnewlt q hq
                · rw [List.mem_singleton.mp hq]; exact hplt)
            rw [hassoc] at this
            exact this
        · -- the new pair goes into the new leaf, then top up by transfers
          rw [if_neg hcmp] at hok
          have hpgt : bytesLT k p.1 := by
            rcases bytesLT_trichotomy p.1 k with h1 | h1 | h1
            · exact absurd ((compareBytes_lt_iff _ _).mpr h1) hcmp
            · exact absurd h1 (hfresh p (List.mem_append.mpr (Or.inr (List.mem_cons_self _ _))))
            · exact h1
          cases hins : leafInsertGo new new.length k v with
          | none => rw [hins] at hok; simp at hok
          | some new2 =>
            rw [hins] at hok
            simp only [] at hok
            have hnew2 : new2 = new ++ [(k, v)] := by
              unfold leafInsertGo at hins
              by_cases h1 : leafCapacity / 2 - 4 < pairSize (k, v)
              · rw [if_pos h1] at hins; simp at hins
              · rw [if_neg h1] at hins
                by_cases h2 : leafFreeSpace new < 4 + (pairSize (k, v) : Int)
                · rw [if_pos h2] at hins; simp at hins
                · rw [if_neg h2] at hins
                  rw [← insertIdx_self_append]
                  simpa using hins.symm
            obtain ⟨moved, hmo, hnn⟩ := leafTransferLoop_ok _ _ _ _ _ hok
            constructor
            · rw [hnn, hnew2]
              rw [insertSorted_append_left k v new (p :: rest) hnewlt]
              have hrest : insertSorted k v (p :: rest) = (k, v) :: p :: rest := by
                rw [insertSorted, if_neg (bytesLT_asymm hpgt)]
              rw [hrest, hmo]
              simp
            · rw [hnn, hnew2]
              simp

/-- Sorted insertion of a separator/child pair into a branch body. -/
def insertBSorted (k : Bytes) (c : Nat) : List (Bytes × Nat) → List (Bytes × Nat)
  | [] => [(k, c)]
  | q :: rest => if bytesLT q.1 k then q :: insertBSorted k c rest else (k, c) :: q :: rest

theorem insertBSorted_append_left (k : Bytes) (c : Nat) : ∀ (a b : List (Bytes × Nat)),
    (∀ q ∈ a, bytesLT q.1 k) →
    insertBSorted k c (a ++ b) = a ++ insertBSorted k c b := by
  intro a
  induction a with
  | nil => intro b _; simp
  | cons x rest ih =>
    intro b ha
    rw [List.cons_append, insertBSorted, if_pos (ha x (List.mem_cons_self _ _)),
      ih b (fun q hq => ha q (List.mem_cons.mpr (Or.inr hq))), List.cons_append]

theorem insertBSorted_append_right (k : Bytes) (c : Nat) : ∀ (b d : List (Bytes × Nat)),
    (∀ q ∈ d, bytesLT k q.1) →
    insertBSorted k c (b ++ d) = insertBSorted k c b ++ d := by
  intro b
  induction b with
  | nil =>
    intro d hd
    rw [List.nil_append, insertBSorted]
    cases d with
    | nil => rfl
    | cons y t =>
      rw [insertBSorted]
      have : ¬ bytesLT y.1 k := bytesLT_asymm (hd y (List.mem_cons_self _ _))
      rw [if_neg this]
      rfl
  | cons x rest ih =>
    intro d hd
    rw [List.cons_append, insertBSorted, insertBSorted]
    by_cases hx : bytesLT x.1 k
    · rw [if_pos hx, if_pos hx, ih d hd, List.cons_append]
    · rw [if_neg hx, if_neg hx]
      rfl

/-- `insertIdx` at the insertion point of a sorted branch body is sorted
insertion. -/
theorem insertIdxB_insertion_point (k : Bytes) (c : Nat) : ∀ (l : List (Bytes × Nat)) (i : Nat),
    i ≤ l.length →
    (∀ j, j < i → bytesLT (l.getD j ([], 0)).1 k) →
    (∀ j, i ≤ j → j < l.length → bytesLT k (l.getD j ([], 0)).1) →
    l.insertIdx i (k, c) = insertBSorted k c l := by
  intro l
  induction l with
  | nil =>
    intro i hi _ _
    have hi0 : i = 0 := by simpa using hi
    subst hi0
    rfl
  | cons x xs ih =>
    intro i hi hlo hhi
    match i with
    | 0 =>
      have hx : bytesLT k x.1 := by
        have := hhi 0 (le_refl _) (by simp)
        rwa [List.getD_cons_zero] at this
      rw [insertBSorted, if_neg (bytesLT_asymm hx)]
      rfl
    | i' + 1 =>
      have hx : bytesLT x.1 k := by
        have := hlo 0 (by omega)
        rwa [List.getD_cons_zero] at this
      rw [insertBSorted, if_pos hx]
      have hrec := ih i' (by simpa using hi)
        (fun j hj => by
          have := hlo (j + 1) (by omega)
          rwa [List.getD_cons_succ] at this)
        (fun j hj1 hj2 => by
          have := hhi (j + 1) (by omega) (by simpa using hj2)
          rwa [List.getD_cons_succ] at this)
      rw [← hrec]
      rfl

theorem branchTransferLoop_ok : ∀ (fuel : Nat) (old new o n2 : List (Bytes × Nat)),
    branchTransferLoop fuel old new = BRes.ok (o, n2) →
    ∃ moved, old = moved ++ o ∧ n2 = new ++ moved := by
  intro fuel
  induction fuel with
  | zero =>
    intro old new o n2 hok
    rw [branchTransferLoop] at hok
    simp at hok
  | succ f ih =>
    intro old new o n2 hok
    rw [branchTransferLoop_succ] at hok
    by_cases hhf : 2 * branchFreeSpace new < (branchCapacity : Int)
    · rw [if_pos hhf] at hok
      simp only [BRes.ok.injEq, Prod.mk.injEq] at hok
      exact ⟨[], by simp [hok.1], by simp [hok.2]⟩
    · rw [if_neg hhf] at hok
      cases old with
      | nil => simp at hok
      | cons p rest =>
        simp only [] at hok
        by_cases hsp : branchFreeSpace new < 4 + (bpairSize p : Int)
        · rw [if_pos hsp] at hok
          simp at hok
        · rw [if_neg hsp] at hok
          obtain ⟨moved, hmo, hnn⟩ := ih rest (new ++ [p]) o n2 hok
          exact ⟨p :: moved, by simp [hmo], by simp [hnn]⟩

/-- `InternalNode.SplitInsert`'s loop, on success, is sorted insertion of the
promoted pair into the combined body. -/
theorem branchSplitLoop_ok (k : Bytes) (c : Nat) :
    ∀ (fuel : Nat) (old new o n2 : List (Bytes × Nat)),
    branchSplitLoop fuel old new k c = BRes.ok (o, n2) →
    SortedBPairs (new ++ old) → (∀ q ∈ new ++ old, q.1 ≠ k) →
    (∀ q ∈ new, bytesLT q.1 k) →
    n2 ++ o = insertBSorted k c (new ++ old) := by
  intro fuel
  induction fuel with
  | zero =>
    intro old new o n2 hok _ _ _
    rw [branchSplitLoop] at hok
    simp at hok
  | succ f ih =>
    intro old new o n2 hok hsort hfresh hnewlt
    rw [branchSplitLoop_succ] at hok
    by_cases hhf : 2 * branchFreeSpace new < (branchCapacity : Int)
    · rw [if_pos hhf] at hok
      have hsortold : SortedBPairs old := (List.pairwise_append.mp hsort).2.1
      have hfreshold : ∀ q ∈ old, q.1 ≠ k :=
        fun q hq => hfresh q (List.mem_append.mpr (Or.inr hq))
      have hspec := branchSearchSlotId_spec old k hsortold
      have hmiss : (branchSearchSlotId old k).2 = false := by
        by_cases hfd : (branchSearchSlotId old k).2 = true
        · exfalso
          obtain ⟨hlt, heq⟩ := hspec.2.1 hfd
          have hmem : old.getD (branchSearchSlotId old k).1 ([], 0) ∈ old := by
            rw [List.getD_eq_getElem old ([], 0) hlt]
            exact List.getElem_mem hlt
          exact hfreshold _ hmem heq
        · simpa using hfd
      cases hins : branchInsertGo old (branchSearchSlotId old k).1 k c with
      | none => rw [hins] at hok; simp at hok
      | some old2 =>
        rw [hins] at hok
        simp only [] at hok
        simp only [BRes.ok.injEq, Prod.mk.injEq] at hok
        have hold2 : old2 = old.insertIdx (branchSearchSlotId old k).1 (k, c) := by
          unfold branchInsertGo at hins
          by_cases h1 : branchCapacity / 2 - 4 < bpairSize (k, c)
          · rw [if_pos h1] at hins; simp at hins
          · rw [if_neg h1] at hins
            by_cases h2 : branchFreeSpace old < 4 + (bpairSize (k, c) : Int)
            · rw [if_pos h2] at hins; simp at hins
            · rw [if_neg h2] at hins
              simpa using hins.symm
        have hpoint := insertIdxB_insertion_point k c old (branchSearchSlotId old k).1
          hspec.1 (hspec.2.2 hmiss).1 (hspec.2.2 hmiss).2
        rw [← hok.1, ← hok.2, hold2, hpoint,
          insertBSorted_append_left k c new old hnewlt]
    · rw [if_neg hhf] at hok
      cases old with
      | nil => simp at hok
      | cons p rest =>
        simp only [] at hok
        by_cases hcmp : compareBytes p.1 k < 0
        · rw [if_pos hcmp] at hok
          have hplt : bytesLT p.1 k := (compareBytes_lt_iff _ _).mp hcmp
          by_cases hsp : branchFreeSpace new < 4 + (bpairSize p : Int)
          · rw [if_pos hsp] at hok
            simp at hok
          · rw [if_neg hsp] at hok
            have hassoc : (new ++ [p]) ++ rest = new ++ p :: rest := by simp
            have := ih rest (new ++ [p]) o n2 hok
              (by rw [hassoc]; exact hsort)
              (by rw [hassoc]; exact hfresh)
              (by
                intro q hq
                rcases List.mem_append.mp hq with hq | hq
                · exact hnewlt q hq
                · rw [List.mem_singleton.mp hq]; exact hplt)
            rw [hassoc] at this
            exact this
        · rw [if_neg hcmp] at hok
          have hpgt : bytesLT k p.1 := by
            rcases bytesLT_trichotomy p.1 k with h1 | h1 | h1
            · exact absurd ((compareBytes_lt_iff _ _).mpr h1) hcmp
            · exact absurd h1
                (hfresh p (List.mem_append.mpr (Or.inr (List.mem_cons_self _ _))))
            · exact h1
          cases hins : branchInsertGo new new.length k c with
          | none => rw [hins] at hok; simp at hok
          | some new2 =>
            rw [hins] at hok
            simp only [] at hok
            have hnew2 : new2 = new ++ [(k, c)] := by
              unfold branchInsertGo at hins
              by_cases h1 : branchCapacity / 2 - 4 < bpairSize (k, c)
              · rw [if_pos h1] at hins; simp at hins
              · rw [if_neg h1] at hins
                by_cases h2 : branchFreeSpace new < 4 + (bpairSize (k, c) : Int)
                · rw [if_pos h2] at hins; simp at hins
                · rw [if_neg h2] at hins
                  rw [← insertIdx_self_append]
                  simpa using hins.symm
            obtain ⟨moved, hmo, hnn⟩ := branchTransferLoop_ok _ _ _ _ _ hok
            rw [hnn, hnew2]
            rw [insertBSorted_append_left k c new (p :: rest) hnewlt]
            have hrest : insertBSorted k c (p :: rest) = (k, c) :: p :: rest := by
              rw [insertBSorted, if_neg (bytesLT_asymm hpgt)]
            rw [hrest, hmo]
            simp

/-- `Leaf.SplitInsert` on success: the combined result is sorted insertion,
split into a nonempty left (new) leaf strictly below the promoted key and a
nonempty right (old) leaf starting with it. -/
theorem leafSplitInsert_ok (old : List (Bytes × Bytes)) (k v : Bytes)
    (o n2 : List (Bytes × Bytes)) (pk : Bytes)
    (hok : leafSplitInsert old k v = BRes.ok (o, n2, pk))
    (hsort : SortedPairs old) (hfresh : ∀ q ∈ old, q.1 ≠ k) :
    n2 ++ o = insertSorted k v old ∧ SortedPairs (n2 ++ o) ∧
    n2 ≠ [] ∧ (∃ v0 t, o = (pk, v0) :: t) ∧
    (∀ q ∈ n2, bytesLT q.1 pk) ∧ (∀ q ∈ o, lbLE (some pk) q.1) := by
  unfold leafSplitInsert at hok
  cases hloop : leafSplitLoop (old.length + 2) old [] k v with
  | dup => rw [hloop] at hok; simp at hok
  | crash m => rw [hloop] at hok; simp at hok
  | ok pr =>
    obtain ⟨o', n'⟩ := pr
    rw [hloop] at hok
    simp only [] at hok
    cases o' with
    | nil => simp at hok
    | cons q t =>
      simp only [BRes.ok.injEq, Prod.mk.injEq] at hok
      obtain ⟨ho, hn, hpk⟩ := hok
      obtain ⟨heq, hne⟩ := leafSplitLoop_ok k v (old.length + 2) old [] (q :: t) n' hloop
        (by simpa using hsort) (by simpa using hfresh) (by simp)
      rw [List.nil_append] at heq
      subst ho hn hpk
      have hsorted2 : SortedPairs (n' ++ q :: t) := by
        rw [heq]
        exact insertSorted_sorted _ v old hsort hfresh
      refine ⟨heq, hsorted2, hne, ⟨q.2, t, rfl⟩, ?_, ?_⟩
      · intro x hx
        exact (List.pairwise_append.mp hsorted2).2.2 x hx q (List.mem_cons_self _ _)
      · intro x hx
        rcases List.mem_cons.mp hx with hx | hx
        · subst hx
          exact Or.inl rfl
        · exact Or.inr ((List.pairwise_cons.mp
            ((List.pairwise_append.mp hsorted2).2.1)).1 x hx)

/-- `InternalNode.SplitInsert` on success: the left (new) body, the promoted
pair, and the right (old) body concatenate to sorted insertion of the
inserted pair. -/
theorem branchSplitInsert_ok (old : List (Bytes × Nat)) (pk : Bytes) (npid : Nat)
    (o n2i : List (Bytes × Nat)) (nrc : Nat) (pk2 : Bytes)
    (hok : branchSplitInsert old pk npid = BRes.ok (o, n2i, nrc, pk2))
    (hsort : SortedBPairs old) (hfresh : ∀ q ∈ old, q.1 ≠ pk) :
    n2i ++ (pk2, nrc) :: o = insertBSorted pk npid old := by
  unfold branchSplitInsert at hok
  cases hloop : branchSplitLoop (old.length + 2) old [] pk npid with
  | dup => rw [hloop] at hok; simp at hok
  | crash m => rw [hloop] at hok; simp at hok
  | ok pr =>
    obtain ⟨o', n'⟩ := pr
    rw [hloop] at hok
    simp only [] at hok
    unfold fillRightChild at hok
    cases hlast : n'.getLast? with
    | none => rw [hlast] at hok; simp at hok
    | some q =>
      rw [hlast] at hok
      simp only [BRes.ok.injEq, Prod.mk.injEq] at hok
      obtain ⟨ho, hn, hrc, hk⟩ := hok
      obtain ⟨l', hl'⟩ := List.getLast?_eq_some_iff.mp hlast
      have heq := branchSplitLoop_ok pk npid (old.length + 2) old [] o' n' hloop
        (by simpa using hsort) (by simpa using hfresh) (by simp)
      rw [List.nil_append] at heq
      have hdrop : n'.dropLast = l' := by
        rw [hl']
        exact List.dropLast_concat
      have hq : q = (pk2, nrc) := by
        have h1 : q.1 = pk2 := hk
        have h2 : q.2 = nrc := hrc
        exact Prod.ext h1 h2
      rw [← ho, ← hn, hdrop, ← hq, ← heq, hl']
      simp

/-! ## Chain maintenance through a leaf split -/

/-- The exact link effect of a leaf split: the new left sibling `newPid`
takes the split leaf's old `prev`, points at the split leaf `L`, `L` points
back at it, the old previous leaf's `next` is redirected to `newPid`, and
every other page's links are untouched. -/
def SplitLinkUpdate (st st1 : BStore) (L newPid : Nat) : Prop :=
  leafPrevAt st1 L = some newPid ∧
  leafNextAt st1 L = leafNextAt st L ∧
  leafPrevAt st1 newPid = leafPrevAt st L ∧
  leafNextAt st1 newPid = some L ∧
  (∀ P, leafPrevAt st L = some P → P ≠ L →
      (∃ pp nn prs, st.pages.get? P = some (BNode.leaf pp nn prs)) →
      leafNextAt st1 P = some newPid ∧ leafPrevAt st1 P = leafPrevAt st P) ∧
  (∀ q, q ≠ L → q ≠ newPid → leafPrevAt st L ≠ some q →
      leafPrevAt st1 q = leafPrevAt st q ∧ leafNextAt st1 q = leafNextAt st q)

/-- A chain survives any update that leaves its members' links alone. -/
theorem chainFrom_congr (st st1 : BStore) : ∀ (l : List Nat) (prev : Option Nat),
    ChainFrom st prev l →
    (∀ q ∈ l, leafPrevAt st1 q = leafPrevAt st q ∧ leafNextAt st1 q = leafNextAt st q) →
    ChainFrom st1 prev l := by
  intro l
  induction l with
  | nil => intro prev _ _; trivial
  | cons x rest ih =>
    intro prev hc hsame
    obtain ⟨hp, hn, hrest⟩ := hc
    obtain ⟨hp1, hn1⟩ := hsame x (List.mem_cons_self _ _)
    exact ⟨hp1.trans hp, hn1.trans hn,
      ih (some x) hrest (fun q hq => hsame q (List.mem_cons.mpr (Or.inr hq)))⟩

/-- In a linked chain, a leaf's `PrevPageID` is the chain's entry `prev` when
nothing precedes it, and otherwise some member of the prefix. -/
theorem chainFrom_prev (st : BStore) (L : Nat) (post : List Nat) :
    ∀ (xs : List Nat) (prev : Option Nat),
    ChainFrom st prev (xs ++ L :: post) →
    (xs = [] ∧ leafPrevAt st L = prev) ∨ (∃ x ∈ xs, leafPrevAt st L = some x) := by
  intro xs
  induction xs with
  | nil =>
    intro prev hc
    exact Or.inl ⟨rfl, hc.1⟩
  | cons x rest ih =>
    intro prev hc
    rcases ih (some x) hc.2.2 with ⟨hre, hpl⟩ | ⟨y, hy, hpl⟩
    · exact Or.inr ⟨x, List.mem_cons_self _ _, hpl⟩
    · exact Or.inr ⟨y, List.mem_cons.mpr (Or.inr hy), hpl⟩

/-- Splicing the split's new left sibling into the chain. -/
theorem chainFrom_split_update (st st1 : BStore) (L newPid : Nat) (post : List Nat)
    (hupd : SplitLinkUpdate st st1 L newPid) :
    ∀ (pre : List Nat) (prev : Option Nat),
    ChainFrom st prev (pre ++ L :: post) →
    (pre ++ L :: post).Nodup →
    newPid ∉ pre ++ L :: post →
    (∀ x ∈ pre, ∃ pp nn prs, st.pages.get? x = some (BNode.leaf pp nn prs)) →
    (∀ x, leafPrevAt st L = some x → x ∉ L :: post ∧ x ≠ newPid) →
    (∀ x, prev = some x → x ∉ L :: post ∧ x ≠ newPid) →
    ChainFrom st1 prev (pre ++ newPid :: L :: post) := by
  obtain ⟨huL, huLn, huNp, huNn, huP, huQ⟩ := hupd
  intro pre
  induction pre with
  | nil =>
    intro prev hc hnodup hnew _ hPL hprev
    obtain ⟨hp, hn, hrest⟩ := hc
    refine ⟨?_, ?_, ?_, ?_, ?_⟩
    · rw [huNp, hp]
    · rw [huNn]
      rfl
    · exact huL
    · rw [huLn, hn]
    · refine chainFrom_congr st st1 post (some L) hrest ?_
      intro q hq
      have hqL : q ≠ L := by
        intro hcon
        subst hcon
        exact (List.nodup_cons.mp hnodup).1 hq
      have hqN : q ≠ newPid := by
        intro hcon
        subst hcon
        exact hnew (List.mem_cons.mpr (Or.inr hq))
      have hqP : leafPrevAt st L ≠ some q := by
        intro hcon
        exact (hPL q hcon).1 (List.mem_cons.mpr (Or.inr hq))
      exact huQ q hqL hqN hqP
  | cons x rest ih =>
    intro prev hc hnodup hnew hlty hPL hprev
    obtain ⟨hp, hn, hrest⟩ := hc
    have hnodup2 : (x :: (rest ++ L :: post)).Nodup := hnodup
    obtain ⟨hxnin, hnodtail⟩ := List.nodup_cons.mp hnodup2
    have hxL : x ≠ L := by
      intro hcon
      exact hxnin (List.mem_append.mpr (Or.inr (hcon ▸ List.mem_cons_self _ _)))
    have hxN : x ≠ newPid := by
      intro hcon
      exact hnew (hcon ▸ List.mem_cons_self _ _)
    have hxprev : leafPrevAt st1 x = leafPrevAt st x := by
      by_cases hxP : leafPrevAt st L = some x
      · exact (huP x hxP hxL (hlty x (List.mem_cons_self _ _))).2
      · exact (huQ x hxL hxN hxP).1
    refine ⟨hxprev.trans hp, ?_, ?_⟩
    · cases rest with
      | nil =>
        have hPx : leafPrevAt st L = some x := hrest.1
        rw [(huP x hPx hxL (hlty x (List.mem_cons_self _ _))).1]
        rfl
      | cons y rest2 =>
        have hxPne : leafPrevAt st L ≠ some x := by
          intro hcon
          rcases chainFrom_prev st L post (y :: rest2) (some x) hrest with ⟨h1, _⟩ | ⟨z, hz, hpl⟩
          · simp at h1
          · rw [hpl] at hcon
            have hzx : z = x := Option.some.inj hcon
            subst hzx
            exact hxnin (List.mem_append.mpr (Or.inl hz))
        rw [(huQ x hxL hxN hxPne).2, hn]
        rfl
    · refine ih (some x) hrest hnodtail ?_
        (fun y hy => hlty y (List.mem_cons.mpr (Or.inr hy))) hPL ?_
      · intro hcon
        exact hnew (List.mem_cons.mpr (Or.inr hcon))
      · intro z hz
        have hzx : x = z := Option.some.inj hz
        subst hzx
        constructor
        · intro hcon
          exact hxnin (List.mem_append.mpr (Or.inr hcon))
        · exact hxN

theorem sameShape_refl (x : Option BNode) : sameShape x x := by
  match x with
  | none => trivial
  | some (BNode.leaf p n prs) => exact rfl
  | some (BNode.branch b rc) => exact ⟨rfl, rfl⟩

theorem sameShape_trans (x y z : Option BNode) (h1 : sameShape x y) (h2 : sameShape y z) :
    sameShape x z := by
  match x, y, z with
  | none, none, none => trivial
  | some (BNode.leaf _ _ _), some (BNode.leaf _ _ _), some (BNode.leaf _ _ _) =>
    exact h2.trans h1
  | some (BNode.branch _ _), some (BNode.branch _ _), some (BNode.branch _ _) =>
    exact ⟨h2.1.trans h1.1, h2.2.trans h1.2⟩

theorem leafPairsAt_of_sameShape (st st1 : BStore) (l : Nat)
    (h : sameShape (st.pages.get? l) (st1.pages.get? l)) :
    leafPairsAt st1 l = leafPairsAt st l := by
  unfold leafPairsAt
  match h1 : st.pages.get? l, h2 : st1.pages.get? l with
  | none, none => rfl
  | none, some nd => rw [h1, h2] at h; simp [sameShape] at h
  | some nd, none => rw [h1, h2] at h; simp [sameShape] at h
  | some (BNode.leaf p n prs), some (BNode.leaf p2 n2 prs2) =>
    rw [h1, h2] at h
    exact h
  | some (BNode.leaf _ _ _), some (BNode.branch _ _) => rw [h1, h2] at h; simp [sameShape] at h
  | some (BNode.branch _ _), some (BNode.leaf _ _ _) => rw [h1, h2] at h; simp [sameShape] at h
  | some (BNode.branch _ _), some (BNode.branch _ _) => rfl

theorem chainPairs_congr (st st1 : BStore) : ∀ (ls : List Nat),
    (∀ l ∈ ls, sameShape (st.pages.get? l) (st1.pages.get? l)) →
    chainPairs st1 ls = chainPairs st ls := by
  intro ls
  induction ls with
  | nil => intro _; rfl
  | cons x rest ih =>
    intro h
    unfold chainPairs
    rw [List.flatMap_cons, List.flatMap_cons]
    rw [leafPairsAt_of_sameShape st st1 x (h x (List.mem_cons_self _ _))]
    have := ih (fun l hl => h l (List.mem_cons.mpr (Or.inr hl)))
    unfold chainPairs at this
    rw [this]

/-- The branch-body invariant survives shape-preserving updates. -/
theorem branchOK_frame (st st2 : BStore) (h : Nat) :
    ∀ (bp : List (Bytes × Nat)) lo rc hi ns ls,
    BranchOK (fun c lo3 hi3 ns3 ls3 => SubtreeOK st h c lo3 hi3 ns3 ls3) lo bp rc hi ns ls →
    (∀ p ∈ ns, sameShape (st.pages.get? p) (st2.pages.get? p)) →
    BranchOK (fun c lo3 hi3 ns3 ls3 => SubtreeOK st2 h c lo3 hi3 ns3 ls3) lo bp rc hi ns ls := by
  intro bp
  induction bp with
  | nil =>
    intro lo rc hi ns ls hb hsh
    exact subtreeOK_frame st st2 h rc lo hi ns ls hb hsh
  | cons q rest ih =>
    intro lo rc hi ns ls hb hsh
    obtain ⟨k, c⟩ := q
    obtain ⟨hklo, hkhi, n1, l1, n2, l2, hn, hl, hc, hrest⟩ := hb
    subst hn
    exact ⟨hklo, hkhi, n1, l1, n2, l2, rfl, hl,
      subtreeOK_frame st st2 h c lo (some k) n1 l1 hc
        (fun p hp => hsh p (List.mem_append.mpr (Or.inl hp))),
      ih (some k) rc hi n2 l2 hrest
        (fun p hp => hsh p (List.mem_append.mpr (Or.inr hp)))⟩

/-- Cutting a branch body at one of its pairs splits it into two well-formed
bodies around the pair's separator. -/
theorem branchOK_cut (sub : Nat → Option Bytes → Option Bytes → List Nat → List Nat → Prop) :
    ∀ (xs : List (Bytes × Nat)) (lo : Option Bytes) (pk : Bytes) (c : Nat)
      (ys : List (Bytes × Nat)) (rc : Nat) (hi : Option Bytes) (ns ls : List Nat),
    BranchOK sub lo (xs ++ (pk, c) :: ys) rc hi ns ls →
    ∃ n1 l1 n2 l2, ns = n1 ++ n2 ∧ ls = l1 ++ l2 ∧
      BranchOK sub lo xs c (some pk) n1 l1 ∧
      BranchOK sub (some pk) ys rc hi n2 l2 ∧ lbLT lo pk ∧ ubGT hi pk := by
  intro xs
  induction xs with
  | nil =>
    intro lo pk c ys rc hi ns ls hb
    obtain ⟨hklo, hkhi, n1, l1, n2, l2, hn, hl, hc, hrest⟩ := hb
    exact ⟨n1, l1, n2, l2, hn, hl, hc, hrest, hklo, hkhi⟩
  | cons q rest ih =>
    intro lo pk c ys rc hi ns ls hb
    obtain ⟨k0, c0⟩ := q
    obtain ⟨hklo, hkhi, n1, l1, n2, l2, hn, hl, hc, hrest⟩ := hb
    obtain ⟨m1, j1, m2, j2, hmn, hml, hbl, hbr, hplo, hphi⟩ :=
      ih (some k0) pk c ys rc hi n2 l2 hrest
    refine ⟨n1 ++ m1, l1 ++ j1, m2, j2,
      by rw [hn, hmn, List.append_assoc],
      by rw [hl, hml, List.append_assoc],
      ⟨hklo, hplo, n1, l1, m1, j1, rfl, rfl, hc, hbl⟩, hbr, ?_, hphi⟩
    cases lo with
    | none => trivial
    | some l => exact bytesLT_trans _ _ _ hklo hplo

/-- In a sorted body obtained by inserting a pair, no original pair shares
the inserted key. -/
theorem insertIdx_fresh_key (l : List (Bytes × Nat)) (i : Nat) (pk : Bytes) (c : Nat)
    (hi : i ≤ l.length) (hs : SortedBPairs (l.insertIdx i (pk, c))) :
    ∀ q ∈ l, q.1 ≠ pk := by
  intro q hq hcon
  have hperm : (l.insertIdx i (pk, c)).Perm ((pk, c) :: l) := List.perm_insertIdx _ _ hi
  have hne : (l.insertIdx i (pk, c)).Pairwise (fun a b => a.1 ≠ b.1) :=
    hs.imp (fun hab => bytesLT_ne hab)
  have hne2 : ((pk, c) :: l).Pairwise (fun a b : Bytes × Nat => a.1 ≠ b.1) :=
    (hperm.pairwise_iff (fun hab => Ne.symm hab)).mp hne
  exact (List.pairwise_cons.mp hne2).1 q hq hcon.symm

/-- Sorted insertion never yields the empty list. -/
theorem insertSorted_ne_nil (k v : Bytes) : ∀ (l : List (Bytes × Bytes)),
    insertSorted k v l ≠ [] := by
  intro l
  cases l with
  | nil => simp [insertSorted]
  | cons x rest =>
    rw [insertSorted]
    by_cases hx : bytesLT x.1 k
    · rw [if_pos hx]; simp
    · rw [if_neg hx]; simp

/-- The leaves of a well-formed branch body are among its nodes. -/
theorem branchOK_leaves_mem (st : BStore) (h : Nat) :
    ∀ (bp : List (Bytes × Nat)) lo rc hi ns ls,
    BranchOK (fun c lo3 hi3 ns3 ls3 => SubtreeOK st h c lo3 hi3 ns3 ls3) lo bp rc hi ns ls →
    ∀ l ∈ ls, l ∈ ns := by
  intro bp
  induction bp with
  | nil =>
    intro lo rc hi ns ls hb
    exact (subtreeOK_facts st h rc lo hi ns ls hb).2.2.1
  | cons q rest ih =>
    intro lo rc hi ns ls hb l hl
    obtain ⟨k, c⟩ := q
    obtain ⟨_, _, n1, l1, n2, l2, hn, hle, hc, hrest⟩ := hb
    subst hn hle
    rcases List.mem_append.mp hl with hl | hl
    · exact List.mem_append.mpr
        (Or.inl ((subtreeOK_facts st h c lo (some k) n1 l1 hc).2.2.1 l hl))
    · exact List.mem_append.mpr (Or.inr (ih (some k) rc hi n2 l2 hrest l hl))

/-- Leaf links read only the page, so equal pages give equal links. -/
theorem leafLinksAt_congr (st st1 : BStore) (q : Nat)
    (h : st1.pages.get? q = st.pages.get? q) :
    leafPrevAt st1 q = leafPrevAt st q ∧ leafNextAt st1 q = leafNextAt st q := by
  unfold leafPrevAt leafNextAt
  rw [h]
  exact ⟨rfl, rfl⟩

/-- Rewriting a leaf's payload in place (keeping its links) changes no link. -/
theorem linksEq_set_leaf (st : BStore) (pid : Nat) (p0 n0 : Option Nat)
    (prs0 prs2 : List (Bytes × Bytes)) (r : Nat)
    (hpg : st.pages.get? pid = some (BNode.leaf p0 n0 prs0)) :
    ∀ q, leafPrevAt ⟨st.pages.set pid (BNode.leaf p0 n0 prs2), r⟩ q = leafPrevAt st q ∧
      leafNextAt ⟨st.pages.set pid (BNode.leaf p0 n0 prs2), r⟩ q = leafNextAt st q := by
  intro q
  by_cases hq : pid = q
  · subst hq
    obtain ⟨hlt, _⟩ := List.get?_eq_some.mp hpg
    unfold leafPrevAt leafNextAt
    simp only []
    rw [List.get?_set_eq_of_lt _ hlt, hpg]
    exact ⟨rfl, rfl⟩
  · exact leafLinksAt_congr st _ q (List.get?_set_ne _ _ hq)

/-- Replacing a branch page by another branch changes no leaf link. -/
theorem linksEq_set_branch (st : BStore) (pid : Nat) (b0 : List (Bytes × Nat)) (rc0 : Nat)
    (b : List (Bytes × Nat)) (rc : Nat) (r : Nat)
    (hpg : st.pages.get? pid = some (BNode.branch b0 rc0)) :
    ∀ q, leafPrevAt ⟨st.pages.set pid (BNode.branch b rc), r⟩ q = leafPrevAt st q ∧
      leafNextAt ⟨st.pages.set pid (BNode.branch b rc), r⟩ q = leafNextAt st q := by
  intro q
  by_cases hq : pid = q
  · subst hq
    obtain ⟨hlt, _⟩ := List.get?_eq_some.mp hpg
    unfold leafPrevAt leafNextAt
    simp only []
    rw [List.get?_set_eq_of_lt _ hlt, hpg]
    exact ⟨rfl, rfl⟩
  · exact leafLinksAt_congr st _ q (List.get?_set_ne _ _ hq)

/-- Appending a branch page changes no leaf link. -/
theorem linksEq_append_branch (pgs : List BNode) (r r2 : Nat)
    (b : List (Bytes × Nat)) (rc : Nat) :
    ∀ q, leafPrevAt ⟨pgs ++ [BNode.branch b rc], r⟩ q = leafPrevAt ⟨pgs, r2⟩ q ∧
      leafNextAt ⟨pgs ++ [BNode.branch b rc], r⟩ q = leafNextAt ⟨pgs, r2⟩ q := by
  intro q
  rcases Nat.lt_trichotomy q pgs.length with hq | hq | hq
  · exact leafLinksAt_congr ⟨pgs, r2⟩ _ q (List.get?_append hq)
  · subst hq
    unfold leafPrevAt leafNextAt
    simp only []
    rw [List.get?_concat_length, List.get?_eq_none.mpr (le_refl _)]
    exact ⟨rfl, rfl⟩
  · unfold leafPrevAt leafNextAt
    simp only []
    rw [List.get?_eq_none.mpr (by simp; omega), List.get?_eq_none.mpr (by omega)]
    exact ⟨rfl, rfl⟩

/-- `SplitLinkUpdate` composes with a link-preserving further update. -/
theorem splitLinkUpdate_congr (st stc st1 : BStore) (L n : Nat)
    (h : SplitLinkUpdate st stc L n)
    (hq : ∀ q, leafPrevAt st1 q = leafPrevAt stc q ∧ leafNextAt st1 q = leafNextAt stc q) :
    SplitLinkUpdate st st1 L n := by
  obtain ⟨h1, h2, h3, h4, h5, h6⟩ := h
  refine ⟨(hq L).1.trans h1, (hq L).2.trans h2, (hq n).1.trans h3, (hq n).2.trans h4, ?_, ?_⟩
  · intro P hP hPL hPleaf
    obtain ⟨ha, hb⟩ := h5 P hP hPL hPleaf
    exact ⟨(hq P).2.trans ha, (hq P).1.trans hb⟩
  · intro q hqL hqN hqP
    obtain ⟨ha, hb⟩ := h6 q hqL hqN hqP
    exact ⟨(hq q).1.trans ha, (hq q).2.trans hb⟩

theorem insertInternalGo_succ (fuel : Nat) (st : BStore) (pid : Nat) (key value : Bytes) :
    insertInternalGo (fuel + 1) st pid key value =
      (match st.pages.get? pid with
      | none => BRes.crash "fetch failed"
      | some (BNode.leaf prevId nextId pairs) =>
        if (leafSearchSlotID pairs key).2 then BRes.dup
        else
          match leafInsertGo pairs (leafSearchSlotID pairs key).1 key value with
          | some pairs2 =>
            BRes.ok (⟨st.pages.set pid (BNode.leaf prevId nextId pairs2), st.root⟩, none)
          | none => leafSplitStep st pid prevId nextId pairs key value
      | some (BNode.branch bpairs rightChild) =>
        match insertInternalGo fuel st
            (childAt bpairs rightChild (branchSearchChildIdx bpairs key)) key value with
        | BRes.dup => BRes.dup
        | BRes.crash m => BRes.crash m
        | BRes.ok (_, none) => BRes.crash "unknown node type"
        | BRes.ok (st1, some (okey, opid)) =>
          match branchInsertGo bpairs (branchSearchChildIdx bpairs key) okey opid with
          | some bpairs2 =>
            BRes.ok (⟨st1.pages.set pid (BNode.branch bpairs2 rightChild), st1.root⟩, none)
          | none =>
            match branchSplitInsert bpairs okey opid with
            | BRes.ok (oldP, newP, newRC, pk) =>
              BRes.ok (⟨(st1.pages.set pid (BNode.branch oldP rightChild)) ++
                  [BNode.branch newP newRC], st1.root⟩,
                some (pk, st1.pages.length))
            | BRes.dup => BRes.dup
            | BRes.crash m => BRes.crash m) := rfl

theorem leafPrevAt_of_get (st : BStore) (q : Nat) (p n : Option Nat)
    (prs : List (Bytes × Bytes)) (h : st.pages.get? q = some (BNode.leaf p n prs)) :
    leafPrevAt st q = p := by
  unfold leafPrevAt
  rw [h]

theorem leafNextAt_of_get (st : BStore) (q : Nat) (p n : Option Nat)
    (prs : List (Bytes × Bytes)) (h : st.pages.get? q = some (BNode.leaf p n prs)) :
    leafNextAt st q = n := by
  unfold leafNextAt
  rw [h]

theorem leafPairsAt_of_get (st : BStore) (q : Nat) (p n : Option Nat)
    (prs : List (Bytes × Bytes)) (h : st.pages.get? q = some (BNode.leaf p n prs)) :
    leafPairsAt st q = prs := by
  unfold leafPairsAt
  rw [h]

theorem leafPrevAt_of_none (st : BStore) (q : Nat) (h : st.pages.get? q = none) :
    leafPrevAt st q = none := by
  unfold leafPrevAt
  rw [h]

theorem leafNextAt_of_none (st : BStore) (q : Nat) (h : st.pages.get? q = none) :
    leafNextAt st q = none := by
  unfold leafNextAt
  rw [h]

theorem get?_concat_at {α : Type} (l : List α) (a : α) (n : Nat) (h : n = l.length) :
    (l ++ [a]).get? n = some a := by
  rw [h, List.get?_concat_length]

theorem sameShape_of_get_eq (x y : Option BNode) (h : y = x) : sameShape x y := by
  rw [h]
  exact sameShape_refl x

/-- Anatomy of the leaf split arm of `insertInternal`, conditioned on
success: it returns the promoted key with the fresh page ID, replaces the
split leaf by two sorted nonempty halves whose concatenation is sorted
insertion of the new pair, and performs exactly the split's link update. -/
theorem leafSplitStep_preserves (st : BStore) (pid : Nat) (prevId nextId : Option Nat)
    (pairs : List (Bytes × Bytes)) (K v : Bytes) (lo hi : Option Bytes)
    (st1 : BStore) (ovf : Option (Bytes × Nat))
    (hpg : st.pages.get? pid = some (BNode.leaf prevId nextId pairs))
    (hsort : SortedPairs pairs)
    (hbnd : ∀ q ∈ pairs, lbLE lo q.1 ∧ ubGT hi q.1)
    (hfresh : ∀ q ∈ pairs, q.1 ≠ K)
    (hlo : lbLE lo K) (hhi : ubGT hi K)
    (hpid : pid < st.pages.length)
    (hprevne : prevId ≠ some pid)
    (hok : leafSplitStep st pid prevId nextId pairs K v = BRes.ok (st1, ovf)) :
    ∃ okey,
      ovf = some (okey, st.pages.length) ∧
      st1.pages.length = st.pages.length + 1 ∧
      st1.root = st.root ∧
      (∀ p, p ≠ pid → p < st.pages.length →
          sameShape (st.pages.get? p) (st1.pages.get? p)) ∧
      SubtreeOK st1 0 st.pages.length lo (some okey) [st.pages.length] [st.pages.length] ∧
      SubtreeOK st1 0 pid (some okey) hi [pid] [pid] ∧
      lbLT lo okey ∧ ubGT hi okey ∧
      SplitLinkUpdate st st1 pid st.pages.length ∧
      leafPairsAt st1 st.pages.length ≠ [] ∧ leafPairsAt st1 pid ≠ [] ∧
      leafPairsAt st1 st.pages.length ++ leafPairsAt st1 pid = insertSorted K v pairs := by
  unfold leafSplitStep at hok
  by_cases hguard : prevId.all (fun pp => decide (pp < st.pages.length)) = true
  · rw [if_pos hguard] at hok
    cases hsp : leafSplitInsert pairs K v with
    | dup => rw [hsp] at hok; simp at hok
    | crash m => rw [hsp] at hok; simp at hok
    | ok res =>
      obtain ⟨oldPairs, newPairs, okey⟩ := res
      rw [hsp] at hok
      simp only [] at hok
      obtain ⟨heq, hsorted2, hnne, ⟨v0, t, hold⟩, hnlt, hole⟩ :=
        leafSplitInsert_ok pairs K v oldPairs newPairs okey hsp hsort hfresh
      have hbnd2 : ∀ q ∈ insertSorted K v pairs, lbLE lo q.1 ∧ ubGT hi q.1 := by
        intro q hq
        rcases (insertSorted_mem K v pairs q).mp hq with hq | hq
        · subst hq; exact ⟨hlo, hhi⟩
        · exact hbnd q hq
      have hmemN : ∀ q ∈ newPairs, q ∈ insertSorted K v pairs := by
        intro q hq
        rw [← heq]
        exact List.mem_append.mpr (Or.inl hq)
      have hmemO : ∀ q ∈ oldPairs, q ∈ insertSorted K v pairs := by
        intro q hq
        rw [← heq]
        exact List.mem_append.mpr (Or.inr hq)
      have hsortN : SortedPairs newPairs := (List.pairwise_append.mp hsorted2).1
      have hsortO : SortedPairs oldPairs := (List.pairwise_append.mp hsorted2).2.1
      have hlbokey : lbLT lo okey := by
        cases hq0 : newPairs with
        | nil => exact absurd hq0 hnne
        | cons q0 t0 =>
          have hq0m : q0 ∈ newPairs := by rw [hq0]; exact List.mem_cons_self _ _
          have h1 : lbLE lo q0.1 := (hbnd2 q0 (hmemN q0 hq0m)).1
          have h2 : bytesLT q0.1 okey := hnlt q0 hq0m
          cases lo with
          | none => trivial
          | some l =>
            rcases h1 with h1 | h1
            · exact h1 ▸ h2
            · exact bytesLT_trans _ _ _ h1 h2
      have hubokey : ubGT hi okey := by
        have hm : (okey, v0) ∈ oldPairs := by rw [hold]; exact List.mem_cons_self _ _
        exact (hbnd2 _ (hmemO _ hm)).2
      have hPrev_st : leafPrevAt st pid = prevId := leafPrevAt_of_get st pid _ _ _ hpg
      have hNext_st : leafNextAt st pid = nextId := leafNextAt_of_get st pid _ _ _ hpg
      cases prevId with
      | none =>
        simp only [] at hok
        simp only [BRes.ok.injEq, Prod.mk.injEq] at hok
        obtain ⟨hst1, hovf⟩ := hok
        subst hst1
        subst hovf
        have hget_pid : (⟨st.pages.set pid (BNode.leaf (some st.pages.length) nextId oldPairs)
              ++ [BNode.leaf none (some pid) newPairs], st.root⟩ : BStore).pages.get? pid
            = some (BNode.leaf (some st.pages.length) nextId oldPairs) := by
          show (st.pages.set pid (BNode.leaf (some st.pages.length) nextId oldPairs)
              ++ [BNode.leaf none (some pid) newPairs]).get? pid = _
          rw [List.get?_append (by simpa using hpid), List.get?_set_eq_of_lt _ hpid]
        have hget_new : (⟨st.pages.set pid (BNode.leaf (some st.pages.length) nextId oldPairs)
              ++ [BNode.leaf none (some pid) newPairs], st.root⟩ : BStore).pages.get?
              st.pages.length
            = some (BNode.leaf none (some pid) newPairs) := by
          show (st.pages.set pid (BNode.leaf (some st.pages.length) nextId oldPairs)
              ++ [BNode.leaf none (some pid) newPairs]).get? st.pages.length = _
          exact get?_concat_at _ _ _ (by simp)
        have hget_oth : ∀ q, q ≠ pid → q < st.pages.length →
            (⟨st.pages.set pid (BNode.leaf (some st.pages.length) nextId oldPairs)
              ++ [BNode.leaf none (some pid) newPairs], st.root⟩ : BStore).pages.get? q
            = st.pages.get? q := by
          intro q hq hlt
          show (st.pages.set pid (BNode.leaf (some st.pages.length) nextId oldPairs)
              ++ [BNode.leaf none (some pid) newPairs]).get? q = _
          rw [List.get?_append (by simpa using hlt),
            List.get?_set_ne _ _ (fun h => hq h.symm)]
        have hget_far : ∀ q, st.pages.length < q →
            (⟨st.pages.set pid (BNode.leaf (some st.pages.length) nextId oldPairs)
              ++ [BNode.leaf none (some pid) newPairs], st.root⟩ : BStore).pages.get? q
            = none := by
          intro q hq
          show (st.pages.set pid (BNode.leaf (some st.pages.length) nextId oldPairs)
              ++ [BNode.leaf none (some pid) newPairs]).get? q = _
          refine List.get?_eq_none.mpr ?_
          simp
          omega
        refine ⟨okey, rfl, by simp, rfl, ?_, ?_, ?_, hlbokey, hubokey, ?_, ?_, ?_, ?_⟩
        · intro p hp hplt
          exact sameShape_of_get_eq _ _ (hget_oth p hp hplt)
        · exact ⟨none, some pid, newPairs, hget_new, hsortN,
            fun q hq => ⟨(hbnd2 q (hmemN q hq)).1, hnlt q hq⟩, rfl, rfl⟩
        · exact ⟨some st.pages.length, nextId, oldPairs, hget_pid, hsortO,
            fun q hq => ⟨hole q hq, (hbnd2 q (hmemO q hq)).2⟩, rfl, rfl⟩
        · refine ⟨leafPrevAt_of_get _ pid _ _ _ hget_pid, ?_, ?_,
            leafNextAt_of_get _ st.pages.length _ _ _ hget_new, ?_, ?_⟩
          · rw [leafNextAt_of_get _ pid _ _ _ hget_pid, hNext_st]
          · rw [leafPrevAt_of_get _ st.pages.length _ _ _ hget_new, hPrev_st]
          · intro P hP hPne hPleaf
            rw [hPrev_st] at hP
            exact absurd hP (by simp)
          · intro q hqL hqN hqP
            rcases Nat.lt_trichotomy q st.pages.length with hq | hq | hq
            · exact leafLinksAt_congr st _ q (hget_oth q hqL hq)
            · exact absurd hq hqN
            · have h1 : st.pages.get? q = none := List.get?_eq_none.mpr (by omega)
              rw [leafPrevAt_of_none _ q (hget_far q hq), leafPrevAt_of_none st q h1,
                leafNextAt_of_none _ q (hget_far q hq), leafNextAt_of_none st q h1]
              exact ⟨rfl, rfl⟩
        · rw [leafPairsAt_of_get _ _ _ _ _ hget_new]
          exact hnne
        · rw [leafPairsAt_of_get _ _ _ _ _ hget_pid, hold]
          simp
        · rw [leafPairsAt_of_get _ _ _ _ _ hget_new, leafPairsAt_of_get _ _ _ _ _ hget_pid]
          exact heq
      | some pp =>
        have hpplt : pp < st.pages.length := by simpa using hguard
        have hppne : pp ≠ pid := fun hcon => hprevne (by rw [hcon])
        have hXs : st.pages.get? pp = some (st.pages.get ⟨pp, hpplt⟩) := List.get?_eq_get hpplt
        simp only [] at hok
        have hgetD : (st.pages.set pid
              (BNode.leaf (some st.pages.length) nextId oldPairs)).getD pp
              (BNode.leaf none none [])
            = st.pages.get ⟨pp, hpplt⟩ := by
          rw [List.getD_eq_get?, List.get?_set_ne _ _ (fun h => hppne h.symm), hXs]
          rfl
        rw [hgetD] at hok
        simp only [BRes.ok.injEq, Prod.mk.injEq] at hok
        obtain ⟨hst1, hovf⟩ := hok
        subst hst1
        subst hovf
        have hget_pid : (⟨(st.pages.set pid
              (BNode.leaf (some st.pages.length) nextId oldPairs)).set pp
              (setLeafNext (st.pages.get ⟨pp, hpplt⟩) st.pages.length)
              ++ [BNode.leaf (some pp) (some pid) newPairs], st.root⟩ : BStore).pages.get? pid
            = some (BNode.leaf (some st.pages.length) nextId oldPairs) := by
          show ((st.pages.set pid
              (BNode.leaf (some st.pages.length) nextId oldPairs)).set pp
              (setLeafNext (st.pages.get ⟨pp, hpplt⟩) st.pages.length)
              ++ [BNode.leaf (some pp) (some pid) newPairs]).get? pid = _
          rw [List.get?_append (by simpa using hpid), List.get?_set_ne _ _ hppne,
            List.get?_set_eq_of_lt _ hpid]
        have hget_new : (⟨(st.pages.set pid
              (BNode.leaf (some st.pages.length) nextId oldPairs)).set pp
              (setLeafNext (st.pages.get ⟨pp, hpplt⟩) st.pages.length)
              ++ [BNode.leaf (some pp) (some pid) newPairs], st.root⟩ : BStore).pages.get?
              st.pages.length
            = some (BNode.leaf (some pp) (some pid) newPairs) := by
          show ((st.pages.set pid
              (BNode.leaf (some st.pages.length) nextId oldPairs)).set pp
              (setLeafNext (st.pages.get ⟨pp, hpplt⟩) st.pages.length)
              ++ [BNode.leaf (some pp) (some pid) newPairs]).get? st.pages.length = _
          exact get?_concat_at _ _ _ (by simp)
        have hget_pp : (⟨(st.pages.set pid
              (BNode.leaf (some st.pages.length) nextId oldPairs)).set pp
              (setLeafNext (st.pages.get ⟨pp, hpplt⟩) st.pages.length)
              ++ [BNode.leaf (some pp) (some pid) newPairs], st.root⟩ : BStore).pages.get? pp
            = some (setLeafNext (st.pages.get ⟨pp, hpplt⟩) st.pages.length) := by
          show ((st.pages.set pid
              (BNode.leaf (some st.pages.length) nextId oldPairs)).set pp
              (setLeafNext (st.pages.get ⟨pp, hpplt⟩) st.pages.length)
              ++ [BNode.leaf (some pp) (some pid) newPairs]).get? pp = _
          rw [List.get?_append (by simpa using hpplt),
            List.get?_set_eq_of_lt _ (by simpa using hpplt)]
        have hget_oth : ∀ q, q ≠ pid → q ≠ pp → q < st.pages.length →
            (⟨(st.pages.set pid
              (BNode.leaf (some st.pages.length) nextId oldPairs)).set pp
              (setLeafNext (st.pages.get ⟨pp, hpplt⟩) st.pages.length)
              ++ [BNode.leaf (some pp) (some pid) newPairs], st.root⟩ : BStore).pages.get? q
            = st.pages.get? q := by
          intro q hq hq2 hlt
          show ((st.pages.set pid
              (BNode.leaf (some st.pages.length) nextId oldPairs)).set pp
              (setLeafNext (st.pages.get ⟨pp, hpplt⟩) st.pages.length)
              ++ [BNode.leaf (some pp) (some pid) newPairs]).get? q = _
          rw [List.get?_append (by simpa using hlt),
            List.get?_set_ne _ _ (fun h => hq2 h.symm),
            List.get?_set_ne _ _ (fun h => hq h.symm)]
        have hget_far : ∀ q, st.pages.length < q →
            (⟨(st.pages.set pid
              (BNode.leaf (some st.pages.length) nextId oldPairs)).set pp
              (setLeafNext (st.pages.get ⟨pp, hpplt⟩) st.pages.length)
              ++ [BNode.leaf (some pp) (some pid) newPairs], st.root⟩ : BStore).pages.get? q
            = none := by
          intro q hq
          show ((st.pages.set pid
              (BNode.leaf (some st.pages.length) nextId oldPairs)).set pp
              (setLeafNext (st.pages.get ⟨pp, hpplt⟩) st.pages.length)
              ++ [BNode.leaf (some pp) (some pid) newPairs]).get? q = _
          refine List.get?_eq_none.mpr ?_
          simp
          omega
        refine ⟨okey, rfl, by simp, rfl, ?_, ?_, ?_, hlbokey, hubokey, ?_, ?_, ?_, ?_⟩
        · intro p hp hplt
          by_cases hppq : p = pp
          · subst hppq
            rw [hXs, hget_pp]
            cases st.pages.get ⟨p, hpplt⟩ with
            | leaf a b c => exact rfl
            | branch b c => exact ⟨rfl, rfl⟩
          · exact sameShape_of_get_eq _ _ (hget_oth p hp hppq hplt)
        · exact ⟨some pp, some pid, newPairs, hget_new, hsortN,
            fun q hq => ⟨(hbnd2 q (hmemN q hq)).1, hnlt q hq⟩, rfl, rfl⟩
        · exact ⟨some st.pages.length, nextId, oldPairs, hget_pid, hsortO,
            fun q hq => ⟨hole q hq, (hbnd2 q (hmemO q hq)).2⟩, rfl, rfl⟩
        · refine ⟨leafPrevAt_of_get _ pid _ _ _ hget_pid, ?_, ?_,
            leafNextAt_of_get _ st.pages.length _ _ _ hget_new, ?_, ?_⟩
          · rw [leafNextAt_of_get _ pid _ _ _ hget_pid, hNext_st]
          · rw [leafPrevAt_of_get _ st.pages.length _ _ _ hget_new, hPrev_st]
          · intro P hP hPne hPleaf
            rw [hPrev_st] at hP
            have hPpp : pp = P := Option.some.inj hP
            subst hPpp
            obtain ⟨a, b, c, hc⟩ := hPleaf
            rw [hXs] at hc
            have hXeq : st.pages.get ⟨pp, hpplt⟩ = BNode.leaf a b c := Option.some.inj hc
            have hsetX : setLeafNext (st.pages.get ⟨pp, hpplt⟩) st.pages.length
                = BNode.leaf a (some st.pages.length) c := by
              rw [hXeq]
              rfl
            have hget_pp2 : (⟨(st.pages.set pid
                  (BNode.leaf (some st.pages.length) nextId oldPairs)).set pp
                  (setLeafNext (st.pages.get ⟨pp, hpplt⟩) st.pages.length)
                  ++ [BNode.leaf (some pp) (some pid) newPairs], st.root⟩ : BStore).pages.get? pp
                = some (BNode.leaf a (some st.pages.length) c) := by
              rw [hget_pp, hsetX]
            have hpp_st : st.pages.get? pp = some (BNode.leaf a b c) := by rw [hXs, hXeq]
            rw [leafNextAt_of_get _ pp _ _ _ hget_pp2,
              leafPrevAt_of_get _ pp _ _ _ hget_pp2, leafPrevAt_of_get st pp _ _ _ hpp_st]
            exact ⟨rfl, rfl⟩
          · intro q hqL hqN hqP
            have hqpp : q ≠ pp := by
              intro h
              exact hqP (by rw [hPrev_st, h])
            rcases Nat.lt_trichotomy q st.pages.length with hq | hq | hq
            · exact leafLinksAt_congr st _ q (hget_oth q hqL hqpp hq)
            · exact absurd hq hqN
            · have h1 : st.pages.get? q = none := List.get?_eq_none.mpr (by omega)
              rw [leafPrevAt_of_none _ q (hget_far q hq), leafPrevAt_of_none st q h1,
                leafNextAt_of_none _ q (hget_far q hq), leafNextAt_of_none st q h1]
              exact ⟨rfl, rfl⟩
        · rw [leafPairsAt_of_get _ _ _ _ _ hget_new]
          exact hnne
        · rw [leafPairsAt_of_get _ _ _ _ _ hget_pid, hold]
          simp
        · rw [leafPairsAt_of_get _ _ _ _ _ hget_new, leafPairsAt_of_get _ _ _ _ _ hget_pid]
          exact heq
  · rw [if_neg hguard] at hok
    simp at hok

/-- The central preservation property of `insertInternal`, conditioned on a
successful run: the routed subtree is replaced by one (no overflow) or two
(overflow at the promoted key) well-formed subtrees whose combined content is
sorted insertion of the new pair; pages outside the subtree keep their
payloads, and the leaf links change exactly at the one split site (or not at
all). -/
theorem insertInternalGo_preserves (st : BStore) (K v : Bytes) :
    ∀ (h : Nat) (pid : Nat) (lo hi : Option Bytes) (nodes leaves : List Nat)
      (fuel : Nat) (st1 : BStore) (ovf : Option (Bytes × Nat)),
    SubtreeOK st h pid lo hi nodes leaves →
    lbLE lo K → ubGT hi K →
    nodes.Nodup →
    (∀ p ∈ nodes, p < st.pages.length) →
    (∀ l ∈ leaves, leafPrevAt st l ≠ some l) →
    insertInternalGo fuel st pid K v = BRes.ok (st1, ovf) →
    (∀ q ∈ chainPairs st leaves, q.1 ≠ K) ∧
    st.pages.length ≤ st1.pages.length ∧
    st1.root = st.root ∧
    (∀ p, p ∉ nodes → p < st.pages.length →
        sameShape (st.pages.get? p) (st1.pages.get? p)) ∧
    ∃ nodes1 leaves1,
      (match ovf with
       | none =>
         SubtreeOK st1 h pid lo hi nodes1 leaves1 ∧
         ((leaves1 = leaves ∧ st1.pages.length = st.pages.length ∧
           (∀ q, leafPrevAt st1 q = leafPrevAt st q ∧ leafNextAt st1 q = leafNextAt st q)) ∨
          (∃ pre2 L post2, leaves = pre2 ++ L :: post2 ∧
             leaves1 = pre2 ++ st.pages.length :: L :: post2 ∧
             SplitLinkUpdate st st1 L st.pages.length ∧
             leafPairsAt st1 L ≠ [] ∧ leafPairsAt st1 st.pages.length ≠ []))
       | some (pk, npid) =>
         (∃ nA lA nB lB, nodes1 = nA ++ nB ∧ leaves1 = lA ++ lB ∧
           SubtreeOK st1 h npid lo (some pk) nA lA ∧
           SubtreeOK st1 h pid (some pk) hi nB lB ∧
           lbLT lo pk ∧ ubGT hi pk) ∧
         (∃ pre2 L post2, leaves = pre2 ++ L :: post2 ∧
            leaves1 = pre2 ++ st.pages.length :: L :: post2 ∧
            SplitLinkUpdate st st1 L st.pages.length ∧
            leafPairsAt st1 L ≠ [] ∧ leafPairsAt st1 st.pages.length ≠ [])) ∧
      chainPairs st1 leaves1 = insertSorted K v (chainPairs st leaves) ∧
      (∀ l ∈ leaves1, leafPairsAt st1 l ≠ [] ∨ leafPairsAt st1 l = leafPairsAt st l) ∧
      (∀ p ∈ nodes1, p ∈ nodes ∨ (st.pages.length ≤ p ∧ p < st1.pages.length)) ∧
      nodes1.Nodup := by
  intro h
  induction h with
  | zero =>
    intro pid lo hi nodes leaves fuel st1 ovf hs hlo hhi hnodup hvalid hprevne hok
    obtain ⟨prevId, nextId, pairs, hpg, hsort, hbnd, hnod, hlv⟩ := hs
    subst hnod hlv
    have hpid : pid < st.pages.length := hvalid pid (List.mem_singleton.mpr rfl)
    have hPrev_st : leafPrevAt st pid = prevId := leafPrevAt_of_get st pid _ _ _ hpg
    cases fuel with
    | zero =>
      have h0 : insertInternalGo 0 st pid K v = BRes.crash "descent fuel" := rfl
      rw [h0] at hok
      simp at hok
    | succ f =>
      rw [insertInternalGo_succ, hpg] at hok
      simp only [] at hok
      by_cases hfound : (leafSearchSlotID pairs K).2 = true
      · rw [if_pos hfound] at hok
        simp at hok
      · rw [if_neg hfound] at hok
        have hspec := leafSearchSlotID_spec pairs K hsort
        have hmiss := hspec.2.2 (by simpa using hfound)
        have hfreshp : ∀ q ∈ pairs, q.1 ≠ K := by
          intro q hq hcon
          obtain ⟨j, hj, hgd⟩ := mem_getD pairs ([], []) q hq
          rcases Nat.lt_or_ge j (leafSearchSlotID pairs K).1 with hj2 | hj2
          · have hx := hmiss.1 j hj2
            rw [hgd, hcon] at hx
            exact bytesLT_irrefl _ hx
          · have hx := hmiss.2 j hj2 hj
            rw [hgd, hcon] at hx
            exact bytesLT_irrefl _ hx
        have hlpst : leafPairsAt st pid = pairs := leafPairsAt_of_get st pid _ _ _ hpg
        have hchainst : chainPairs st [pid] = pairs := by
          unfold chainPairs
          rw [List.flatMap_cons, List.flatMap_nil, hlpst, List.append_nil]
        have hfreshc : ∀ q ∈ chainPairs st [pid], q.1 ≠ K := by
          rw [hchainst]
          exact hfreshp
        cases hins : leafInsertGo pairs (leafSearchSlotID pairs K).1 K v with
        | some pairs2 =>
          rw [hins] at hok
          simp only [] at hok
          simp only [BRes.ok.injEq, Prod.mk.injEq] at hok
          obtain ⟨hst1, hovf⟩ := hok
          subst hst1
          subst hovf
          have hpairs2 : pairs2 = pairs.insertIdx (leafSearchSlotID pairs K).1 (K, v) := by
            unfold leafInsertGo at hins
            by_cases h1 : leafCapacity / 2 - 4 < pairSize (K, v)
            · rw [if_pos h1] at hins; simp at hins
            · rw [if_neg h1] at hins
              by_cases h2 : leafFreeSpace pairs < 4 + (pairSize (K, v) : Int)
              · rw [if_pos h2] at hins; simp at hins
              · rw [if_neg h2] at hins
                simpa using hins.symm
          have hpoint : pairs2 = insertSorted K v pairs := by
            rw [hpairs2]
            exact insertIdx_insertion_point K v pairs _ hspec.1 hmiss.1 hmiss.2
          have hget_pid : (⟨st.pages.set pid (BNode.leaf prevId nextId pairs2), st.root⟩
              : BStore).pages.get? pid = some (BNode.leaf prevId nextId pairs2) := by
            show (st.pages.set pid (BNode.leaf prevId nextId pairs2)).get? pid = _
            exact List.get?_set_eq_of_lt _ hpid
          have hget_oth : ∀ q, q ≠ pid →
              (⟨st.pages.set pid (BNode.leaf prevId nextId pairs2), st.root⟩
              : BStore).pages.get? q = st.pages.get? q := by
            intro q hq
            show (st.pages.set pid (BNode.leaf prevId nextId pairs2)).get? q = _
            exact List.get?_set_ne _ _ (fun hcon => hq hcon.symm)
          have hlp1 : leafPairsAt (⟨st.pages.set pid (BNode.leaf prevId nextId pairs2),
              st.root⟩ : BStore) pid = pairs2 := leafPairsAt_of_get _ pid _ _ _ hget_pid
          refine ⟨hfreshc, by simp, rfl, ?_, [pid], [pid],
            ⟨?_, Or.inl ⟨rfl, by simp, ?_⟩⟩, ?_, ?_, ?_, by simp⟩
          · intro p hp hplt
            exact sameShape_of_get_eq _ _
              (hget_oth p (fun hcon => hp (by rw [hcon]; exact List.mem_singleton.mpr rfl)))
          · refine ⟨prevId, nextId, pairs2, hget_pid, ?_, ?_, rfl, rfl⟩
            · rw [hpoint]
              exact insertSorted_sorted K v pairs hsort hfreshp
            · intro q hq
              rw [hpoint] at hq
              rcases (insertSorted_mem K v pairs q).mp hq with hq | hq
              · subst hq; exact ⟨hlo, hhi⟩
              · exact hbnd q hq
          · exact linksEq_set_leaf st pid prevId nextId pairs pairs2 st.root hpg
          · have hc1 : chainPairs (⟨st.pages.set pid (BNode.leaf prevId nextId pairs2),
                st.root⟩ : BStore) [pid] = pairs2 := by
              unfold chainPairs
              rw [List.flatMap_cons, List.flatMap_nil, hlp1, List.append_nil]
            rw [hc1, hchainst, hpoint]
          · intro l hl
            have hlpid : l = pid := List.mem_singleton.mp hl
            subst hlpid
            left
            rw [hlp1, hpoint]
            exact insertSorted_ne_nil K v pairs
          · intro p hp
            exact Or.inl hp
        | none =>
          rw [hins] at hok
          have hprevne2 : prevId ≠ some pid := by
            have hx := hprevne pid (List.mem_singleton.mpr rfl)
            rwa [hPrev_st] at hx
          obtain ⟨okey, hovf, hlen1, hroot1, hframe1, hsubN, hsubO, hlb, hub, hslu,
            hneN, hneO, hcat⟩ :=
            leafSplitStep_preserves st pid prevId nextId pairs K v lo hi st1 ovf hpg hsort
              hbnd hfreshp hlo hhi hpid hprevne2 hok
          subst hovf
          refine ⟨hfreshc, by omega, hroot1, ?_, [st.pages.length, pid],
            [st.pages.length, pid],
            ⟨⟨[st.pages.length], [st.pages.length], [pid], [pid], rfl, rfl,
              hsubN, hsubO, hlb, hub⟩, ⟨[], pid, [], rfl, rfl, hslu, hneO, hneN⟩⟩,
            ?_, ?_, ?_, ?_⟩
          · intro p hp hplt
            exact hframe1 p
              (fun hcon => hp (by rw [hcon]; exact List.mem_singleton.mpr rfl)) hplt
          · have hc1 : chainPairs st1 [st.pages.length, pid]
                = leafPairsAt st1 st.pages.length ++ leafPairsAt st1 pid := by
              unfold chainPairs
              rw [List.flatMap_cons, List.flatMap_cons, List.flatMap_nil, List.append_nil]
            rw [hc1, hchainst]
            exact hcat
          · intro l hl
            rcases List.mem_cons.mp hl with hl | hl
            · subst hl
              exact Or.inl hneN
            · have hlpid : l = pid := List.mem_singleton.mp hl
              subst hlpid
              exact Or.inl hneO
          · intro p hp
            rcases List.mem_cons.mp hp with hp | hp
            · subst hp
              exact Or.inr ⟨le_refl _, by omega⟩
            · have hppid : p = pid := List.mem_singleton.mp hp
              subst hppid
              exact Or.inl (List.mem_singleton.mpr rfl)
          · refine List.nodup_cons.mpr ⟨?_, by simp⟩
            intro hcon
            have hx : st.pages.length = pid := List.mem_singleton.mp hcon
            omega
  | succ h ih =>
    intro pid lo hi nodes leaves fuel st1 ovf hs hlo hhi hnodup hvalid hprevne hok
    obtain ⟨bpairs, rc, nodes1, hpg, hnod, hb⟩ := hs
    subst hnod
    have hpid : pid < st.pages.length := hvalid pid (List.mem_cons_self _ _)
    have hpidnin : pid ∉ nodes1 := (List.nodup_cons.mp hnodup).1
    have hnodup1 : nodes1.Nodup := (List.nodup_cons.mp hnodup).2
    have hval1' : ∀ p ∈ nodes1, p < st.pages.length :=
      fun p hp => hvalid p (List.mem_cons.mpr (Or.inr hp))
    cases fuel with
    | zero =>
      have h0 : insertInternalGo 0 st pid K v = BRes.crash "descent fuel" := rfl
      rw [h0] at hok
      simp at hok
    | succ f =>
      rw [insertInternalGo_succ, hpg] at hok
      simp only [] at hok
      cases hrec : insertInternalGo f st (childAt bpairs rc (branchSearchChildIdx bpairs K))
          K v with
      | dup => rw [hrec] at hok; simp at hok
      | crash m => rw [hrec] at hok; simp at hok
      | ok res =>
        obtain ⟨stc, ovfc⟩ := res
        rw [hrec] at hok
        cases ovfc with
        | none => simp at hok
        | some pr =>
          obtain ⟨okey, opid⟩ := pr
          simp only [] at hok
          have inner : ∀ (bp : List (Bytes × Nat)) (lo2 : Option Bytes) (rc2 : Nat)
              (hi2 : Option Bytes) (ns ls : List Nat),
              BranchOK (fun c lo3 hi3 ns3 ls3 => SubtreeOK st h c lo3 hi3 ns3 ls3)
                lo2 bp rc2 hi2 ns ls →
              lbLE lo2 K → ubGT hi2 K →
              ns.Nodup →
              (∀ p ∈ ns, p < st.pages.length) →
              (∀ l ∈ ls, leafPrevAt st l ≠ some l) →
              insertInternalGo f st (childAt bp rc2 (branchSearchChildIdx bp K)) K v
                = BRes.ok (stc, some (okey, opid)) →
              (∀ q ∈ chainPairs st ls, q.1 ≠ K) ∧
              st.pages.length ≤ stc.pages.length ∧
              stc.root = st.root ∧
              (∀ p, p ∉ ns → p < st.pages.length →
                  sameShape (st.pages.get? p) (stc.pages.get? p)) ∧
              ∃ ns1 ls1,
                BranchOK (fun c lo3 hi3 ns3 ls3 => SubtreeOK stc h c lo3 hi3 ns3 ls3)
                  lo2 (bp.insertIdx (branchSearchChildIdx bp K) (okey, opid)) rc2 hi2
                  ns1 ls1 ∧
                bp.insertIdx (branchSearchChildIdx bp K) (okey, opid)
                  = insertBSorted okey opid bp ∧
                lbLT lo2 okey ∧ ubGT hi2 okey ∧
                (∃ pre2 L post2, ls = pre2 ++ L :: post2 ∧
                   ls1 = pre2 ++ st.pages.length :: L :: post2 ∧
                   SplitLinkUpdate st stc L st.pages.length ∧
                   leafPairsAt stc L ≠ [] ∧ leafPairsAt stc st.pages.length ≠ []) ∧
                chainPairs stc ls1 = insertSorted K v (chainPairs st ls) ∧
                (∀ l ∈ ls1, leafPairsAt stc l ≠ [] ∨ leafPairsAt stc l = leafPairsAt st l) ∧
                (∀ p ∈ ns1, p ∈ ns ∨ (st.pages.length ≤ p ∧ p < stc.pages.length)) ∧
                ns1.Nodup := by
            intro bp
            induction bp with
            | nil =>
              intro lo2 rc2 hi2 ns ls hb2 hlo2 hhi2 hnd hval hpne hrec2
              have hchild : childAt [] rc2 (branchSearchChildIdx [] K) = rc2 := rfl
              rw [hchild] at hrec2
              obtain ⟨hfr, hle, hrt, hframe, ns1c, ls1c, hM, hC, hNE, hACC, hND⟩ :=
                ih rc2 lo2 hi2 ns ls f stc (some (okey, opid)) hb2 hlo2 hhi2 hnd hval
                  hpne hrec2
              obtain ⟨⟨nA, lA, nB, lB, hneq, hleq, hsubA, hsubB, hlbk, hubk⟩, hSp⟩ := hM
              subst hneq hleq
              have hidx0 : branchSearchChildIdx ([] : List (Bytes × Nat)) K = 0 := rfl
              refine ⟨hfr, hle, hrt, hframe, nA ++ nB, lA ++ lB, ?_, ?_, hlbk, hubk, hSp,
                hC, hNE, hACC, hND⟩
              · rw [hidx0]
                exact ⟨hlbk, hubk, nA, lA, nB, lB, rfl, rfl, hsubA, hsubB⟩
              · rw [hidx0]
                rfl
            | cons q0 rest ihq =>
              intro lo2 rc2 hi2 ns ls hb2 hlo2 hhi2 hnd hval hpne hrec2
              obtain ⟨k, c⟩ := q0
              have hsrt : SortedBPairs ((k, c) :: rest) :=
                (branchOK_separators _ ((k, c) :: rest) lo2 rc2 hi2 ns ls hb2).1
              obtain ⟨hklo, hkhi, n1, l1, n2, l2, hn, hl, hc, hrest⟩ := hb2
              subst hn hl
              have hnd1 : n1.Nodup := (List.nodup_append.mp hnd).1
              have hnd2 : n2.Nodup := (List.nodup_append.mp hnd).2.1
              have hdisj : n1.Disjoint n2 := (List.nodup_append.mp hnd).2.2
              have hval1 : ∀ p ∈ n1, p < st.pages.length :=
                fun p hp => hval p (List.mem_append.mpr (Or.inl hp))
              have hval2 : ∀ p ∈ n2, p < st.pages.length :=
                fun p hp => hval p (List.mem_append.mpr (Or.inr hp))
              have hpne1 : ∀ l ∈ l1, leafPrevAt st l ≠ some l :=
                fun l hl => hpne l (List.mem_append.mpr (Or.inl hl))
              have hpne2 : ∀ l ∈ l2, leafPrevAt st l ≠ some l :=
                fun l hl => hpne l (List.mem_append.mpr (Or.inr hl))
              have hl1n1 : ∀ l ∈ l1, l ∈ n1 :=
                (subtreeOK_facts st h c lo2 (some k) n1 l1 hc).2.2.1
              have hl2n2 : ∀ l ∈ l2, l ∈ n2 :=
                branchOK_leaves_mem st h rest (some k) rc2 hi2 n2 l2 hrest
              have hsplitls : chainPairs st (l1 ++ l2)
                  = chainPairs st l1 ++ chainPairs st l2 := by
                unfold chainPairs
                exact List.flatMap_append l1 l2 _
              have hchar := branchSearchChildIdx_spec ((k, c) :: rest) K hsrt
              by_cases hkey : bytesLT K k
              · -- K < k: route into the first child
                have hidx : branchSearchChildIdx ((k, c) :: rest) K = 0 := by
                  refine childIdx_char_unique ((k, c) :: rest) K _ 0
                    hchar.1 hchar.2.1 hchar.2.2 (by simp) (by omega) ?_
                  intro j _ hj
                  match j with
                  | 0 => exact hkey
                  | j' + 1 =>
                    rw [List.getD_cons_succ]
                    have hk2 : bytesLT k (rest.getD j' ([], 0)).1 := by
                      have hx := sortedBPairs_getD_lt ((k, c) :: rest) hsrt 0 (j' + 1)
                        (by omega) hj
                      rw [List.getD_cons_succ] at hx
                      exact hx
                    exact bytesLT_trans _ _ _ hkey hk2
                have hchild : childAt ((k, c) :: rest) rc2
                    (branchSearchChildIdx ((k, c) :: rest) K) = c := by
                  rw [hidx]
                  unfold childAt
                  rw [if_neg (by simp)]
                  rfl
                rw [hchild] at hrec2
                obtain ⟨hfr, hle, hrt, hframe, ns1c, ls1c, hM, hC, hNE, hACC, hND⟩ :=
                  ih c lo2 (some k) n1 l1 f stc (some (okey, opid)) hc hlo2 hkey hnd1
                    hval1 hpne1 hrec2
                obtain ⟨⟨nA, lA, nB, lB, hneq, hleq, hsubA, hsubB, hlbk, hubk⟩, hSp⟩ := hM
                subst hneq hleq
                have hsh2 : ∀ p ∈ n2, sameShape (st.pages.get? p) (stc.pages.get? p) :=
                  fun p hp => hframe p (fun hcon => hdisj hcon hp) (hval2 p hp)
                have hubT : ubGT hi2 okey := by
                  cases hi2 with
                  | none => trivial
                  | some u => exact bytesLT_trans _ _ _ hubk hkhi
                refine ⟨?_, hle, hrt, ?_, nA ++ (nB ++ n2), lA ++ (lB ++ l2),
                  ?_, ?_, hlbk, hubT, ?_, ?_, ?_, ?_, ?_⟩
                · intro q hq
                  rw [hsplitls] at hq
                  rcases List.mem_append.mp hq with hq | hq
                  · exact hfr q hq
                  · intro hcon
                    obtain ⟨hqlo, _⟩ :=
                      branchOK_chain_bounds st h rest (some k) rc2 hi2 n2 l2 hrest q hq
                    rcases hqlo with heq2 | hlt2
                    · rw [hcon] at heq2
                      exact bytesLT_irrefl _ (heq2 ▸ hkey)
                    · rw [hcon] at hlt2
                      exact bytesLT_asymm hkey hlt2
                · intro p hp hplt
                  exact hframe p (fun hcon => hp (List.mem_append.mpr (Or.inl hcon))) hplt
                · rw [hidx]
                  refine ⟨hlbk, hubT, nA, lA, nB ++ n2, lB ++ l2, rfl, rfl, hsubA, ?_⟩
                  refine ⟨hubk, hkhi, nB, lB, n2, l2, rfl, rfl, hsubB, ?_⟩
                  exact branchOK_frame st stc h rest (some k) rc2 hi2 n2 l2 hrest hsh2
                · rw [hidx]
                  show (okey, opid) :: (k, c) :: rest = insertBSorted okey opid ((k, c) :: rest)
                  rw [insertBSorted, if_neg (bytesLT_asymm hubk)]
                · obtain ⟨pre, L, post, hls, hls1, hslu, hneL, hneNp⟩ := hSp
                  refine ⟨pre, L, post ++ l2, ?_, ?_, hslu, hneL, hneNp⟩
                  · rw [hls, List.append_assoc, List.cons_append]
                  · have hx : lA ++ (lB ++ l2) = (lA ++ lB) ++ l2 :=
                      (List.append_assoc _ _ _).symm
                    rw [hx, hls1, List.append_assoc, List.cons_append, List.cons_append]
                · have h1 : chainPairs stc (lA ++ (lB ++ l2))
                      = chainPairs stc (lA ++ lB) ++ chainPairs stc l2 := by
                    unfold chainPairs
                    rw [List.flatMap_append lA (lB ++ l2), List.flatMap_append lB l2,
                      List.flatMap_append lA lB, List.append_assoc]
                  have h2 : chainPairs stc l2 = chainPairs st l2 :=
                    chainPairs_congr st stc l2 (fun l hl => hsh2 l (hl2n2 l hl))
                  have h3 : ∀ q ∈ chainPairs st l2, bytesLT K q.1 := by
                    intro q hq
                    obtain ⟨hqlo, _⟩ :=
                      branchOK_chain_bounds st h rest (some k) rc2 hi2 n2 l2 hrest q hq
                    rcases hqlo with heq2 | hlt2
                    · exact heq2 ▸ hkey
                    · exact bytesLT_trans _ _ _ hkey hlt2
                  rw [h1, h2, hC, hsplitls, insertSorted_append_right K v _ _ h3]
                · intro l hl
                  rcases List.mem_append.mp hl with hl | hl
                  · exact hNE l (List.mem_append.mpr (Or.inl hl))
                  · rcases List.mem_append.mp hl with hl2 | hl2
                    · exact hNE l (List.mem_append.mpr (Or.inr hl2))
                    · exact Or.inr
                        (leafPairsAt_of_sameShape st stc l (hsh2 l (hl2n2 l hl2)))
                · intro p hp
                  rcases List.mem_append.mp hp with hp | hp
                  · rcases hACC p (List.mem_append.mpr (Or.inl hp)) with hp2 | hp2
                    · exact Or.inl (List.mem_append.mpr (Or.inl hp2))
                    · exact Or.inr hp2
                  · rcases List.mem_append.mp hp with hp2 | hp2
                    · rcases hACC p (List.mem_append.mpr (Or.inr hp2)) with hp3 | hp3
                      · exact Or.inl (List.mem_append.mpr (Or.inl hp3))
                      · exact Or.inr hp3
                    · exact Or.inl (List.mem_append.mpr (Or.inr hp2))
                · rw [← List.append_assoc]
                  refine List.nodup_append.mpr ⟨hND, hnd2, ?_⟩
                  intro x hx hx2
                  rcases hACC x hx with hx3 | hx3
                  · exact hdisj hx3 hx2
                  · have h5 := hval2 x hx2
                    omega
              · -- k ≤ K: route into the rest of the body
                have hke : lbLE (some k) K := by
                  rcases bytesLT_trichotomy K k with h1 | h1 | h1
                  · exact absurd h1 hkey
                  · exact Or.inl h1.symm
                  · exact Or.inr h1
                have hsrtR : SortedBPairs rest := (List.pairwise_cons.mp hsrt).2
                have hcharR := branchSearchChildIdx_spec rest K hsrtR
                have hidx : branchSearchChildIdx ((k, c) :: rest) K
                    = branchSearchChildIdx rest K + 1 := by
                  refine childIdx_char_unique ((k, c) :: rest) K _
                    (branchSearchChildIdx rest K + 1)
                    hchar.1 hchar.2.1 hchar.2.2
                    (by have := hcharR.1; simp only [List.length_cons]; omega) ?_ ?_
                  · intro j hj
                    match j with
                    | 0 => exact hke
                    | j' + 1 =>
                      rw [List.getD_cons_succ]
                      exact hcharR.2.1 j' (by omega)
                  · intro j hj1 hj2
                    match j with
                    | 0 => omega
                    | j' + 1 =>
                      rw [List.getD_cons_succ]
                      refine hcharR.2.2 j' (by omega) ?_
                      simp only [List.length_cons] at hj2
                      omega
                have hchild : childAt ((k, c) :: rest) rc2
                    (branchSearchChildIdx ((k, c) :: rest) K)
                    = childAt rest rc2 (branchSearchChildIdx rest K) := by
                  rw [hidx]
                  unfold childAt
                  by_cases hlen : branchSearchChildIdx rest K = rest.length
                  · rw [if_pos (by simp [hlen]), if_pos hlen]
                  · rw [if_neg (by simp [hlen]), if_neg hlen]
                    rw [List.getD_cons_succ]
                rw [hchild] at hrec2
                obtain ⟨hfr, hle, hrt, hframe, ns1r, ls1r, hBOK, hIdxEq, hlbk, hubk,
                  hSp, hC, hNE, hACC, hND⟩ :=
                  ihq (some k) rc2 hi2 n2 l2 hrest hke hhi2 hnd2 hval2 hpne2 hrec2
                have hsh1 : ∀ p ∈ n1, sameShape (st.pages.get? p) (stc.pages.get? p) :=
                  fun p hp => hframe p (fun hcon => hdisj hp hcon) (hval1 p hp)
                refine ⟨?_, hle, hrt, ?_, n1 ++ ns1r, l1 ++ ls1r,
                  ?_, ?_, ?_, hubk, ?_, ?_, ?_, ?_, ?_⟩
                · intro q hq
                  rw [hsplitls] at hq
                  rcases List.mem_append.mp hq with hq | hq
                  · have hqk : bytesLT q.1 k :=
                      ((subtreeOK_chain_sorted st h c lo2 (some k) n1 l1 hc).2 q hq).2
                    rcases hke with heq2 | hlt2
                    · exact bytesLT_ne (heq2 ▸ hqk)
                    · exact bytesLT_ne (bytesLT_trans _ _ _ hqk hlt2)
                  · exact hfr q hq
                · intro p hp hplt
                  exact hframe p (fun hcon => hp (List.mem_append.mpr (Or.inr hcon))) hplt
                · rw [hidx, List.insertIdx_succ_cons]
                  refine ⟨hklo, hkhi, n1, l1, ns1r, ls1r, rfl, rfl, ?_, hBOK⟩
                  exact subtreeOK_frame st stc h c lo2 (some k) n1 l1 hc hsh1
                · have hlbk2 : bytesLT k okey := hlbk
                  rw [hidx, List.insertIdx_succ_cons, hIdxEq, insertBSorted, if_pos hlbk2]
                · cases lo2 with
                  | none => trivial
                  | some l0 => exact bytesLT_trans _ _ _ hklo hlbk
                · obtain ⟨pre, L, post, hls, hls1, hslu, hneL, hneNp⟩ := hSp
                  refine ⟨l1 ++ pre, L, post, ?_, ?_, hslu, hneL, hneNp⟩
                  · rw [hls, List.append_assoc]
                  · rw [hls1, List.append_assoc]
                · have h1 : chainPairs stc (l1 ++ ls1r)
                      = chainPairs stc l1 ++ chainPairs stc ls1r := by
                    unfold chainPairs
                    exact List.flatMap_append l1 ls1r _
                  have h2 : chainPairs stc l1 = chainPairs st l1 :=
                    chainPairs_congr st stc l1 (fun l hl => hsh1 l (hl1n1 l hl))
                  have h3 : ∀ q ∈ chainPairs st l1, bytesLT q.1 K := by
                    intro q hq
                    have hqk : bytesLT q.1 k :=
                      ((subtreeOK_chain_sorted st h c lo2 (some k) n1 l1 hc).2 q hq).2
                    rcases hke with heq2 | hlt2
                    · exact heq2 ▸ hqk
                    · exact bytesLT_trans _ _ _ hqk hlt2
                  rw [h1, h2, hC, hsplitls, insertSorted_append_left K v _ _ h3]
                · intro l hl
                  rcases List.mem_append.mp hl with hl | hl
                  · exact Or.inr (leafPairsAt_of_sameShape st stc l (hsh1 l (hl1n1 l hl)))
                  · exact hNE l hl
                · intro p hp
                  rcases List.mem_append.mp hp with hp | hp
                  · exact Or.inl (List.mem_append.mpr (Or.inl hp))
                  · rcases hACC p hp with hp2 | hp2
                    · exact Or.inl (List.mem_append.mpr (Or.inr hp2))
                    · exact Or.inr hp2
                · refine List.nodup_append.mpr ⟨hnd1, hND, ?_⟩
                  intro x hx hx2
                  rcases hACC x hx2 with hx3 | hx3
                  · exact hdisj hx hx3
                  · have h5 := hval1 x hx
                    omega
          -- apply the routing induction at the full body
          obtain ⟨hfr, hle, hrt, hframeI, ns1, ls1, hBOK, hIdxEq, hlbk, hubk, hSp, hC,
            hNE, hACC, hND⟩ :=
            inner bpairs lo rc hi nodes1 leaves hb hlo hhi hnodup1 hval1' hprevne hrec
          have hpc : pid ∉ ns1 := by
            intro hcon
            rcases hACC pid hcon with h1 | h1
            · exact hpidnin h1
            · omega
          have hpidc : pid < stc.pages.length := lt_of_lt_of_le hpid hle
          have hns1lt : ∀ p ∈ ns1, p < stc.pages.length := by
            intro p hp
            rcases hACC p hp with hp2 | hp2
            · exact lt_of_lt_of_le (hval1' p hp2) hle
            · exact hp2.2
          have hls1n : ∀ l ∈ ls1, l ∈ ns1 :=
            branchOK_leaves_mem stc h _ lo rc hi ns1 ls1 hBOK
          have hpgc : stc.pages.get? pid = some (BNode.branch bpairs rc) := by
            have hsh := hframeI pid hpidnin hpid
            rw [hpg] at hsh
            cases hpg2 : stc.pages.get? pid with
            | none => rw [hpg2] at hsh; simp [sameShape] at hsh
            | some nd =>
              cases nd with
              | leaf a b c => rw [hpg2] at hsh; simp [sameShape] at hsh
              | branch b2 rc2 =>
                rw [hpg2] at hsh
                obtain ⟨hb2, hrc2⟩ : b2 = bpairs ∧ rc2 = rc := hsh
                rw [hb2, hrc2]
          have hsrtT : SortedBPairs bpairs :=
            (branchOK_separators _ bpairs lo rc hi nodes1 leaves hb).1
          have hcidxle : branchSearchChildIdx bpairs K ≤ bpairs.length :=
            (branchSearchChildIdx_spec bpairs K hsrtT).1
          cases hbi : branchInsertGo bpairs (branchSearchChildIdx bpairs K) okey opid with
          | some bpairs2 =>
            rw [hbi] at hok
            simp only [] at hok
            simp only [BRes.ok.injEq, Prod.mk.injEq] at hok
            obtain ⟨hst1, hovf⟩ := hok
            subst hst1
            subst hovf
            have hbp2 : bpairs2
                = bpairs.insertIdx (branchSearchChildIdx bpairs K) (okey, opid) := by
              unfold branchInsertGo at hbi
              by_cases h1 : branchCapacity / 2 - 4 < bpairSize (okey, opid)
              · rw [if_pos h1] at hbi; simp at hbi
              · rw [if_neg h1] at hbi
                by_cases h2 : branchFreeSpace bpairs < 4 + (bpairSize (okey, opid) : Int)
                · rw [if_pos h2] at hbi; simp at hbi
                · rw [if_neg h2] at hbi
                  simpa using hbi.symm
            have hget_pid2 : (⟨stc.pages.set pid (BNode.branch bpairs2 rc), stc.root⟩
                : BStore).pages.get? pid = some (BNode.branch bpairs2 rc) := by
              show (stc.pages.set pid (BNode.branch bpairs2 rc)).get? pid = _
              exact List.get?_set_eq_of_lt _ hpidc
            have hget_oth2 : ∀ q, q ≠ pid →
                (⟨stc.pages.set pid (BNode.branch bpairs2 rc), stc.root⟩
                : BStore).pages.get? q = stc.pages.get? q := by
              intro q hq
              show (stc.pages.set pid (BNode.branch bpairs2 rc)).get? q = _
              exact List.get?_set_ne _ _ (fun hcon => hq hcon.symm)
            have hlinks2 := linksEq_set_branch stc pid bpairs rc bpairs2 rc stc.root hpgc
            have hshc1 : ∀ p ∈ ns1, sameShape (stc.pages.get? p)
                ((⟨stc.pages.set pid (BNode.branch bpairs2 rc), stc.root⟩
                : BStore).pages.get? p) := by
              intro p hp
              exact sameShape_of_get_eq _ _ (hget_oth2 p (fun hcon => hpc (hcon ▸ hp)))
            refine ⟨hfr, by simpa using hle, hrt, ?_, pid :: ns1, ls1,
              ⟨⟨bpairs2, rc, ns1, hget_pid2, rfl, ?_⟩, Or.inr ?_⟩, ?_, ?_, ?_, ?_⟩
            · intro p hp hplt
              have hp1 : p ∉ nodes1 := fun hcon => hp (List.mem_cons.mpr (Or.inr hcon))
              have hp2 : p ≠ pid := fun hcon => hp (by rw [hcon]; exact List.mem_cons_self _ _)
              exact sameShape_trans _ _ _ (hframeI p hp1 hplt)
                (sameShape_of_get_eq _ _ (hget_oth2 p hp2))
            · have hBOK2 := hBOK
              rw [← hbp2] at hBOK2
              exact branchOK_frame stc _ h _ lo rc hi ns1 ls1 hBOK2 hshc1
            · obtain ⟨pre, L, post, hls, hls1, hslu, hneL, hneNp⟩ := hSp
              have hLmem : L ∈ ls1 := by
                rw [hls1]
                exact List.mem_append.mpr
                  (Or.inr (List.mem_cons.mpr (Or.inr (List.mem_cons_self _ _))))
              have hNmem : st.pages.length ∈ ls1 := by
                rw [hls1]
                exact List.mem_append.mpr (Or.inr (List.mem_cons_self _ _))
              have hlpL : leafPairsAt (⟨stc.pages.set pid (BNode.branch bpairs2 rc),
                  stc.root⟩ : BStore) L = leafPairsAt stc L :=
                leafPairsAt_of_sameShape stc _ L (hshc1 L (hls1n L hLmem))
              have hlpN : leafPairsAt (⟨stc.pages.set pid (BNode.branch bpairs2 rc),
                  stc.root⟩ : BStore) st.pages.length = leafPairsAt stc st.pages.length :=
                leafPairsAt_of_sameShape stc _ st.pages.length
                  (hshc1 st.pages.length (hls1n st.pages.length hNmem))
              exact ⟨pre, L, post, hls, hls1,
                splitLinkUpdate_congr st stc _ L st.pages.length hslu hlinks2,
                by rw [hlpL]; exact hneL, by rw [hlpN]; exact hneNp⟩
            · have h2 : chainPairs (⟨stc.pages.set pid (BNode.branch bpairs2 rc),
                  stc.root⟩ : BStore) ls1 = chainPairs stc ls1 :=
                chainPairs_congr stc _ ls1 (fun l hl => hshc1 l (hls1n l hl))
              rw [h2, hC]
            · intro l hl
              have hlp : leafPairsAt (⟨stc.pages.set pid (BNode.branch bpairs2 rc),
                  stc.root⟩ : BStore) l = leafPairsAt stc l :=
                leafPairsAt_of_sameShape stc _ l (hshc1 l (hls1n l hl))
              rcases hNE l hl with h1 | h1
              · exact Or.inl (by rw [hlp]; exact h1)
              · exact Or.inr (by rw [hlp]; exact h1)
            · intro p hp
              rcases List.mem_cons.mp hp with hp | hp
              · subst hp
                exact Or.inl (List.mem_cons_self _ _)
              · rcases hACC p hp with hp2 | hp2
                · exact Or.inl (List.mem_cons.mpr (Or.inr hp2))
                · exact Or.inr ⟨hp2.1, by simpa using hp2.2⟩
            · exact List.nodup_cons.mpr ⟨hpc, hND⟩
          | none =>
            rw [hbi] at hok
            simp only [] at hok
            cases hbs : branchSplitInsert bpairs okey opid with
            | dup => rw [hbs] at hok; simp at hok
            | crash m => rw [hbs] at hok; simp at hok
            | ok res2 =>
              obtain ⟨oldP, newP, newRC, pk2⟩ := res2
              rw [hbs] at hok
              simp only [] at hok
              simp only [BRes.ok.injEq, Prod.mk.injEq] at hok
              obtain ⟨hst1, hovf⟩ := hok
              subst hst1
              subst hovf
              have hsrtT2 : SortedBPairs
                  (bpairs.insertIdx (branchSearchChildIdx bpairs K) (okey, opid)) :=
                (branchOK_separators _ _ lo rc hi ns1 ls1 hBOK).1
              have hfreshB : ∀ q ∈ bpairs, q.1 ≠ okey :=
                insertIdx_fresh_key bpairs _ okey opid hcidxle hsrtT2
              have hsplit_eq : newP ++ (pk2, newRC) :: oldP = insertBSorted okey opid bpairs :=
                branchSplitInsert_ok bpairs okey opid oldP newP newRC pk2 hbs hsrtT hfreshB
              have hbody : bpairs.insertIdx (branchSearchChildIdx bpairs K) (okey, opid)
                  = newP ++ (pk2, newRC) :: oldP := hIdxEq.trans hsplit_eq.symm
              rw [hbody] at hBOK
              obtain ⟨m1, j1, m2, j2, hm, hj, hbl, hbr, hplo, hphi⟩ :=
                branchOK_cut _ newP lo pk2 newRC oldP rc hi ns1 ls1 hBOK
              subst hm
              subst hj
              have hget_pid3 : (⟨(stc.pages.set pid (BNode.branch oldP rc))
                  ++ [BNode.branch newP newRC], stc.root⟩ : BStore).pages.get? pid
                  = some (BNode.branch oldP rc) := by
                show ((stc.pages.set pid (BNode.branch oldP rc))
                  ++ [BNode.branch newP newRC]).get? pid = _
                rw [List.get?_append (by simpa using hpidc), List.get?_set_eq_of_lt _ hpidc]
              have hget_new3 : (⟨(stc.pages.set pid (BNode.branch oldP rc))
                  ++ [BNode.branch newP newRC], stc.root⟩ : BStore).pages.get?
                  stc.pages.length = some (BNode.branch newP newRC) := by
                show ((stc.pages.set pid (BNode.branch oldP rc))
                  ++ [BNode.branch newP newRC]).get? stc.pages.length = _
                exact get?_concat_at _ _ _ (by simp)
              have hget_oth3 : ∀ q, q ≠ pid → q < stc.pages.length →
                  (⟨(stc.pages.set pid (BNode.branch oldP rc))
                  ++ [BNode.branch newP newRC], stc.root⟩ : BStore).pages.get? q
                  = stc.pages.get? q := by
                intro q hq hlt
                show ((stc.pages.set pid (BNode.branch oldP rc))
                  ++ [BNode.branch newP newRC]).get? q = _
                rw [List.get?_append (by simpa using hlt),
                  List.get?_set_ne _ _ (fun hcon => hq hcon.symm)]
              have hlen3 : (⟨(stc.pages.set pid (BNode.branch oldP rc))
                  ++ [BNode.branch newP newRC], stc.root⟩ : BStore).pages.length
                  = stc.pages.length + 1 := by simp
              have hlinks3 : ∀ q, leafPrevAt (⟨(stc.pages.set pid (BNode.branch oldP rc))
                  ++ [BNode.branch newP newRC], stc.root⟩ : BStore) q = leafPrevAt stc q ∧
                  leafNextAt (⟨(stc.pages.set pid (BNode.branch oldP rc))
                  ++ [BNode.branch newP newRC], stc.root⟩ : BStore) q = leafNextAt stc q := by
                intro q
                have h1 := linksEq_append_branch (stc.pages.set pid (BNode.branch oldP rc))
                  stc.root stc.root newP newRC q
                have h2 := linksEq_set_branch stc pid bpairs rc oldP rc stc.root hpgc q
                exact ⟨h1.1.trans h2.1, h1.2.trans h2.2⟩
              have hshc2 : ∀ p ∈ m1 ++ m2, sameShape (stc.pages.get? p)
                  ((⟨(stc.pages.set pid (BNode.branch oldP rc))
                  ++ [BNode.branch newP newRC], stc.root⟩ : BStore).pages.get? p) := by
                intro p hp
                exact sameShape_of_get_eq _ _
                  (hget_oth3 p (fun hcon => hpc (hcon ▸ hp)) (hns1lt p hp))
              refine ⟨hfr, by omega, hrt, ?_, (stc.pages.length :: m1) ++ (pid :: m2),
                j1 ++ j2, ⟨⟨stc.pages.length :: m1, j1, pid :: m2, j2, rfl, rfl,
                  ?_, ?_, hplo, hphi⟩, ?_⟩, ?_, ?_, ?_, ?_⟩
              · intro p hp hplt
                have hp1 : p ∉ nodes1 := fun hcon => hp (List.mem_cons.mpr (Or.inr hcon))
                have hp2 : p ≠ pid := fun hcon => hp (by rw [hcon]; exact List.mem_cons_self _ _)
                exact sameShape_trans _ _ _ (hframeI p hp1 hplt)
                  (sameShape_of_get_eq _ _ (hget_oth3 p hp2 (lt_of_lt_of_le hplt hle)))
              · exact ⟨newP, newRC, m1, hget_new3, rfl,
                  branchOK_frame stc _ h newP lo newRC (some pk2) m1 j1 hbl
                    (fun p hp => hshc2 p (List.mem_append.mpr (Or.inl hp)))⟩
              · exact ⟨oldP, rc, m2, hget_pid3, rfl,
                  branchOK_frame stc _ h oldP (some pk2) rc hi m2 j2 hbr
                    (fun p hp => hshc2 p (List.mem_append.mpr (Or.inr hp)))⟩
              · obtain ⟨pre, L, post, hls, hls1, hslu, hneL, hneNp⟩ := hSp
                have hLmem : L ∈ j1 ++ j2 := by
                  rw [hls1]
                  exact List.mem_append.mpr
                    (Or.inr (List.mem_cons.mpr (Or.inr (List.mem_cons_self _ _))))
                have hNmem : st.pages.length ∈ j1 ++ j2 := by
                  rw [hls1]
                  exact List.mem_append.mpr (Or.inr (List.mem_cons_self _ _))
                have hlpL : leafPairsAt (⟨(stc.pages.set pid (BNode.branch oldP rc))
                    ++ [BNode.branch newP newRC], stc.root⟩ : BStore) L
                    = leafPairsAt stc L :=
                  leafPairsAt_of_sameShape stc _ L (hshc2 L (hls1n L hLmem))
                have hlpN : leafPairsAt (⟨(stc.pages.set pid (BNode.branch oldP rc))
                    ++ [BNode.branch newP newRC], stc.root⟩ : BStore) st.pages.length
                    = leafPairsAt stc st.pages.length :=
                  leafPairsAt_of_sameShape stc _ st.pages.length
                    (hshc2 st.pages.length (hls1n st.pages.length hNmem))
                exact ⟨pre, L, post, hls, hls1,
                  splitLinkUpdate_congr st stc _ L st.pages.length hslu hlinks3,
                  by rw [hlpL]; exact hneL, by rw [hlpN]; exact hneNp⟩
              · have h2 : chainPairs (⟨(stc.pages.set pid (BNode.branch oldP rc))
                    ++ [BNode.branch newP newRC], stc.root⟩ : BStore) (j1 ++ j2)
                    = chainPairs stc (j1 ++ j2) :=
                  chainPairs_congr stc _ (j1 ++ j2) (fun l hl => hshc2 l (hls1n l hl))
                rw [h2, hC]
              · intro l hl
                have hlp : leafPairsAt (⟨(stc.pages.set pid (BNode.branch oldP rc))
                    ++ [BNode.branch newP newRC], stc.root⟩ : BStore) l
                    = leafPairsAt stc l :=
                  leafPairsAt_of_sameShape stc _ l (hshc2 l (hls1n l hl))
                rcases hNE l hl with h1 | h1
                · exact Or.inl (by rw [hlp]; exact h1)
                · exact Or.inr (by rw [hlp]; exact h1)
              · intro p hp
                rcases List.mem_append.mp hp with hp | hp
                · rcases List.mem_cons.mp hp with hp | hp
                  · subst hp
                    exact Or.inr ⟨hle, by omega⟩
                  · rcases hACC p (List.mem_append.mpr (Or.inl hp)) with hp2 | hp2
                    · exact Or.inl (List.mem_cons.mpr (Or.inr hp2))
                    · exact Or.inr ⟨hp2.1, by omega⟩
                · rcases List.mem_cons.mp hp with hp | hp
                  · subst hp
                    exact Or.inl (List.mem_cons_self _ _)
                  · rcases hACC p (List.mem_append.mpr (Or.inr hp)) with hp2 | hp2
                    · exact Or.inl (List.mem_cons.mpr (Or.inr hp2))
                    · exact Or.inr ⟨hp2.1, by omega⟩
              · have hm1 : m1.Nodup := (List.nodup_append.mp hND).1
                have hm2 : m2.Nodup := (List.nodup_append.mp hND).2.1
                have hmd : m1.Disjoint m2 := (List.nodup_append.mp hND).2.2
                refine List.nodup_append.mpr ⟨?_, ?_, ?_⟩
                · refine List.nodup_cons.mpr ⟨?_, hm1⟩
                  intro hcon
                  have h5 := hns1lt stc.pages.length (List.mem_append.mpr (Or.inl hcon))
                  omega
                · refine List.nodup_cons.mpr ⟨?_, hm2⟩
                  intro hcon
                  exact hpc (List.mem_append.mpr (Or.inr hcon))
                · intro x hx hx2
                  rcases List.mem_cons.mp hx with hx | hx
                  · subst hx
                    rcases List.mem_cons.mp hx2 with hx2 | hx2
                    · omega
                    · have h5 := hns1lt _ (List.mem_append.mpr (Or.inr hx2))
                      omega
                  · rcases List.mem_cons.mp hx2 with hx2 | hx2
                    · subst hx2
                      exact hpc (List.mem_append.mpr (Or.inl hx))
                    · exact hmd hx hx2

/-- `BTree.Insert`, conditioned on success, preserves the full tree
invariant and performs sorted insertion of a fresh key into the in-order
pair list. -/
theorem btInsert_preserves (st st2 : BStore) (K v : Bytes)
    (hwf : TreeWF st) (hok : btInsert st K v = BRes.ok st2) :
    TreeWF st2 ∧
    treePairs st2 = insertSorted K v (treePairs st) ∧
    (∀ q ∈ treePairs st, q.1 ≠ K) ∧
    st.pages.length ≤ st2.pages.length := by
  obtain ⟨h, nodes, leaves, hs, hnodup, hchain, hne⟩ := hwf
  have hvalid : ∀ p ∈ nodes, p < st.pages.length :=
    subtreeOK_nodes_lt st h st.root none none nodes leaves hs
  have hlvn : ∀ l ∈ leaves, l ∈ nodes :=
    (subtreeOK_facts st h st.root none none nodes leaves hs).2.2.1
  have hlty : ∀ l ∈ leaves, ∃ p n prs, st.pages.get? l = some (BNode.leaf p n prs) :=
    (subtreeOK_facts st h st.root none none nodes leaves hs).2.2.2.2.1
  have hhlt : h < nodes.length :=
    (subtreeOK_facts st h st.root none none nodes leaves hs).2.2.2.2.2
  have hleavlt : ∀ l ∈ leaves, l < st.pages.length := fun l hl => hvalid l (hlvn l hl)
  have hleavesnd : leaves.Nodup :=
    List.Nodup.sublist (subtreeOK_leaves_sublist st h st.root none none nodes leaves hs)
      hnodup
  have hprevne : ∀ l ∈ leaves, leafPrevAt st l ≠ some l := by
    intro l hl hcon
    obtain ⟨xs, post, hsplit⟩ := List.append_of_mem hl
    rcases chainFrom_prev st l post xs none (hsplit ▸ hchain) with ⟨_, hpl⟩ | ⟨x, hx, hpl⟩
    · rw [hpl] at hcon
      simp at hcon
    · rw [hpl] at hcon
      have hxl : x = l := Option.some.inj hcon
      subst hxl
      have hnd2 : (xs ++ x :: post).Nodup := hsplit ▸ hleavesnd
      exact (List.nodup_append.mp hnd2).2.2 hx (List.mem_cons_self _ _)
  have hnlen : nodes.length ≤ st.pages.length := nodup_lt_length_le nodes _ hnodup hvalid
  have hcl : collectLeaves st (st.pages.length + 2) st.root = leaves :=
    subtreeOK_collectLeaves st h st.root none none nodes leaves hs _ (by omega)
  have htp : treePairs st = chainPairs st leaves := by
    unfold treePairs
    rw [hcl]
  unfold btInsert at hok
  cases hrec : insertInternalGo (st.pages.length + 2) st st.root K v with
  | dup => rw [hrec] at hok; simp at hok
  | crash m => rw [hrec] at hok; simp at hok
  | ok res =>
    obtain ⟨st1, ovf⟩ := res
    rw [hrec] at hok
    obtain ⟨hfr, hle, hrt, hframe, nodes1, leaves1, hM, hC, hNE, hACC, hND⟩ :=
      insertInternalGo_preserves st K v h st.root none none nodes leaves
        (st.pages.length + 2) st1 ovf hs (by trivial) (by trivial) hnodup hvalid
        hprevne hrec
    have hn1lt : ∀ p ∈ nodes1, p < st1.pages.length := by
      intro p hp
      rcases hACC p hp with hp2 | hp2
      · exact lt_of_lt_of_le (hvalid p hp2) hle
      · exact hp2.2
    have hchain_splice : ∀ pre L post,
        leaves = pre ++ L :: post →
        SplitLinkUpdate st st1 L st.pages.length →
        ChainFrom st1 none (pre ++ st.pages.length :: L :: post) := by
      intro pre L post hls hslu
      have hchain3 : ChainFrom st none (pre ++ L :: post) := by rw [← hls]; exact hchain
      have hnd3 : (pre ++ L :: post).Nodup := by rw [← hls]; exact hleavesnd
      refine chainFrom_split_update st st1 L st.pages.length post hslu pre none
        hchain3 hnd3 ?_ ?_ ?_ ?_
      · intro hcon
        have h5 := hleavlt st.pages.length (by rw [hls]; exact hcon)
        omega
      · intro x hx
        exact hlty x (by rw [hls]; exact List.mem_append.mpr (Or.inl hx))
      · intro x hxp
        rcases chainFrom_prev st L post pre none hchain3 with ⟨_, hpl⟩ | ⟨y, hy, hpl⟩
        · rw [hpl] at hxp
          simp at hxp
        · rw [hpl] at hxp
          have hyx : y = x := Option.some.inj hxp
          subst hyx
          constructor
          · intro hcon
            exact (List.nodup_append.mp hnd3).2.2 hy hcon
          · intro hcon
            have h5 := hleavlt y (by rw [hls]; exact List.mem_append.mpr (Or.inl hy))
            omega
      · intro x hx
        simp at hx
    have hne_splice : ∀ pre L post,
        leaves = pre ++ L :: post →
        leaves1 = pre ++ st.pages.length :: L :: post →
        leafPairsAt st1 L ≠ [] → leafPairsAt st1 st.pages.length ≠ [] →
        ∀ l ∈ leaves1, leafPairsAt st1 l ≠ [] := by
      intro pre L post hls hls1 hneL hneNp l hl
      have hl2 : l ∈ pre ++ st.pages.length :: L :: post := by rw [← hls1]; exact hl
      rcases List.mem_append.mp hl2 with hl3 | hl3
      · have hl4 : l ∈ leaves := by rw [hls]; exact List.mem_append.mpr (Or.inl hl3)
        have hstne : leafPairsAt st l ≠ [] := by
          rcases hne l hl4 with h2 | h2
          · exact h2
          · exfalso
            have h3 : pre ++ L :: post = [l] := by rw [← hls]; exact h2
            have h4 := congrArg List.length h3
            simp at h4
            have h5 : pre = [] := List.length_eq_zero.mp (by omega)
            rw [h5] at hl3
            simp at hl3
        rcases hNE l hl with h1 | h1
        · exact h1
        · rw [h1]
          exact hstne
      · rcases List.mem_cons.mp hl3 with hl4 | hl4
        · rw [hl4]
          exact hneNp
        · rcases List.mem_cons.mp hl4 with hl5 | hl5
          · rw [hl5]
            exact hneL
          · have hl6 : l ∈ leaves := by
              rw [hls]
              exact List.mem_append.mpr (Or.inr (List.mem_cons.mpr (Or.inr hl5)))
            have hstne : leafPairsAt st l ≠ [] := by
              rcases hne l hl6 with h2 | h2
              · exact h2
              · exfalso
                have h3 : pre ++ L :: post = [l] := by rw [← hls]; exact h2
                have h4 := congrArg List.length h3
                simp at h4
                have h5 : post = [] := List.length_eq_zero.mp (by omega)
                rw [h5] at hl5
                simp at hl5
            rcases hNE l hl with h1 | h1
            · exact h1
            · rw [h1]
              exact hstne
    cases ovf with
    | none =>
      simp only [] at hok
      simp only [BRes.ok.injEq] at hok
      subst hok
      obtain ⟨hsub, hD⟩ := hM
      have hsub2 : SubtreeOK st1 h st1.root none none nodes1 leaves1 := by
        rw [hrt]
        exact hsub
      have hcl1 : collectLeaves st1 (st1.pages.length + 2) st1.root = leaves1 :=
        subtreeOK_collectLeaves st1 h st1.root none none nodes1 leaves1 hsub2 _
          (by omega)
      have htp2 : treePairs st1 = chainPairs st1 leaves1 := by
        unfold treePairs
        rw [hcl1]
      have hfin : ChainFrom st1 none leaves1 ∧
          (∀ l ∈ leaves1, leafPairsAt st1 l ≠ [] ∨ leaves1 = [l]) := by
        rcases hD with ⟨hleq, _, hlinks⟩ | ⟨pre, L, post, hls, hls1, hslu, hneL, hneNp⟩
        · subst hleq
          refine ⟨chainFrom_congr st st1 leaves1 none hchain (fun q _ => hlinks q), ?_⟩
          intro l hl
          rcases hNE l hl with h1 | h1
          · exact Or.inl h1
          · rcases hne l hl with h2 | h2
            · exact Or.inl (by rw [h1]; exact h2)
            · exact Or.inr h2
        · constructor
          · rw [hls1]
            exact hchain_splice pre L post hls hslu
          · intro l hl
            exact Or.inl (hne_splice pre L post hls hls1 hneL hneNp l hl)
      refine ⟨⟨h, nodes1, leaves1, hsub2, hND, hfin.1, hfin.2⟩, ?_, ?_, hle⟩
      · rw [htp2, htp]
        exact hC
      · rw [htp]
        exact hfr
    | some pr =>
      obtain ⟨okey, opid⟩ := pr
      simp only [] at hok
      simp only [BRes.ok.injEq] at hok
      subst hok
      obtain ⟨⟨nA, lA, nB, lB, hneq, hleq, hsubA, hsubB, _, _⟩,
        pre, L, post, hls, hls1, hslu, hneL, hneNp⟩ := hM
      subst hneq
      subst hleq
      have hget_nr : (⟨st1.pages ++ [BNode.branch [(okey, opid)] st.root],
          st1.pages.length⟩ : BStore).pages.get? st1.pages.length
          = some (BNode.branch [(okey, opid)] st.root) := by
        show (st1.pages ++ [BNode.branch [(okey, opid)] st.root]).get? st1.pages.length = _
        exact get?_concat_at _ _ _ rfl
      have hget_oth : ∀ q, q < st1.pages.length →
          (⟨st1.pages ++ [BNode.branch [(okey, opid)] st.root],
          st1.pages.length⟩ : BStore).pages.get? q = st1.pages.get? q := by
        intro q hq
        show (st1.pages ++ [BNode.branch [(okey, opid)] st.root]).get? q = _
        exact List.get?_append hq
      have hsh : ∀ p ∈ nA ++ nB, sameShape (st1.pages.get? p)
          ((⟨st1.pages ++ [BNode.branch [(okey, opid)] st.root],
          st1.pages.length⟩ : BStore).pages.get? p) :=
        fun p hp => sameShape_of_get_eq _ _ (hget_oth p (hn1lt p hp))
      have hsubroot : SubtreeOK (⟨st1.pages ++ [BNode.branch [(okey, opid)] st.root],
          st1.pages.length⟩ : BStore) (h + 1) st1.pages.length none none
          (st1.pages.length :: (nA ++ nB)) (lA ++ lB) := by
        refine ⟨[(okey, opid)], st.root, nA ++ nB, hget_nr, rfl, ?_⟩
        refine ⟨trivial, trivial, nA, lA, nB, lB, rfl, rfl, ?_, ?_⟩
        · exact subtreeOK_frame st1 _ h opid none (some okey) nA lA hsubA
            (fun p hp => hsh p (List.mem_append.mpr (Or.inl hp)))
        · exact subtreeOK_frame st1 _ h st.root (some okey) none nB lB hsubB
            (fun p hp => hsh p (List.mem_append.mpr (Or.inr hp)))
      have hlinks4 : ∀ q, leafPrevAt (⟨st1.pages ++ [BNode.branch [(okey, opid)] st.root],
          st1.pages.length⟩ : BStore) q = leafPrevAt st1 q ∧
          leafNextAt (⟨st1.pages ++ [BNode.branch [(okey, opid)] st.root],
          st1.pages.length⟩ : BStore) q = leafNextAt st1 q := by
        intro q
        exact linksEq_append_branch st1.pages st1.pages.length st1.root [(okey, opid)]
          st.root q
      have hlvn1 : ∀ l ∈ lA ++ lB, l ∈ nA ++ nB := by
        intro l hl
        rcases List.mem_append.mp hl with hl | hl
        · exact List.mem_append.mpr (Or.inl
            ((subtreeOK_facts st1 h opid none (some okey) nA lA hsubA).2.2.1 l hl))
        · exact List.mem_append.mpr (Or.inr
            ((subtreeOK_facts st1 h st.root (some okey) none nB lB hsubB).2.2.1 l hl))
      have hchain2 : ChainFrom (⟨st1.pages ++ [BNode.branch [(okey, opid)] st.root],
          st1.pages.length⟩ : BStore) none (lA ++ lB) := by
        have hc1 : ChainFrom st1 none (lA ++ lB) := by
          rw [hls1]
          exact hchain_splice pre L post hls hslu
        exact chainFrom_congr st1 _ (lA ++ lB) none hc1 (fun q _ => hlinks4 q)
      have hnd4 : (st1.pages.length :: (nA ++ nB)).Nodup := by
        refine List.nodup_cons.mpr ⟨?_, hND⟩
        intro hcon
        have h5 := hn1lt _ hcon
        omega
      have hne2 : ∀ l ∈ lA ++ lB,
          leafPairsAt (⟨st1.pages ++ [BNode.branch [(okey, opid)] st.root],
          st1.pages.length⟩ : BStore) l ≠ [] ∨ (lA ++ lB) = [l] := by
        intro l hl
        refine Or.inl ?_
        have hlp2 : leafPairsAt (⟨st1.pages ++ [BNode.branch [(okey, opid)] st.root],
            st1.pages.length⟩ : BStore) l = leafPairsAt st1 l :=
          leafPairsAt_of_sameShape st1 _ l (hsh l (hlvn1 l hl))
        rw [hlp2]
        exact hne_splice pre L post hls hls1 hneL hneNp l hl
      have hlen5 : (⟨st1.pages ++ [BNode.branch [(okey, opid)] st.root],
          st1.pages.length⟩ : BStore).pages.length = st1.pages.length + 1 := by simp
      have hcl2 : collectLeaves (⟨st1.pages ++ [BNode.branch [(okey, opid)] st.root],
          st1.pages.length⟩ : BStore)
          ((⟨st1.pages ++ [BNode.branch [(okey, opid)] st.root],
          st1.pages.length⟩ : BStore).pages.length + 2)
          (⟨st1.pages ++ [BNode.branch [(okey, opid)] st.root],
          st1.pages.length⟩ : BStore).root = lA ++ lB := by
        refine subtreeOK_collectLeaves _ (h + 1) _ none none _ _ hsubroot _ ?_
        omega
      refine ⟨⟨h + 1, st1.pages.length :: (nA ++ nB), lA ++ lB, hsubroot, hnd4,
        hchain2, hne2⟩, ?_, ?_, ?_⟩
      · have h7 : chainPairs (⟨st1.pages ++ [BNode.branch [(okey, opid)] st.root],
            st1.pages.length⟩ : BStore) (lA ++ lB) = chainPairs st1 (lA ++ lB) :=
          chainPairs_congr st1 _ (lA ++ lB) (fun l hl => hsh l (hlvn1 l hl))
        unfold treePairs
        rw [hcl2, h7, hcl]
        exact hC
      · rw [htp]
        exact hfr
      · omega

end Gorelly
